import Mathlib

/-!
Verification development for the chidb B-tree engine and its traversal cursor
(src/libchidb/btree.c, src/libchidb/dbm-cursor.c, src/libchidb/dbm-ops.c).

The development has two layers, mirroring the code:
* a byte-level layer (pages as functions from byte index to byte value),
  embedding the header validation of chidb_Btree_open and the cell insertion
  chidb_Btree_insertCell, which manipulate raw page bytes;
* a node-view layer (a page store mapping page numbers to parsed nodes),
  embedding find/insert/split and the dbm cursor, which only ever touch pages
  through the BTreeNode/BTreeCell view of btree.c.

Machine integers are modelled as Nat with explicit reductions modulo 2^16 or
2^32 where the C performs uint16_t / uint32_t arithmetic.
-/

namespace Chidb

/-- Success code, chidbInt.h: CHIDB_OK is 0. -/
def CHIDB_OK : Int := 0

/-- dbm-cursor.h line 49: CHIDB_CURSOR_ENONEXT is 1. -/
def CHIDB_CURSOR_ENONEXT : Int := 1

/-- dbm-cursor.h line 50: CHIDB_CURSOR_EKEYNOTFOUND is 2. -/
def CHIDB_CURSOR_EKEYNOTFOUND : Int := 2

/-- dbm-cursor.h line 51: CHIDB_CURSOR_ENOPREV is 3. -/
def CHIDB_CURSOR_ENOPREV : Int := 3

/-- Modelled from the spec: chidb.h (not in src/) defines the error kinds of
section 7; only distinctness of the codes matters to the claims, so the
numeric values are chosen fresh. -/
def CHIDB_ECORRUPTHEADER : Int := 101

/-- Modelled from the spec: error kind NotFound of section 7 (chidb.h not in src/). -/
def CHIDB_ENOTFOUND : Int := 102

/-- Modelled from the spec: error kind Duplicate of section 7 (chidb.h not in src/). -/
def CHIDB_EDUPLICATE : Int := 103

/-- Modelled from the spec: error kind CellNo of section 7 (chidb.h not in src/). -/
def CHIDB_ECELLNO : Int := 104

/-- Modelled from the spec: error kind PageNo of section 7 (chidb.h not in src/). -/
def CHIDB_EPAGENO : Int := 105

/-- Modelled from the spec: error kind NoMem of section 7 (chidb.h not in src/). -/
def CHIDB_ENOMEM : Int := 106

/-- Model-internal code for exhausted recursion fuel; never returned by any
run that the theorems below speak about (they always supply enough fuel). -/
def MODEL_EFUEL : Int := 201

/-- Model-internal code for an unreachable state (a C code path that would
dereference an absent node); excluded by the validity hypotheses. -/
def MODEL_ESTUCK : Int := 202

/-- Modelled from the spec: chidbInt.h (not in src/) sets the default page
size; the spec (section 6.1) records that the reference uses 1024. -/
def DEFAULT_PAGE_SIZE : Nat := 1024

/-- The four node types of btree.h (btree.h is not in src/; the type tags are
used only symbolically, so their numeric values are irrelevant here). -/
inductive PageType
  | tableInternal
  | tableLeaf
  | indexInternal
  | indexLeaf
deriving DecidableEq

/-- A node type is a leaf type: the test used by currentNodeIsLeaf and by the
leaf break in chidb_Btree_find (btree.c line 616). -/
def PageType.isLeaf : PageType → Bool
  | .tableLeaf => true
  | .indexLeaf => true
  | _ => false

/-- A node type is internal: the is_internal_node test of btree.c. -/
def PageType.isInternal : PageType → Bool
  | .tableInternal => true
  | .indexInternal => true
  | _ => false

/-! ### Byte-level page primitives

A page image is a function from byte index to byte value.  These embed the
big-endian helpers get2byte/put2byte/get4byte/put4byte consumed by btree.c
(their implementations live in util.c, outside src/, but their contracts are
fixed by spec section 4.1: big-endian fixed width). -/

/-- Write one byte (reduced mod 256, as storing to a uint8_t does). -/
def writeByte (d : Nat → Nat) (off v : Nat) : Nat → Nat :=
  fun i => if i = off then v % 256 else d i

/-- Modelled from the spec: put2byte of util.c (not in src/), big-endian u16
store per spec section 4.1. -/
def put2byte (d : Nat → Nat) (off v : Nat) : Nat → Nat :=
  writeByte (writeByte d off (v / 256)) (off + 1) v

/-- Modelled from the spec: get2byte of util.c (not in src/), big-endian u16
load per spec section 4.1. -/
def get2byte (d : Nat → Nat) (off : Nat) : Nat :=
  d off * 256 + d (off + 1)

/-- Modelled from the spec: put4byte of util.c (not in src/), big-endian u32
store per spec section 4.1. -/
def put4byte (d : Nat → Nat) (off v : Nat) : Nat → Nat :=
  writeByte (writeByte (writeByte (writeByte d off (v / 2 ^ 24)) (off + 1) (v / 2 ^ 16))
    (off + 2) (v / 2 ^ 8)) (off + 3) v

/-- Modelled from the spec: get4byte of util.c (not in src/), big-endian u32
load per spec section 4.1. -/
def get4byte (d : Nat → Nat) (off : Nat) : Nat :=
  d off * 2 ^ 24 + d (off + 1) * 2 ^ 16 + d (off + 2) * 2 ^ 8 + d (off + 3)

/-- Modelled from the spec: putVarint32 of util.c (not in src/).  Spec
section 4.1 fixes the encoding contract (7 value bits per byte, high bit is
the continuation flag); the fixed 4-byte stride of the cell layouts in
btree.c (offsets 0, 4, 8 in getCell/insertCell) forces the canonical 4-byte
wide form, in which the first three bytes carry a set continuation bit. -/
def putVarint32 (d : Nat → Nat) (off v : Nat) : Nat → Nat :=
  writeByte (writeByte (writeByte (writeByte d off (v / 2 ^ 21 % 128 + 128))
    (off + 1) (v / 2 ^ 14 % 128 + 128)) (off + 2) (v / 2 ^ 7 % 128 + 128)) (off + 3) (v % 128)

/-- Modelled from the spec: getVarint32 of util.c (not in src/), reading the
canonical 4-byte varint back (7 bits contributed per byte). -/
def getVarint32 (d : Nat → Nat) (off : Nat) : Nat :=
  d off % 128 * 2 ^ 21 + d (off + 1) % 128 * 2 ^ 14 + d (off + 2) % 128 * 2 ^ 7 + d (off + 3) % 128

/-- memmove restricted to byte buffers inside one page: the destination range
[dst, dst+len) receives the bytes that were at [src, src+len) (memmove copies
as if through a temporary, so the pre-state is read). -/
def memmoveBytes (d : Nat → Nat) (dst src len : Nat) : Nat → Nat :=
  fun i => if dst ≤ i ∧ i < dst + len then d (src + (i - dst)) else d i

/-- memcpy of a byte list into a page at a given offset, copying len bytes
(bytes past the end of the list read as 0). -/
def memcpyBytes (d : Nat → Nat) (off : Nat) (src : List Nat) (len : Nat) : Nat → Nat :=
  fun i => if off ≤ i ∧ i < off + len then src.getD (i - off) 0 % 256 else d i

/-- uint16_t result of a C subtraction a - b performed in 32-bit arithmetic
and stored into a uint16_t field (as in cells_offset -= cell_size). -/
def sub16 (a b : Nat) : Nat :=
  (a + 2 ^ 32 - b % 2 ^ 32) % 2 ^ 16

/-! ### Header validation of chidb_Btree_open (claim C5)

chidb_Btree_open, btree.c lines 142-172: on a non-empty file it reads the
stored page size from header bytes 16..17, configures the pager with exactly
that size, and then validates the magic string and a fixed set of four-byte
fields.  The file header is modelled as a list of bytes (index 0 = file
offset 0). -/

/-- Big-endian u32 load from the header buffer: betole of btree.c lines 61-63. -/
def betole (h : List Nat) (off : Nat) : Nat :=
  h.getD off 0 * 2 ^ 24 + h.getD (off + 1) 0 * 2 ^ 16 + h.getD (off + 2) 0 * 2 ^ 8 +
    h.getD (off + 3) 0

/-- The 16 bytes of the ASCII literal "SQLite format 3" with its NUL
terminator, written as byte values. -/
def sqliteMagic : List Nat :=
  [83, 81, 76, 105, 116, 101, 32, 102, 111, 114, 109, 97, 116, 32, 51, 0]

/-- strcmp("SQLite format 3", header) == 0, btree.c line 153: equality of the
first 16 header bytes with the literal and its terminator. -/
def magicOk (h : List Nat) : Bool :=
  (List.range 16).all fun i => h.getD i 0 == sqliteMagic.getD i 0

/-- The field validation of btree.c lines 157-170: the exact set of four-byte
big-endian fields the code compares, with the exact constants. -/
def headerFieldsOk (h : List Nat) : Bool :=
  betole h 0x18 == 0 && (betole h 0x20 == 0 && (betole h 0x24 == 0 &&
  (betole h 0x28 == 0 && (betole h 0x2C == 1 && (betole h 0x30 == 20000 &&
  (betole h 0x34 == 0 && (betole h 0x38 == 1 && (betole h 0x3C == 0 &&
  betole h 0x40 == 0))))))))

/-- The non-empty-file branch of chidb_Btree_open (btree.c lines 142-172):
returns the chidb status together with the page size handed to
chidb_Pager_setPageSize.  The page size is taken from header bytes 16..17 and
adopted before any validation runs. -/
def chidb_Btree_open_nonempty (h : List Nat) : Int × Nat :=
  let pageSize := h.getD 16 0 * 256 + h.getD 17 0
  if magicOk h then
    if headerFieldsOk h then (CHIDB_OK, pageSize) else (CHIDB_ECORRUPTHEADER, pageSize)
  else (CHIDB_ECORRUPTHEADER, pageSize)

/-! ### Cells and the byte-level node view (claim C7)

BTreeCell of btree.h is a struct with a type tag, a common key, and a union
of per-type fields; it is modelled as a sum.  The accessor functions below
model reads of a union member: when the member was never stored the C value
is unspecified, modelled as 0 / []; every theorem below only applies them to
matching cells. -/

inductive BTreeCell
  | tableInternal (child_page : Nat) (key : Nat)
  | tableLeaf (key : Nat) (data_size : Nat) (data : List Nat)
  | indexInternal (child_page : Nat) (key : Nat) (keyPk : Nat)
  | indexLeaf (key : Nat) (keyPk : Nat)
deriving DecidableEq

/-- The common key field of a BTreeCell. -/
def BTreeCell.key : BTreeCell → Nat
  | .tableInternal _ k => k
  | .tableLeaf k _ _ => k
  | .indexInternal _ k _ => k
  | .indexLeaf k _ => k

/-- The child_page union member (0 when reading a member never stored). -/
def BTreeCell.child_page : BTreeCell → Nat
  | .tableInternal cp _ => cp
  | .indexInternal cp _ _ => cp
  | _ => 0

/-- The keyPk union member (0 when reading a member never stored). -/
def BTreeCell.keyPk : BTreeCell → Nat
  | .indexInternal _ _ pk => pk
  | .indexLeaf _ pk => pk
  | _ => 0

/-- The tableLeaf.data_size union member. -/
def BTreeCell.data_size : BTreeCell → Nat
  | .tableLeaf _ ds _ => ds
  | _ => 0

/-- The tableLeaf.data union member. -/
def BTreeCell.data : BTreeCell → List Nat
  | .tableLeaf _ _ d => d
  | _ => []

/-- The cell type tag of a cell (cell->type in the C). -/
def BTreeCell.ctype : BTreeCell → PageType
  | .tableInternal _ _ => .tableInternal
  | .tableLeaf _ _ _ => .tableLeaf
  | .indexInternal _ _ _ => .indexInternal
  | .indexLeaf _ _ => .indexLeaf

/-- Cell size in bytes: the switch at btree.c lines 506-522 (and again at
789-808), keyed on the node type. -/
def cellSizeBytes (t : PageType) (c : BTreeCell) : Nat :=
  match t with
  | .tableInternal => 8
  | .tableLeaf => 8 + c.data_size
  | .indexInternal => 16
  | .indexLeaf => 12

/-- The byte-level in-memory node view: the BTreeNode struct of btree.h as
loaded by chidb_Btree_getNodeByPage.  pageData is the page image the node
points into; celloffset_array is the byte position of the cell-offset array
within that image (data + 8 or 12, plus 100 on page 1). -/
structure BTreeNode where
  pageData : Nat → Nat
  npage : Nat
  type : PageType
  free_offset : Nat
  n_cells : Nat
  cells_offset : Nat
  right_page : Nat
  celloffset_array : Nat

/-- The cell-serialization switch of chidb_Btree_insertCell, btree.c lines
530-555: writes the cell image at position co of the page. -/
def writeCellBytes (t : PageType) (c : BTreeCell) (d : Nat → Nat) (co : Nat) : Nat → Nat :=
  match t with
  | .tableInternal => putVarint32 (put4byte d co c.child_page) (co + 4) c.key
  | .tableLeaf =>
      memcpyBytes (putVarint32 (putVarint32 d co c.data_size) (co + 4) c.key)
        (co + 8) c.data c.data_size
  | .indexInternal =>
      put4byte (put4byte (put4byte (put4byte d co c.child_page) (co + 4) 0x0B030404)
        (co + 8) c.key) (co + 12) c.keyPk
  | .indexLeaf =>
      put4byte (put4byte (put4byte d co 0x0B030404) (co + 4) c.key) (co + 8) c.keyPk

/-- chidb_Btree_insertCell, btree.c lines 499-578: returns the chidb status
together with the node after the call (the C mutates in place; on ECELLNO
the node is returned untouched, as the C touches nothing before that test). -/
def chidb_Btree_insertCell (btn : BTreeNode) (ncell : Nat) (cell : BTreeCell) :
    Int × BTreeNode :=
  if ncell > btn.n_cells then (CHIDB_ECELLNO, btn)
  else
    let cell_size := cellSizeBytes btn.type cell
    let co := sub16 btn.cells_offset cell_size
    let d1 := writeCellBytes btn.type cell btn.pageData co
    let cell_i := 2 * ncell
    let d2 :=
      if ncell < btn.n_cells then
        memmoveBytes d1 (btn.celloffset_array + cell_i + 2) (btn.celloffset_array + cell_i)
          (2 * (btn.n_cells - ncell))
      else d1
    let d3 := put2byte d2 (btn.celloffset_array + cell_i) co
    (CHIDB_OK,
      { btn with
        pageData := d3
        cells_offset := co
        free_offset := (btn.free_offset + 2) % 2 ^ 16
        n_cells := (btn.n_cells + 1) % 2 ^ 16 })

/-- The serialized image of a cell as an explicit byte list (length
cellSizeBytes), used to state what chidb_Btree_insertCell deposits at the new
cells_offset. -/
def cellImage (t : PageType) (c : BTreeCell) : List Nat :=
  match t with
  | .tableInternal =>
      [c.child_page / 2 ^ 24 % 256, c.child_page / 2 ^ 16 % 256, c.child_page / 2 ^ 8 % 256,
       c.child_page % 256, c.key / 2 ^ 21 % 128 + 128, c.key / 2 ^ 14 % 128 + 128,
       c.key / 2 ^ 7 % 128 + 128, c.key % 128]
  | .tableLeaf =>
      [c.data_size / 2 ^ 21 % 128 + 128, c.data_size / 2 ^ 14 % 128 + 128,
       c.data_size / 2 ^ 7 % 128 + 128, c.data_size % 128, c.key / 2 ^ 21 % 128 + 128,
       c.key / 2 ^ 14 % 128 + 128, c.key / 2 ^ 7 % 128 + 128, c.key % 128] ++
      (List.range c.data_size).map fun i => c.data.getD i 0 % 256
  | .indexInternal =>
      [c.child_page / 2 ^ 24 % 256, c.child_page / 2 ^ 16 % 256, c.child_page / 2 ^ 8 % 256,
       c.child_page % 256, 0x0B, 0x03, 0x04, 0x04, c.key / 2 ^ 24 % 256, c.key / 2 ^ 16 % 256,
       c.key / 2 ^ 8 % 256, c.key % 256, c.keyPk / 2 ^ 24 % 256, c.keyPk / 2 ^ 16 % 256,
       c.keyPk / 2 ^ 8 % 256, c.keyPk % 256]
  | .indexLeaf =>
      [0x0B, 0x03, 0x04, 0x04, c.key / 2 ^ 24 % 256, c.key / 2 ^ 16 % 256, c.key / 2 ^ 8 % 256,
       c.key % 256, c.keyPk / 2 ^ 24 % 256, c.keyPk / 2 ^ 16 % 256, c.keyPk / 2 ^ 8 % 256,
       c.keyPk % 256]

/-- A header that satisfies every field chidb_Btree_open actually checks, and
also the spec's 0x12..0x17 literal: page size 1024, 0x2C = 1, 0x30 = 20000,
0x38 = 1, all else zero. -/
def c5GoodHeader : List Nat :=
  sqliteMagic ++ [4, 0] ++ [1, 1, 0, 0x40, 0x20, 0x20] ++ List.replicate 20 0 ++
    [0, 0, 0, 1] ++ [0, 0, 78, 32] ++ [0, 0, 0, 0] ++ [0, 0, 0, 1] ++ List.replicate 40 0

/-- c5GoodHeader with bytes 0x12..0x17 replaced by 9 9 9 9 9 9, violating the
spec's "bytes 0x12..0x17 are the literal 01 01 00 40 20 20" invariant. -/
def c5BadHeader : List Nat :=
  sqliteMagic ++ [4, 0] ++ [9, 9, 9, 9, 9, 9] ++ List.replicate 20 0 ++
    [0, 0, 0, 1] ++ [0, 0, 78, 32] ++ [0, 0, 0, 0] ++ [0, 0, 0, 1] ++ List.replicate 40 0

/-- The set of header conditions that chidb_Btree_open does compare, written
out as a proposition: the 16-byte magic string, and the ten four-byte
big-endian fields of btree.c lines 157-170 with their constants.  Bytes
0x12..0x17, bytes 0x1C..0x1F, bytes 0x44..0x63 and the stored page size are
not among them. -/
def headerSpecChecked (h : List Nat) : Prop :=
  (∀ i, i < 16 → h.getD i 0 = sqliteMagic.getD i 0) ∧
  betole h 0x18 = 0 ∧ betole h 0x20 = 0 ∧ betole h 0x24 = 0 ∧ betole h 0x28 = 0 ∧
  betole h 0x2C = 1 ∧ betole h 0x30 = 20000 ∧ betole h 0x34 = 0 ∧ betole h 0x38 = 1 ∧
  betole h 0x3C = 0 ∧ betole h 0x40 = 0

/-- C5, counterexample: a non-empty file whose header has 9 9 9 9 9 9 at bytes
0x12..0x17 (violating the spec's literal 01 01 00 40 20 20) is accepted by
chidb_Btree_open with CHIDB_OK, not rejected with CHIDB_ECORRUPTHEADER: the
open-time validation never reads bytes 0x12..0x17. -/
theorem C5_counterexample :
    c5BadHeader.getD 0x12 0 = 9 ∧ c5BadHeader.getD 0x12 0 ≠ 0x01 ∧
    chidb_Btree_open_nonempty c5BadHeader = (CHIDB_OK, 1024) ∧
    CHIDB_OK ≠ CHIDB_ECORRUPTHEADER := by
  refine ⟨by decide, by decide, by decide, by decide⟩

/-- C5, amended: on a non-empty file, chidb_Btree_open returns CHIDB_OK exactly
when the 16-byte magic string and the ten checked four-byte fields (0x18,
0x20, 0x24, 0x28 zero; 0x2C = 1; 0x30 = 20000; 0x34 zero; 0x38 = 1; 0x3C and
0x40 zero) hold; bytes 0x12..0x17 are not validated, and the page size stored
in bytes 16..17 is adopted by the pager rather than compared against a
configured size. -/
theorem C5_open_checks_exactly (h : List Nat) :
    ((chidb_Btree_open_nonempty h).1 = CHIDB_OK ↔ headerSpecChecked h) ∧
    (chidb_Btree_open_nonempty h).2 = h.getD 16 0 * 256 + h.getD 17 0 := by
  have hiff : headerSpecChecked h ↔ (magicOk h = true ∧ headerFieldsOk h = true) := by
    simp only [headerSpecChecked, magicOk, headerFieldsOk, List.all_eq_true, List.mem_range,
      Bool.and_eq_true, beq_iff_eq]
  rw [hiff]
  rcases Bool.eq_false_or_eq_true (magicOk h) with hm | hm <;>
    rcases Bool.eq_false_or_eq_true (headerFieldsOk h) with hf | hf <;>
    simp [chidb_Btree_open_nonempty, hm, hf, CHIDB_OK, CHIDB_ECORRUPTHEADER]

/-! ### Effects of chidb_Btree_insertCell (claim C7) -/

theorem put2byte_outside (d : Nat → Nat) (off v i : Nat) (h : i < off ∨ off + 2 ≤ i) :
    put2byte d off v i = d i := by
  simp only [put2byte, writeByte]
  split_ifs <;> first | rfl | omega

theorem put4byte_outside (d : Nat → Nat) (off v i : Nat) (h : i < off ∨ off + 4 ≤ i) :
    put4byte d off v i = d i := by
  simp only [put4byte, writeByte]
  split_ifs <;> first | rfl | omega

theorem putVarint32_outside (d : Nat → Nat) (off v i : Nat) (h : i < off ∨ off + 4 ≤ i) :
    putVarint32 d off v i = d i := by
  simp only [putVarint32, writeByte]
  split_ifs <;> first | rfl | omega

theorem memcpyBytes_outside (d : Nat → Nat) (off : Nat) (src : List Nat) (len i : Nat)
    (h : i < off ∨ off + len ≤ i) : memcpyBytes d off src len i = d i := by
  simp only [memcpyBytes]
  split_ifs <;> first | rfl | omega

theorem memmoveBytes_outside (d : Nat → Nat) (dst src len i : Nat)
    (h : i < dst ∨ dst + len ≤ i) : memmoveBytes d dst src len i = d i := by
  simp only [memmoveBytes]
  split_ifs <;> first | rfl | omega

theorem memmoveBytes_inside (d : Nat → Nat) (dst src len i : Nat)
    (h1 : dst ≤ i) (h2 : i < dst + len) : memmoveBytes d dst src len i = d (src + (i - dst)) := by
  simp only [memmoveBytes]
  split_ifs <;> first | rfl | omega

theorem get2byte_put2byte (d : Nat → Nat) (off v : Nat) (hv : v < 2 ^ 16) :
    get2byte (put2byte d off v) off = v := by
  simp only [get2byte, put2byte, writeByte]
  split_ifs <;> omega

theorem sub16_of_le (a b : Nat) (hb : b ≤ a) (ha : a < 2 ^ 16) : sub16 a b = a - b := by
  unfold sub16
  omega

/-- The serialization of chidb_Btree_insertCell touches only the cell_size
bytes below the previous cells_offset. -/
theorem writeCellBytes_outside (t : PageType) (c : BTreeCell) (d : Nat → Nat) (co i : Nat)
    (h : i < co ∨ co + cellSizeBytes t c ≤ i) : writeCellBytes t c d co i = d i := by
  cases t
  case tableInternal =>
    simp only [cellSizeBytes] at h
    simp only [writeCellBytes]
    rw [putVarint32_outside _ _ _ _ (by omega), put4byte_outside _ _ _ _ (by omega)]
  case tableLeaf =>
    simp only [cellSizeBytes] at h
    simp only [writeCellBytes]
    rw [memcpyBytes_outside _ _ _ _ _ (by omega), putVarint32_outside _ _ _ _ (by omega),
      putVarint32_outside _ _ _ _ (by omega)]
  case indexInternal =>
    simp only [cellSizeBytes] at h
    simp only [writeCellBytes]
    rw [put4byte_outside _ _ _ _ (by omega), put4byte_outside _ _ _ _ (by omega),
      put4byte_outside _ _ _ _ (by omega), put4byte_outside _ _ _ _ (by omega)]
  case indexLeaf =>
    simp only [cellSizeBytes] at h
    simp only [writeCellBytes]
    rw [put4byte_outside _ _ _ _ (by omega), put4byte_outside _ _ _ _ (by omega),
      put4byte_outside _ _ _ _ (by omega)]

set_option maxHeartbeats 2000000 in
/-- The serialization of chidb_Btree_insertCell deposits exactly the cell
image of the node's cell format at the target offset. -/
theorem writeCellBytes_at (t : PageType) (c : BTreeCell) (d : Nat → Nat) (co j : Nat)
    (hj : j < cellSizeBytes t c) : writeCellBytes t c d co (co + j) = (cellImage t c).getD j 0 := by
  cases t
  case tableInternal =>
    simp only [cellSizeBytes] at hj
    interval_cases j <;>
      simp [writeCellBytes, putVarint32, put4byte, writeByte, cellImage] <;>
      first | rfl | omega | (split_ifs <;> first | rfl | omega)
  case tableLeaf =>
    simp only [cellSizeBytes] at hj
    by_cases h8 : j < 8
    · interval_cases j <;>
        simp [writeCellBytes, putVarint32, put4byte, writeByte, memcpyBytes,
          cellImage] <;> first | rfl | omega | (split_ifs <;> first | rfl | omega)
    · have hds : 8 ≤ j ∧ j < 8 + c.data_size := by omega
      simp only [writeCellBytes, memcpyBytes]
      rw [if_pos (by omega)]
      have hsub : co + j - (co + 8) = j - 8 := by omega
      rw [hsub]
      rw [cellImage]
      rw [List.getD_append_right _ _ _ _ (by simp; omega)]
      simp only [List.length_cons, List.length_nil]
      have hlt : j - 8 < c.data_size := by omega
      simp [List.getD_eq_getElem?_getD, List.getElem?_map, List.getElem?_range hlt]
  case indexInternal =>
    simp only [cellSizeBytes] at hj
    interval_cases j <;>
      simp [writeCellBytes, putVarint32, put4byte, writeByte, cellImage] <;>
      first | rfl | omega | (split_ifs <;> first | rfl | omega)
  case indexLeaf =>
    simp only [cellSizeBytes] at hj
    interval_cases j <;>
      simp [writeCellBytes, putVarint32, put4byte, writeByte, cellImage] <;>
      first | rfl | omega | (split_ifs <;> first | rfl | omega)

/-- Unfolding equation for the successful branch of chidb_Btree_insertCell. -/
theorem chidb_Btree_insertCell_eq (btn : BTreeNode) (ncell : Nat) (cell : BTreeCell)
    (hn : ncell ≤ btn.n_cells) :
    chidb_Btree_insertCell btn ncell cell =
      (CHIDB_OK,
        { btn with
          pageData := put2byte
            (if ncell < btn.n_cells then
               memmoveBytes (writeCellBytes btn.type cell btn.pageData
                   (sub16 btn.cells_offset (cellSizeBytes btn.type cell)))
                 (btn.celloffset_array + 2 * ncell + 2) (btn.celloffset_array + 2 * ncell)
                 (2 * (btn.n_cells - ncell))
             else writeCellBytes btn.type cell btn.pageData
                   (sub16 btn.cells_offset (cellSizeBytes btn.type cell)))
            (btn.celloffset_array + 2 * ncell)
            (sub16 btn.cells_offset (cellSizeBytes btn.type cell))
          cells_offset := sub16 btn.cells_offset (cellSizeBytes btn.type cell)
          free_offset := (btn.free_offset + 2) % 2 ^ 16
          n_cells := (btn.n_cells + 1) % 2 ^ 16 }) := by
  unfold chidb_Btree_insertCell
  rw [if_neg (by omega)]

/-- C7: for a node whose cell-offset array ends at free_offset (the node
layout invariant) and a cell that fits, chidb_Btree_insertCell with
0 ≤ ncell ≤ n_cells returns CHIDB_OK and (1) decrements cells_offset by the
cell size, (2) serializes the cell image at the new cells_offset, (3) leaves
offset-array entries below ncell unchanged, writes the new cell's offset at
position ncell, and shifts the entries formerly at [ncell, n_cells) up by two
bytes, and (4) increments n_cells by one and free_offset by two; and for
every position m it returns CHIDB_ECELLNO exactly when m > n_cells, leaving
the node unchanged in that case. -/
theorem C7_insertCell_effects (btn : BTreeNode) (ncell : Nat) (cell : BTreeCell)
    (harr : btn.free_offset = btn.celloffset_array + 2 * btn.n_cells)
    (hfits : btn.free_offset + 2 + cellSizeBytes btn.type cell ≤ btn.cells_offset)
    (hco : btn.cells_offset < 2 ^ 16)
    (hn : ncell ≤ btn.n_cells) :
    (chidb_Btree_insertCell btn ncell cell).1 = CHIDB_OK ∧
    ((chidb_Btree_insertCell btn ncell cell).2).cells_offset =
      btn.cells_offset - cellSizeBytes btn.type cell ∧
    ((chidb_Btree_insertCell btn ncell cell).2).n_cells = btn.n_cells + 1 ∧
    ((chidb_Btree_insertCell btn ncell cell).2).free_offset = btn.free_offset + 2 ∧
    (∀ j, j < cellSizeBytes btn.type cell →
      ((chidb_Btree_insertCell btn ncell cell).2).pageData
          (btn.cells_offset - cellSizeBytes btn.type cell + j) =
        (cellImage btn.type cell).getD j 0) ∧
    (∀ j, j < ncell →
      get2byte ((chidb_Btree_insertCell btn ncell cell).2).pageData
          (btn.celloffset_array + 2 * j) =
        get2byte btn.pageData (btn.celloffset_array + 2 * j)) ∧
    get2byte ((chidb_Btree_insertCell btn ncell cell).2).pageData
        (btn.celloffset_array + 2 * ncell) =
      btn.cells_offset - cellSizeBytes btn.type cell ∧
    (∀ j, ncell ≤ j → j < btn.n_cells →
      get2byte ((chidb_Btree_insertCell btn ncell cell).2).pageData
          (btn.celloffset_array + 2 * (j + 1)) =
        get2byte btn.pageData (btn.celloffset_array + 2 * j)) ∧
    (∀ m, (chidb_Btree_insertCell btn m cell).1 = CHIDB_ECELLNO ↔ btn.n_cells < m) ∧
    (∀ m, btn.n_cells < m → (chidb_Btree_insertCell btn m cell).2 = btn) := by
  have hcs : cellSizeBytes btn.type cell ≤ btn.cells_offset := by omega
  have hsub : sub16 btn.cells_offset (cellSizeBytes btn.type cell) =
      btn.cells_offset - cellSizeBytes btn.type cell := sub16_of_le _ _ hcs hco
  have hnlt : btn.n_cells + 1 < 2 ^ 16 := by omega
  have hfo : btn.free_offset + 2 < 2 ^ 16 := by omega
  rw [chidb_Btree_insertCell_eq btn ncell cell hn]
  refine ⟨rfl, by simp [hsub], by simpa using Nat.mod_eq_of_lt hnlt,
    by simpa using Nat.mod_eq_of_lt hfo, ?_, ?_, ?_, ?_, ?_, ?_⟩
  · -- the serialized cell image below the old cells_offset
    intro j hj
    simp only [hsub]
    rw [put2byte_outside _ _ _ _ (by omega)]
    have hout : btn.celloffset_array + 2 * btn.n_cells + 2 ≤
        btn.cells_offset - cellSizeBytes btn.type cell + j := by omega
    by_cases hlt : ncell < btn.n_cells
    · rw [if_pos hlt, memmoveBytes_outside _ _ _ _ _ (by omega)]
      exact writeCellBytes_at btn.type cell btn.pageData
        (btn.cells_offset - cellSizeBytes btn.type cell) j hj
    · rw [if_neg hlt]
      exact writeCellBytes_at btn.type cell btn.pageData
        (btn.cells_offset - cellSizeBytes btn.type cell) j hj
  · -- entries below ncell unchanged
    intro j hj
    have hb : ∀ i, btn.celloffset_array ≤ i → i < btn.celloffset_array + 2 * ncell →
        put2byte
            (if ncell < btn.n_cells then
               memmoveBytes (writeCellBytes btn.type cell btn.pageData
                   (sub16 btn.cells_offset (cellSizeBytes btn.type cell)))
                 (btn.celloffset_array + 2 * ncell + 2) (btn.celloffset_array + 2 * ncell)
                 (2 * (btn.n_cells - ncell))
             else writeCellBytes btn.type cell btn.pageData
                   (sub16 btn.cells_offset (cellSizeBytes btn.type cell)))
            (btn.celloffset_array + 2 * ncell)
            (sub16 btn.cells_offset (cellSizeBytes btn.type cell)) i = btn.pageData i := by
      intro i hi1 hi2
      rw [put2byte_outside _ _ _ _ (by omega)]
      by_cases hlt : ncell < btn.n_cells
      · rw [if_pos hlt, memmoveBytes_outside _ _ _ _ _ (by omega), hsub,
          writeCellBytes_outside _ _ _ _ _ (by omega)]
      · rw [if_neg hlt, hsub, writeCellBytes_outside _ _ _ _ _ (by omega)]
    show get2byte _ _ = _
    dsimp only
    unfold get2byte
    rw [hb _ (by omega) (by omega), hb _ (by omega) (by omega)]
  · -- the new offset written at position ncell
    have := get2byte_put2byte
      (if ncell < btn.n_cells then
         memmoveBytes (writeCellBytes btn.type cell btn.pageData
             (sub16 btn.cells_offset (cellSizeBytes btn.type cell)))
           (btn.celloffset_array + 2 * ncell + 2) (btn.celloffset_array + 2 * ncell)
           (2 * (btn.n_cells - ncell))
       else writeCellBytes btn.type cell btn.pageData
             (sub16 btn.cells_offset (cellSizeBytes btn.type cell)))
      (btn.celloffset_array + 2 * ncell)
      (sub16 btn.cells_offset (cellSizeBytes btn.type cell)) (by omega)
    simpa [hsub] using this
  · -- entries formerly at [ncell, n_cells) shifted up by two bytes
    intro j hj1 hj2
    have hlt : ncell < btn.n_cells := by omega
    have hbyte : ∀ b, b < 2 →
        put2byte
            (if ncell < btn.n_cells then
               memmoveBytes (writeCellBytes btn.type cell btn.pageData
                   (sub16 btn.cells_offset (cellSizeBytes btn.type cell)))
                 (btn.celloffset_array + 2 * ncell + 2) (btn.celloffset_array + 2 * ncell)
                 (2 * (btn.n_cells - ncell))
             else writeCellBytes btn.type cell btn.pageData
                   (sub16 btn.cells_offset (cellSizeBytes btn.type cell)))
            (btn.celloffset_array + 2 * ncell)
            (sub16 btn.cells_offset (cellSizeBytes btn.type cell))
            (btn.celloffset_array + 2 * (j + 1) + b) =
          btn.pageData (btn.celloffset_array + 2 * j + b) := by
      intro b hb2
      rw [put2byte_outside _ _ _ _ (by omega), if_pos hlt,
        memmoveBytes_inside _ _ _ _ _ (by omega) (by omega)]
      have harith : btn.celloffset_array + 2 * ncell +
          (btn.celloffset_array + 2 * (j + 1) + b - (btn.celloffset_array + 2 * ncell + 2)) =
          btn.celloffset_array + 2 * j + b := by omega
      rw [harith, hsub, writeCellBytes_outside _ _ _ _ _ (by omega)]
    show get2byte _ _ = _
    dsimp only
    unfold get2byte
    have h0 := hbyte 0 (by omega)
    have h1 := hbyte 1 (by omega)
    simp only [Nat.add_zero] at h0
    rw [h0, h1]
  · -- CHIDB_ECELLNO exactly when the position is out of range
    intro m
    constructor
    · intro hm
      by_contra hc
      rw [chidb_Btree_insertCell_eq btn m cell (by omega)] at hm
      exact absurd hm (by simp [CHIDB_OK, CHIDB_ECELLNO])
    · intro hm
      unfold chidb_Btree_insertCell
      rw [if_pos (by omega)]
  · -- and in that case the node is untouched
    intro m hm
    unfold chidb_Btree_insertCell
    rw [if_pos (by omega)]

/-- A concrete empty index leaf node (page 2, page size 100) used to witness
the hypotheses of the insertCell theorem. -/
def c7Node : BTreeNode :=
  { pageData := fun _ => 0
    npage := 2
    type := .indexLeaf
    free_offset := 8
    n_cells := 0
    cells_offset := 100
    right_page := 0
    celloffset_array := 8 }

/-- A concrete index-leaf cell used to witness the insertCell theorem. -/
def c7Cell : BTreeCell := .indexLeaf 5 7

/-- Witness: the hypotheses of the insertCell theorem hold at a concrete node
and cell, and the theorem applies there. -/
theorem C7_insertCell_effects_witness :
    c7Node.free_offset = c7Node.celloffset_array + 2 * c7Node.n_cells ∧
    c7Node.free_offset + 2 + cellSizeBytes c7Node.type c7Cell ≤ c7Node.cells_offset ∧
    c7Node.cells_offset < 2 ^ 16 ∧ (0 : Nat) ≤ c7Node.n_cells ∧
    (chidb_Btree_insertCell c7Node 0 c7Cell).1 = CHIDB_OK ∧
    ((chidb_Btree_insertCell c7Node 0 c7Cell).2).cells_offset = 88 :=
  ⟨by decide, by decide, by decide, by decide,
    (C7_insertCell_effects c7Node 0 c7Cell (by decide) (by decide) (by decide) (by decide)).1,
    by
      have h := (C7_insertCell_effects c7Node 0 c7Cell (by decide) (by decide) (by decide)
        (by decide)).2.1
      simpa using h⟩

/-! ### The node-view layer

btree.c's algorithms (find, insert, insertNonFull, split) and the dbm cursor
touch pages exclusively through chidb_Btree_getNodeByPage /
chidb_Btree_getCell / chidb_Btree_insertCell / chidb_Btree_writeNode /
chidb_Btree_initEmptyNode / chidb_Btree_newNode.  This layer embeds those
operations on parsed nodes: a node carries the header fields of BTreeNode and
its cell list (n_cells is the list length; the C keeps the two in sync, as
insertCell is the only mutator and increments both together).  A store maps
page numbers to nodes and tracks the allocation count of the pager.  As in
the C build (no page cache: the comment in chidb_Btree_split relies on this),
a loaded node is a snapshot, and only writeNode publishes changes. -/

structure PNode where
  type : PageType
  free_offset : Nat
  cells_offset : Nat
  right_page : Nat
  cells : List BTreeCell
deriving DecidableEq

/-- n_cells of the view node is the length of its cell list. -/
def PNode.n_cells (nd : PNode) : Nat := nd.cells.length

structure PStore where
  page_size : Nat
  n_pages : Nat
  pages : Nat → Option PNode

/-- Stand-in for a C local BTreeCell never written (chidb_Btree_split reads
cells whose getCell return code it ignores); all theorems below carry
hypotheses under which this value is never produced. -/
def junkCell : BTreeCell := .tableInternal 0 0

/-- chidb_Btree_getCell on the view: cell ncell of the node, the junk cell on
the out-of-range case in which the C leaves the out-parameter unwritten. -/
def getCellD (nd : PNode) (ncell : Nat) : BTreeCell := nd.cells.getD ncell junkCell

/-- The scan shared by chidb_Btree_insertNonFull (btree.c lines 905-923),
chidb_Btree_find (lines 620-631, 667-683) and findCell (dbm-cursor.c lines
306-316): index of the first cell whose key is ≥ key, or n_cells. -/
def findCellPos (cells : List BTreeCell) (key : Nat) : Nat :=
  match cells with
  | [] => 0
  | c :: rest => if key ≤ c.key then 0 else findCellPos rest key + 1

/-- chidb_Btree_insertCell on the view: insert the cell at position ncell and
maintain the header fields exactly as the byte-level function does
(cells_offset shrinks by the cell size, free_offset grows by two, n_cells --
the list length -- grows by one); ECELLNO and no change when ncell > n_cells. -/
def viewInsertCell (nd : PNode) (ncell : Nat) (cell : BTreeCell) : Int × PNode :=
  if ncell > nd.cells.length then (CHIDB_ECELLNO, nd)
  else
    (CHIDB_OK,
      { nd with
        cells := nd.cells.insertIdx ncell cell
        cells_offset := sub16 nd.cells_offset (cellSizeBytes nd.type cell)
        free_offset := (nd.free_offset + 2) % 2 ^ 16 })

/-- chidb_Btree_writeNode on the view: publish the in-memory node to its page. -/
def writeNode (s : PStore) (npage : Nat) (nd : PNode) : PStore :=
  { s with pages := fun p => if p = npage then some nd else s.pages p }

/-- chidb_Btree_initEmptyNode, btree.c lines 336-370: reinitialize a page as
an empty node of the given type and write it back at once. -/
def chidb_Btree_initEmptyNode (s : PStore) (npage : Nat) (t : PageType) : PStore :=
  writeNode s npage
    { type := t
      free_offset := (if t.isInternal then 12 else 8) + (if npage = 1 then 100 else 0)
      cells_offset := s.page_size
      right_page := 0
      cells := [] }

/-- chidb_Btree_newNode, btree.c lines 303-316: allocate the next page (the
pager extends the file) and initialize it empty; returns the new page number. -/
def chidb_Btree_newNode (s : PStore) (t : PageType) : PStore × Nat :=
  let npage := s.n_pages + 1
  (chidb_Btree_initEmptyNode { s with n_pages := npage } npage t, npage)

/-- chidb_Btree_nodeIsFull, btree.c lines 789-814: the cell plus its two-byte
offset entry does not fit into cells_offset - free_offset (uint16 space). -/
def chidb_Btree_nodeIsFull (nd : PNode) (cell : BTreeCell) : Bool :=
  2 + cellSizeBytes nd.type cell > sub16 nd.cells_offset nd.free_offset

/-- The promoted-cell construction of chidb_Btree_split, btree.c lines
1120-1142: copy the median, override child_page with the new child's page;
an INDEX_LEAF median becomes INDEX_INTERNAL keeping key and keyPk, a
TABLE_LEAF median becomes TABLE_INTERNAL keeping its key. -/
def promoteMedian (median : BTreeCell) (npage_child2 : Nat) : BTreeCell :=
  match median with
  | .indexInternal _ k pk => .indexInternal npage_child2 k pk
  | .tableInternal _ k => .tableInternal npage_child2 k
  | .indexLeaf k pk => .indexInternal npage_child2 k pk
  | .tableLeaf k _ _ => .tableInternal npage_child2 k

/-- chidb_Btree_split, btree.c lines 1015-1183.  Loads the child (a snapshot
that survives the on-disk reinitializations below), allocates the new left
node child2 and fills it with cells [0, m) -- also cell m when the child is a
table leaf -- where m = n_cells/2; takes cell m as median; obtains the right
half child1 (a fresh page on a root split, the reused child page otherwise)
and fills it with cells (m, n_cells); copies right_page links for internal
nodes and sets child2's right_page to the median's child; promotes the median
into the parent (the reinitialized old root page on a root split) at
parent_ncell; writes parent, child1 and child2.  Returns the status, the
store after the call, and the new node's page number. -/
def chidb_Btree_split (s0 : PStore) (npage_parent npage_child parent_ncell : Nat) :
    Int × PStore × Nat :=
  match s0.pages npage_child with
  | none => (CHIDB_EPAGENO, s0, 0)
  | some child =>
    let alloc2 := chidb_Btree_newNode s0 child.type
    let s1 := alloc2.1
    let npage_child2 := alloc2.2
    match s1.pages npage_child2 with
    | none => (MODEL_ESTUCK, s1, npage_child2)
    | some child2a =>
      let child_is_table_leaf := child.type = PageType.tableLeaf
      let median_ncell := child.cells.length / 2
      let moveBound := if child_is_table_leaf then median_ncell + 1 else median_ncell
      let child2b := (List.range moveBound).foldl
        (fun nd i => (viewInsertCell nd i (getCellD child i)).2) child2a
      let median := getCellD child median_ncell
      let child2c :=
        if child2b.type = PageType.indexInternal then
          { child2b with right_page := median.child_page }
        else if child2b.type = PageType.tableInternal then
          { child2b with right_page := median.child_page }
        else child2b
      let rootCase := npage_parent = 0
      let step2 : PStore × Nat :=
        if rootCase then chidb_Btree_newNode s1 child.type
        else (chidb_Btree_initEmptyNode s1 npage_child child.type, npage_child)
      let s2 := step2.1
      let npage_child1 := step2.2
      match s2.pages npage_child1 with
      | none => (MODEL_ESTUCK, s2, npage_child2)
      | some child1a =>
        let child1b := (List.range (child.cells.length - (median_ncell + 1))).foldl
          (fun nd j => (viewInsertCell nd j (getCellD child (median_ncell + 1 + j))).2) child1a
        let child1c :=
          if child1b.type.isInternal then { child1b with right_page := child.right_page }
          else child1b
        let s3 :=
          if rootCase then
            chidb_Btree_initEmptyNode s2 npage_child
              (if child.type = PageType.indexInternal ∨ child.type = PageType.indexLeaf then
                PageType.indexInternal
              else PageType.tableInternal)
          else s2
        let parentPage := if rootCase then npage_child else npage_parent
        match s3.pages parentPage with
        | none => (CHIDB_EPAGENO, s3, npage_child2)
        | some parent0 =>
          let parent1 := (viewInsertCell parent0 parent_ncell
            (promoteMedian median npage_child2)).2
          let parent2 := if rootCase then { parent1 with right_page := npage_child1 } else parent1
          let s4 := writeNode s3 parentPage parent2
          let s5 := writeNode s4 npage_child1 child1c
          let s6 := writeNode s5 npage_child2 child2c
          (CHIDB_OK, s6, npage_child2)

/-- The child page chosen by the internal-node switch of
chidb_Btree_insertNonFull (btree.c lines 940-950): the cell's child_page for
an internal-format cell; on the default branch the C leaves the variable
unwritten ("should never happen"), modelled by the fallback value. -/
def childPageOfCell (cell : BTreeCell) (fallback : Nat) : Nat :=
  match cell with
  | .indexInternal cp _ _ => cp
  | .tableInternal cp _ => cp
  | _ => fallback

/-- chidb_Btree_insertNonFull, btree.c lines 886-989, with explicit recursion
fuel (the C recursion is bounded by the tree height plus the splits).  Scan
for the first cell with btc.key ≤ cell.key; return EDUPLICATE if that cell
carries an equal key in leaf format; on a leaf insert the cell and write the
node; on an internal node choose the child (right_page past the last cell),
split it first when it is full and redo the same page, else recurse into it. -/
def chidb_Btree_insertNonFull : Nat → PStore → Nat → BTreeCell → Int × PStore
  | 0, s, _, _ => (MODEL_EFUEL, s)
  | fuel + 1, s, npage, btc =>
    match s.pages npage with
    | none => (CHIDB_EPAGENO, s)
    | some btn =>
      let i := findCellPos btn.cells btc.key
      let cell := getCellD btn i
      if i < btn.cells.length ∧ btc.key = cell.key ∧
          (cell.ctype = PageType.indexLeaf ∨ cell.ctype = PageType.tableLeaf) then
        (CHIDB_EDUPLICATE, s)
      else
        match btn.type with
        | .indexLeaf | .tableLeaf =>
          let r := viewInsertCell btn i btc
          if r.1 = CHIDB_OK then (CHIDB_OK, writeNode s npage r.2) else (r.1, s)
        | .indexInternal | .tableInternal =>
          let child_page :=
            if i = btn.cells.length then btn.right_page else childPageOfCell cell 0
          match s.pages child_page with
          | none => (CHIDB_EPAGENO, s)
          | some child =>
            if chidb_Btree_nodeIsFull child btc then
              let r := chidb_Btree_split s npage child_page i
              if r.1 = CHIDB_OK then chidb_Btree_insertNonFull fuel r.2.1 npage btc
              else (r.1, r.2.1)
            else chidb_Btree_insertNonFull fuel s child_page btc

/-- chidb_Btree_insert, btree.c lines 838-861: load the root, test fullness,
split the root first if full (parent page number 0 marks the root split),
then run insertNonFull on the root page. -/
def chidb_Btree_insert (s : PStore) (fuel : Nat) (nroot : Nat) (btc : BTreeCell) :
    Int × PStore :=
  match s.pages nroot with
  | none => (CHIDB_EPAGENO, s)
  | some root =>
    if chidb_Btree_nodeIsFull root btc then
      let r := chidb_Btree_split s 0 nroot 0
      if r.1 = CHIDB_OK then chidb_Btree_insertNonFull fuel r.2.1 nroot btc
      else (r.1, r.2.1)
    else chidb_Btree_insertNonFull fuel s nroot btc

/-- Models the store `*(chidb_key_t*)(*data) = keyPk` performed by
chidb_Btree_find (btree.c lines 646-647 and 698-699): a native uint32 store,
which on the little-endian hosts this program targets lays the least
significant byte first.  Note this is not the big-endian put4byte used
everywhere else in btree.c. -/
def chidb_key_store_bytes (v : Nat) : List Nat :=
  [v % 256, v / 2 ^ 8 % 256, v / 2 ^ 16 % 256, v / 2 ^ 24 % 256]

/-- A 4-byte big-endian encoding, as the spec claims find returns. -/
def be32bytes (v : Nat) : List Nat :=
  [v / 2 ^ 24 % 256, v / 2 ^ 16 % 256, v / 2 ^ 8 % 256, v % 256]

/-- The data bytes chidb_Btree_find copies out of a table-leaf cell:
data_size bytes from the cell's payload. -/
def tableLeafDataBytes (cell : BTreeCell) : List Nat :=
  (List.range cell.data_size).map fun i => cell.data.getD i 0

/-- chidb_Btree_find, btree.c lines 597-722, with explicit descent fuel.
At each internal node, scan for the first cell with key ≤ cell.key; follow
right_page past the end; return the keyPk (native store) on an exact match at
an INDEX_INTERNAL node; else follow the cell's child.  At the leaf, the first
cell with an equal key yields its payload (index: keyPk native store; table:
the data bytes); otherwise ENOTFOUND. -/
def chidb_Btree_find : Nat → PStore → Nat → Nat → Except Int (List Nat)
  | 0, _, _, _ => .error MODEL_EFUEL
  | fuel + 1, s, npage, key =>
    match s.pages npage with
    | none => .error CHIDB_EPAGENO
    | some btn =>
      if btn.type.isLeaf then
        let i := findCellPos btn.cells key
        if i = btn.cells.length then .error CHIDB_ENOTFOUND
        else
          let cell := getCellD btn i
          if key < cell.key then .error CHIDB_ENOTFOUND
          else
            match btn.type with
            | .indexLeaf => .ok (chidb_key_store_bytes cell.keyPk)
            | .tableLeaf => .ok (tableLeafDataBytes cell)
            | _ => .ok []
      else
        let i := findCellPos btn.cells key
        if i = btn.cells.length then chidb_Btree_find fuel s btn.right_page key
        else
          let cell := getCellD btn i
          if btn.type = PageType.indexInternal ∧ key = cell.key then
            .ok (chidb_key_store_bytes cell.keyPk)
          else chidb_Btree_find fuel s (childPageOfCell cell npage) key

/-- Concrete index tree of the spec's scenario 5: a fresh index root holding
(10,100), (20,200), (30,300) on one leaf (page 1, page size 1024). -/
def c4Store : PStore :=
  { page_size := 1024
    n_pages := 1
    pages := fun p =>
      if p = 1 then
        some
          { type := .indexLeaf
            free_offset := 114
            cells_offset := 988
            right_page := 0
            cells := [.indexLeaf 10 100, .indexLeaf 20 200, .indexLeaf 30 300] }
      else none }

/-- C4, counterexample: find by keyIdx = 20 on the spec's example index tree
returns the four bytes 200 0 0 0 -- keyPk stored by a native (little-endian)
uint32 store -- and not the big-endian encoding 0 0 0 200 the claim states.
chidb_Btree_find writes the result with a plain pointer cast instead of the
big-endian put4byte used elsewhere. -/
theorem C4_counterexample :
    chidb_Btree_find 5 c4Store 1 20 = .ok [200, 0, 0, 0] ∧
    chidb_key_store_bytes 200 = [200, 0, 0, 0] ∧
    be32bytes 200 = [0, 0, 0, 200] ∧
    ([200, 0, 0, 0] : List Nat) ≠ [0, 0, 0, 200] :=
  ⟨rfl, rfl, rfl, by decide⟩

/-- A one-page file whose table-leaf root (page 1, page size 128) holds the
single key 5 and is full for a further 9-byte cell. -/
def c2Store : PStore :=
  { page_size := 128
    n_pages := 1
    pages := fun p =>
      if p = 1 then
        some
          { type := .tableLeaf
            free_offset := 110
            cells_offset := 119
            right_page := 0
            cells := [.tableLeaf 5 1 [7]] }
      else none }

/-- The duplicate cell for the c2Store scenario. -/
def c2Cell : BTreeCell := .tableLeaf 5 1 [7]

/-- Root of the index tree whose duplicate key sits in the internal node. -/
def c2IdxRoot : PNode :=
  { type := .indexInternal
    free_offset := 114
    cells_offset := 1008
    right_page := 3
    cells := [.indexInternal 2 20 200] }

/-- Left leaf of the c2IdxStore tree. -/
def c2IdxLeft : PNode :=
  { type := .indexLeaf
    free_offset := 110
    cells_offset := 1012
    right_page := 0
    cells := [.indexLeaf 10 100] }

/-- Right leaf of the c2IdxStore tree. -/
def c2IdxRight : PNode :=
  { type := .indexLeaf
    free_offset := 110
    cells_offset := 1012
    right_page := 0
    cells := [.indexLeaf 30 300] }

/-- An index tree (root page 1 with one INDEX_INTERNAL cell of key 20, leaf
children pages 2 and 3) in which the key 20 is stored in the internal node. -/
def c2IdxStore : PStore :=
  { page_size := 1024
    n_pages := 3
    pages := fun p =>
      if p = 1 then some c2IdxRoot
      else if p = 2 then some c2IdxLeft
      else if p = 3 then some c2IdxRight
      else none }

/-- C2, counterexample.  First scenario: the root is full and the key 5 is
already present; insert does return EDUPLICATE, but only after the preemptive
root split has allocated two pages and rewritten page 1, so the file is not
byte-identical.  Second scenario: when the duplicate key (20) is stored in an
INDEX_INTERNAL cell, insert does not return Duplicate at all: it returns
CHIDB_OK and appends a second entry with key 20 to the left leaf. -/
theorem C2_counterexample :
    (chidb_Btree_insert c2Store 5 1 c2Cell).1 = CHIDB_EDUPLICATE ∧
    c2Store.n_pages = 1 ∧
    ((chidb_Btree_insert c2Store 5 1 c2Cell).2).n_pages = 3 ∧
    c2IdxRoot.cells.map BTreeCell.key = [20] ∧
    (chidb_Btree_insert c2IdxStore 5 1 (.indexLeaf 20 999)).1 = CHIDB_OK ∧
    CHIDB_OK ≠ CHIDB_EDUPLICATE ∧
    (((chidb_Btree_insert c2IdxStore 5 1 (.indexLeaf 20 999)).2).pages 2).map
        (fun nd => nd.cells.map BTreeCell.key) = some [10, 20] :=
  ⟨rfl, rfl, rfl, rfl, rfl, by decide, rfl⟩

/-- The duplicate key is found at the leaf reached by insertNonFull's descent
and no node along that descent is full (so no split fires): the node at npage
exists; at a leaf, the scan position holds an equal key in leaf format; at an
internal node, the chosen child (right_page past the last cell) exists, is
not full for the incoming cell, and satisfies the same condition
recursively.  This is the exact path condition under which insertNonFull
reports the duplicate before performing any write. -/
def dupAtLeafNoFull : Nat → PStore → Nat → BTreeCell → Bool
  | 0, _, _, _ => false
  | fuel + 1, s, npage, btc =>
    match s.pages npage with
    | none => false
    | some btn =>
      let i := findCellPos btn.cells btc.key
      let cell := getCellD btn i
      match btn.type with
      | .indexLeaf | .tableLeaf =>
        decide (i < btn.cells.length) && (btc.key == cell.key) &&
          (cell.ctype == PageType.indexLeaf || cell.ctype == PageType.tableLeaf)
      | .indexInternal | .tableInternal =>
        (i == btn.cells.length ||
          (cell.ctype == PageType.indexInternal || cell.ctype == PageType.tableInternal)) &&
        (match s.pages (if i = btn.cells.length then btn.right_page
            else childPageOfCell cell 0) with
          | none => false
          | some child =>
            !chidb_Btree_nodeIsFull child btc &&
              dupAtLeafNoFull fuel s
                (if i = btn.cells.length then btn.right_page else childPageOfCell cell 0) btc)

/-- When the duplicate is found at the descent's leaf and no split fires on
the way, insertNonFull returns EDUPLICATE and the store it was given. -/
theorem insertNonFull_duplicate_unchanged :
    ∀ fuel (s : PStore) (npage : Nat) (btc : BTreeCell),
      dupAtLeafNoFull fuel s npage btc = true →
      chidb_Btree_insertNonFull fuel s npage btc = (CHIDB_EDUPLICATE, s) := by
  intro fuel
  induction fuel with
  | zero =>
    intro s npage btc h
    simp [dupAtLeafNoFull] at h
  | succ n ih =>
    intro s npage btc h
    rw [dupAtLeafNoFull] at h
    rw [chidb_Btree_insertNonFull]
    cases hp : s.pages npage with
    | none => rw [hp] at h; simp at h
    | some btn =>
      rw [hp] at h
      simp only at h
      dsimp only
      cases ht : btn.type with
      | indexLeaf =>
        rw [ht] at h
        simp only [Bool.and_eq_true, Bool.or_eq_true, beq_iff_eq, decide_eq_true_eq] at h
        rw [if_pos ⟨h.1.1, h.1.2, h.2⟩]
      | tableLeaf =>
        rw [ht] at h
        simp only [Bool.and_eq_true, Bool.or_eq_true, beq_iff_eq, decide_eq_true_eq] at h
        rw [if_pos ⟨h.1.1, h.1.2, h.2⟩]
      | indexInternal =>
        rw [ht] at h
        simp only [Bool.and_eq_true, Bool.or_eq_true, beq_iff_eq, decide_eq_true_eq] at h
        obtain ⟨hsel, hrest⟩ := h
        rw [if_neg (by
          rintro ⟨hlt, -, hctype⟩
          rcases hsel with hs | hs
          · omega
          · rcases hs with hs | hs <;> rcases hctype with hct | hct <;>
              rw [hct] at hs <;> exact absurd hs (by decide))]
        dsimp only
        cases hc : s.pages (if findCellPos btn.cells btc.key = btn.cells.length then
            btn.right_page else childPageOfCell (getCellD btn (findCellPos btn.cells btc.key)) 0) with
        | none => rw [hc] at hrest; simp at hrest
        | some child =>
          rw [hc] at hrest
          simp only [Bool.and_eq_true, Bool.not_eq_true'] at hrest
          dsimp only
          rw [if_neg (by rw [hrest.1]; exact fun hcon => nomatch hcon)]
          exact ih s _ btc hrest.2
      | tableInternal =>
        rw [ht] at h
        simp only [Bool.and_eq_true, Bool.or_eq_true, beq_iff_eq, decide_eq_true_eq] at h
        obtain ⟨hsel, hrest⟩ := h
        rw [if_neg (by
          rintro ⟨hlt, -, hctype⟩
          rcases hsel with hs | hs
          · omega
          · rcases hs with hs | hs <;> rcases hctype with hct | hct <;>
              rw [hct] at hs <;> exact absurd hs (by decide))]
        dsimp only
        cases hc : s.pages (if findCellPos btn.cells btc.key = btn.cells.length then
            btn.right_page else childPageOfCell (getCellD btn (findCellPos btn.cells btc.key)) 0) with
        | none => rw [hc] at hrest; simp at hrest
        | some child =>
          rw [hc] at hrest
          simp only [Bool.and_eq_true, Bool.not_eq_true'] at hrest
          dsimp only
          rw [if_neg (by rw [hrest.1]; exact fun hcon => nomatch hcon)]
          exact ih s _ btc hrest.2

/-- C2, amended: when the root is not full and the duplicate key is found at
the leaf reached by the descent with no full node along the way (so the
preemptive split never fires), chidb_Btree_insert returns EDUPLICATE and
leaves the page store exactly as it was: no page modified, no page
allocated. -/
theorem C2_insert_duplicate_unchanged (s : PStore) (fuel nroot : Nat) (btc : BTreeCell)
    (root : PNode) (hr : s.pages nroot = some root)
    (hfull : chidb_Btree_nodeIsFull root btc = false)
    (hdup : dupAtLeafNoFull fuel s nroot btc = true) :
    chidb_Btree_insert s fuel nroot btc = (CHIDB_EDUPLICATE, s) := by
  unfold chidb_Btree_insert
  rw [hr]
  simp only [hfull]
  rw [if_neg (fun hcon => nomatch hcon : ¬ (false = true))]
  exact insertNonFull_duplicate_unchanged fuel s nroot btc hdup

/-- A one-page table file with room to spare (page size 1024), holding the
single key 5; used to witness the duplicate-insert theorem. -/
def c2wStore : PStore :=
  { page_size := 1024
    n_pages := 1
    pages := fun p =>
      if p = 1 then
        some
          { type := .tableLeaf
            free_offset := 110
            cells_offset := 1015
            right_page := 0
            cells := [.tableLeaf 5 1 [7]] }
      else none }

/-- Witness: the duplicate-insert theorem applies to the concrete roomy
one-leaf table store, and the duplicate insert leaves it untouched. -/
theorem C2_insert_duplicate_unchanged_witness :
    c2wStore.pages 1 = some
      { type := .tableLeaf
        free_offset := 110
        cells_offset := 1015
        right_page := 0
        cells := [.tableLeaf 5 1 [7]] } ∧
    chidb_Btree_nodeIsFull
      { type := .tableLeaf
        free_offset := 110
        cells_offset := 1015
        right_page := 0
        cells := [.tableLeaf 5 1 [7]] } c2Cell = false ∧
    dupAtLeafNoFull 1 c2wStore 1 c2Cell = true ∧
    chidb_Btree_insert c2wStore 1 1 c2Cell = (CHIDB_EDUPLICATE, c2wStore) :=
  ⟨rfl, by decide, by decide,
    C2_insert_duplicate_unchanged c2wStore 1 1 c2Cell _ rfl (by decide) (by decide)⟩

theorem viewInsertCell_snd_type (nd : PNode) (i : Nat) (c : BTreeCell) :
    ((viewInsertCell nd i c).2).type = nd.type := by
  unfold viewInsertCell
  split <;> rfl

theorem foldRange_insert_type (f : Nat → BTreeCell) (nd0 : PNode) (k : Nat) :
    ((List.range k).foldl (fun nd i => (viewInsertCell nd i (f i)).2) nd0).type = nd0.type := by
  induction k with
  | zero => simp
  | succ m ihm =>
    rw [List.range_succ, List.foldl_append]
    simp only [List.foldl_cons, List.foldl_nil]
    rw [viewInsertCell_snd_type]
    exact ihm

theorem viewInsertCell_at_end (nd : PNode) (c : BTreeCell) :
    ((viewInsertCell nd nd.cells.length c).2).cells = nd.cells ++ [c] := by
  unfold viewInsertCell
  rw [if_neg (lt_irrefl _)]
  exact List.insertIdx_length_self nd.cells c

theorem foldRange_insert_cells (f : Nat → BTreeCell) (nd0 : PNode) (h0 : nd0.cells = [])
    (k : Nat) :
    ((List.range k).foldl (fun nd i => (viewInsertCell nd i (f i)).2) nd0).cells
      = (List.range k).map f := by
  induction k with
  | zero => simpa using h0
  | succ m ihm =>
    rw [List.range_succ, List.foldl_append, List.map_append]
    simp only [List.foldl_cons, List.foldl_nil, List.map_cons, List.map_nil]
    have hlen : ((List.range m).foldl (fun nd i => (viewInsertCell nd i (f i)).2) nd0).cells.length
        = m := by rw [ihm]; simp
    calc (viewInsertCell ((List.range m).foldl (fun nd i => (viewInsertCell nd i (f i)).2) nd0)
            m (f m)).2.cells
        = (viewInsertCell ((List.range m).foldl (fun nd i => (viewInsertCell nd i (f i)).2) nd0)
            ((List.range m).foldl (fun nd i => (viewInsertCell nd i (f i)).2) nd0).cells.length
            (f m)).2.cells := by rw [hlen]
      _ = ((List.range m).foldl (fun nd i => (viewInsertCell nd i (f i)).2) nd0).cells ++ [f m] :=
          viewInsertCell_at_end _ (f m)
      _ = (List.range m).map f ++ [f m] := by rw [ihm]

theorem range_map_getCellD (nd : PNode) (k : Nat) (hk : k ≤ nd.cells.length) :
    (List.range k).map (fun i => getCellD nd i) = nd.cells.take k := by
  induction k with
  | zero => simp
  | succ m ihm =>
    rw [List.range_succ, List.map_append, ihm (by omega), List.take_succ]
    have hm : m < nd.cells.length := by omega
    simp [getCellD, List.getD_eq_getElem?_getD, List.getElem?_eq_getElem hm]

theorem viewInsertCell_cells_of_le (nd : PNode) (i : Nat) (c : BTreeCell)
    (h : i ≤ nd.cells.length) :
    ((viewInsertCell nd i c).2).cells = nd.cells.insertIdx i c := by
  unfold viewInsertCell
  rw [if_neg (by omega)]

theorem promoteMedian_child_page (c : BTreeCell) (np : Nat) :
    (promoteMedian c np).child_page = np := by
  cases c <;> rfl

theorem promoteMedian_key (c : BTreeCell) (np : Nat) :
    (promoteMedian c np).key = c.key := by
  cases c <;> rfl

/-- C3: split with m = n_cells(child)/2 moves cells [0, m) -- also cell m
when the child is a TABLE_LEAF -- into the newly allocated node (page
n_pages+1, same type as the child), takes cell m of the original child as the
median, and inserts into the parent at position parent_ncell a promoted cell
whose child_page is the new node's page: an unchanged-key copy for internal
medians, an INDEX_LEAF median converted to INDEX_INTERNAL preserving keyPk,
a TABLE_LEAF median converted to TABLE_INTERNAL preserving its key.  Both the
non-root call (the parent is the loaded parent page) and the root call
(parent page number 0; the promoted cell lands in the reinitialized old root
page) are covered. -/
theorem C3_split_effects (s : PStore) (npage_parent npage_child parent_ncell : Nat)
    (child : PNode)
    (hchild : s.pages npage_child = some child)
    (hpc : npage_child ≤ s.n_pages)
    (hn : 1 ≤ child.cells.length) :
    (promoteMedian (getCellD child (child.cells.length / 2)) (s.n_pages + 1)).child_page
      = s.n_pages + 1 ∧
    (promoteMedian (getCellD child (child.cells.length / 2)) (s.n_pages + 1)).key
      = (getCellD child (child.cells.length / 2)).key ∧
    ((getCellD child (child.cells.length / 2)).ctype = PageType.indexLeaf →
      (promoteMedian (getCellD child (child.cells.length / 2)) (s.n_pages + 1)).ctype
          = PageType.indexInternal ∧
      (promoteMedian (getCellD child (child.cells.length / 2)) (s.n_pages + 1)).keyPk
          = (getCellD child (child.cells.length / 2)).keyPk) ∧
    ((getCellD child (child.cells.length / 2)).ctype = PageType.tableLeaf →
      (promoteMedian (getCellD child (child.cells.length / 2)) (s.n_pages + 1)).ctype
          = PageType.tableInternal) ∧
    (∀ parent, npage_parent ≠ 0 → s.pages npage_parent = some parent →
      npage_parent ≠ npage_child → npage_parent ≤ s.n_pages →
      parent_ncell ≤ parent.cells.length →
      (chidb_Btree_split s npage_parent npage_child parent_ncell).1 = CHIDB_OK ∧
      (chidb_Btree_split s npage_parent npage_child parent_ncell).2.2 = s.n_pages + 1 ∧
      (∃ node2,
        ((chidb_Btree_split s npage_parent npage_child parent_ncell).2.1).pages (s.n_pages + 1)
          = some node2 ∧
        node2.type = child.type ∧
        node2.cells = child.cells.take
          (if child.type = PageType.tableLeaf then child.cells.length / 2 + 1
           else child.cells.length / 2)) ∧
      (∃ pnode,
        ((chidb_Btree_split s npage_parent npage_child parent_ncell).2.1).pages npage_parent
          = some pnode ∧
        pnode.cells = parent.cells.insertIdx parent_ncell
          (promoteMedian (getCellD child (child.cells.length / 2)) (s.n_pages + 1)))) ∧
    (npage_parent = 0 →
      (chidb_Btree_split s 0 npage_child parent_ncell).1 = CHIDB_OK ∧
      (chidb_Btree_split s 0 npage_child parent_ncell).2.2 = s.n_pages + 1 ∧
      (∃ node2,
        ((chidb_Btree_split s 0 npage_child parent_ncell).2.1).pages (s.n_pages + 1)
          = some node2 ∧
        node2.type = child.type ∧
        node2.cells = child.cells.take
          (if child.type = PageType.tableLeaf then child.cells.length / 2 + 1
           else child.cells.length / 2)) ∧
      (parent_ncell = 0 →
        ∃ pnode,
          ((chidb_Btree_split s 0 npage_child parent_ncell).2.1).pages npage_child
            = some pnode ∧
          pnode.cells = [promoteMedian (getCellD child (child.cells.length / 2)) (s.n_pages + 1)] ∧
          pnode.right_page = s.n_pages + 2)) := by
  refine ⟨promoteMedian_child_page _ _, promoteMedian_key _ _, ?_, ?_, ?_, ?_⟩
  · intro hil
    cases hmed : getCellD child (child.cells.length / 2) <;>
      rw [hmed] at hil <;> simp [BTreeCell.ctype] at hil ⊢ <;>
      simp [promoteMedian, BTreeCell.ctype, BTreeCell.keyPk]
  · intro htl
    cases hmed : getCellD child (child.cells.length / 2) <;>
      rw [hmed] at htl <;> simp [BTreeCell.ctype] at htl ⊢ <;>
      simp [promoteMedian, BTreeCell.ctype]
  · -- the non-root call
    intro parent hroot hparent hne hpp hpn
    have hne2 : npage_parent ≠ s.n_pages + 1 := by omega
    have hcne : npage_child ≠ s.n_pages + 1 := by omega
    unfold chidb_Btree_split
    rw [hchild]
    dsimp only
    simp only [chidb_Btree_newNode, chidb_Btree_initEmptyNode, writeNode, eq_self_iff_true,
      if_true, if_neg hroot]
    simp only [if_neg hne2, if_neg hne, if_neg hcne, hparent, eq_self_iff_true, if_true]
    refine ⟨trivial, trivial, ⟨_, rfl, ?_, ?_⟩, ⟨_, rfl, ?_⟩⟩
    · split_ifs <;> exact foldRange_insert_type _ _ _
    · split_ifs <;> rw [foldRange_insert_cells _ _ rfl, range_map_getCellD _ _ (by omega)]
    · exact viewInsertCell_cells_of_le parent parent_ncell _ hpn
  · -- the root call
    intro hroot
    subst hroot
    have hcne : npage_child ≠ s.n_pages + 1 := by omega
    have hcne2 : npage_child ≠ s.n_pages + 1 + 1 := by omega
    have hne12 : s.n_pages + 1 ≠ s.n_pages + 1 + 1 := by omega
    unfold chidb_Btree_split
    rw [hchild]
    dsimp only
    simp only [chidb_Btree_newNode, chidb_Btree_initEmptyNode, writeNode, eq_self_iff_true,
      if_true, if_neg hcne, if_neg hcne2, if_neg hne12]
    refine ⟨trivial, trivial, ⟨_, rfl, ?_, ?_⟩, ?_⟩
    · split_ifs <;> exact foldRange_insert_type _ _ _
    · split_ifs <;> rw [foldRange_insert_cells _ _ rfl, range_map_getCellD _ _ (by omega)]
    · intro hpn0
      subst hpn0
      refine ⟨_, rfl, ?_, rfl⟩
      rw [viewInsertCell_cells_of_le _ 0 _ (by simp)]
      rfl

/-- Parent node (page 1) of the concrete non-root split scenario. -/
def c3Parent : PNode :=
  { type := .tableInternal
    free_offset := 114
    cells_offset := 1016
    right_page := 2
    cells := [.tableInternal 2 50] }

/-- Child node (page 2) of the concrete non-root split scenario. -/
def c3Child : PNode :=
  { type := .tableLeaf
    free_offset := 12
    cells_offset := 1006
    right_page := 0
    cells := [.tableLeaf 10 1 [1], .tableLeaf 50 1 [2]] }

/-- A two-page store: table-internal parent on page 1, table-leaf child on
page 2; used to witness the split theorem. -/
def c3Store : PStore :=
  { page_size := 1024
    n_pages := 2
    pages := fun p => if p = 1 then some c3Parent else if p = 2 then some c3Child else none }

/-- Witness: the split theorem applies to the concrete two-page store (the
non-root branch instantiated at its parent). -/
theorem C3_split_effects_witness :
    c3Store.pages 2 = some c3Child ∧ 2 ≤ c3Store.n_pages ∧ 1 ≤ c3Child.cells.length ∧
    (1 : Nat) ≠ 0 ∧ c3Store.pages 1 = some c3Parent ∧ (1 : Nat) ≠ 2 ∧
    1 ≤ c3Store.n_pages ∧ 0 ≤ c3Parent.cells.length ∧
    (chidb_Btree_split c3Store 1 2 0).1 = CHIDB_OK ∧
    (chidb_Btree_split c3Store 1 2 0).2.2 = 3 :=
  ⟨rfl, by decide, by decide, by decide, rfl, by decide, by decide, by decide,
    ((C3_split_effects c3Store 1 2 0 c3Child rfl (by decide) (by decide)).2.2.2.2.1
      c3Parent (by decide) rfl (by decide) (by decide) (by decide)).1,
    ((C3_split_effects c3Store 1 2 0 c3Child rfl (by decide) (by decide)).2.2.2.2.1
      c3Parent (by decide) rfl (by decide) (by decide) (by decide)).2.1⟩

/-! ### The dbm cursor (dbm-cursor.c)

The C cursor keeps parallel arrays nodes[0..depth] and cells[0..depth]; the
model keeps the path as a list of (page, cell index) pairs with the current
(deepest) position at the head and the root last.  Since no cursor operation
writes pages, holding page numbers instead of loaded node snapshots is
equivalent: every read goes through the same store.  While-loops that walk
down the tree take explicit fuel; the ascent loops are structural on the
path.  Operations return the C int status together with the cursor after the
call. -/

structure Cursor where
  path : List (Nat × Nat)
deriving DecidableEq

/-- The child page goDownCurrentCell targets at (node, cell index): right_page
at index n_cells, else the cell's child_page (dbm-cursor.c lines 104-114). -/
def childAtSlot (nd : PNode) (j : Nat) : Nat :=
  if j = nd.cells.length then nd.right_page else childPageOfCell (getCellD nd j) 0

/-- chidb_dbm_cursor_goDownCurrentCell, dbm-cursor.c lines 97-124: push the
child at the current cell with cell index 0; the C increments depth and sets
the cell index before loading, so on a bad page the (model-only) error code
still leaves the pushed frame in place, as the C does. -/
def chidb_dbm_cursor_goDownCurrentCell (s : PStore) (c : Cursor) : Int × Cursor :=
  match c.path with
  | [] => (MODEL_ESTUCK, c)
  | (pg, i) :: rest =>
    match s.pages pg with
    | none => (MODEL_ESTUCK, c)
    | some nd =>
      let next_page := childAtSlot nd i
      let c2 : Cursor := ⟨(next_page, 0) :: (pg, i) :: rest⟩
      if (s.pages next_page).isSome then (CHIDB_OK, c2) else (CHIDB_EPAGENO, c2)

/-- chidb_dbm_cursor_goToParent, dbm-cursor.c lines 126-132. -/
def chidb_dbm_cursor_goToParent (c : Cursor) : Cursor := ⟨c.path.tail⟩

/-- The descend-to-leaf loop `while (!currentNodeIsLeaf) goDownCurrentCell`
shared by rewind (lines 479-484), next (lines 152-158, 223-229, 237-243)
and seek_partial (line 326). -/
def descendLeft (s : PStore) : Nat → Cursor → Int × Cursor
  | 0, c => (MODEL_EFUEL, c)
  | fuel + 1, c =>
    match c.path with
    | [] => (MODEL_ESTUCK, c)
    | (pg, _) :: _ =>
      match s.pages pg with
      | none => (MODEL_ESTUCK, c)
      | some nd =>
        if nd.type.isLeaf then (CHIDB_OK, c)
        else
          let r := chidb_dbm_cursor_goDownCurrentCell s c
          if r.1 = CHIDB_OK then descendLeft s fuel r.2 else r

/-- chidb_dbm_cursor_rewind, dbm-cursor.c lines 468-489: ascend to the root,
set its cell index to 0, then descend along cell 0 to a leaf. -/
def chidb_dbm_cursor_rewind (s : PStore) (fuel : Nat) (c : Cursor) : Int × Cursor :=
  match c.path.getLast? with
  | none => (MODEL_ESTUCK, c)
  | some (pg, _) => descendLeft s fuel ⟨[(pg, 0)]⟩

/-- The all-right check of next, dbm-cursor.c lines 187-194: every strict
ancestor sits on its right_page (cell index = n_cells). -/
def allRight (s : PStore) (rest : List (Nat × Nat)) : Bool :=
  rest.all fun pc =>
    match s.pages pc.1 with
    | some nd => pc.2 == nd.cells.length
    | none => true

/-- The ascend of next, dbm-cursor.c lines 200-211: pop frames until the
current cell index is below n_cells; none when the root is passed (the C
returns CURSOR_ENONEXT from inside the loop in that case). -/
def ascendToOpen (s : PStore) : List (Nat × Nat) → Option Cursor
  | [] => none
  | (pg, i) :: rest =>
    match s.pages pg with
    | none => none
    | some nd => if i < nd.cells.length then some ⟨(pg, i) :: rest⟩ else ascendToOpen s rest

/-- chidb_dbm_cursor_next, dbm-cursor.c lines 134-254. -/
def chidb_dbm_cursor_next (s : PStore) (fuel : Nat) (c : Cursor) : Int × Cursor :=
  match c.path with
  | [] => (MODEL_ESTUCK, c)
  | (pg, i) :: rest =>
    match s.pages pg with
    | none => (MODEL_ESTUCK, c)
    | some nd =>
      if i + 1 < nd.cells.length then
        let c2 : Cursor := ⟨(pg, i + 1) :: rest⟩
        if nd.type = PageType.indexInternal then descendLeft s fuel c2 else (CHIDB_OK, c2)
      else if nd.type.isLeaf then
        if rest = [] then (CHIDB_CURSOR_ENONEXT, c)
        else if allRight s rest then (CHIDB_CURSOR_ENONEXT, c)
        else
          match ascendToOpen s rest with
          | none => (CHIDB_CURSOR_ENONEXT, c)
          | some c3 =>
            match c3.path with
            | [] => (MODEL_ESTUCK, c3)
            | (pg3, i3) :: rest3 =>
              match s.pages pg3 with
              | none => (MODEL_ESTUCK, c3)
              | some nd3 =>
                if nd3.type = PageType.indexInternal then (CHIDB_OK, c3)
                else descendLeft s fuel ⟨(pg3, i3 + 1) :: rest3⟩
      else if nd.type = PageType.indexInternal then
        descendLeft s fuel ⟨(pg, nd.cells.length) :: rest⟩
      else (CHIDB_OK, c)

/-- The ascend of prev, dbm-cursor.c lines 283-285: pop frames while the
current cell index is 0 (no root guard: the all-left check already ran). -/
def ascendToPos : List (Nat × Nat) → Option Cursor
  | [] => none
  | (pg, i) :: rest => if i = 0 then ascendToPos rest else some ⟨(pg, i) :: rest⟩

/-- The rightmost descend of prev, dbm-cursor.c lines 290-297: go down the
current cell, then set the new frame's cell index to its n_cells (meaning
right_page for internal frames), until a leaf is reached. -/
def descendRightmost (s : PStore) : Nat → Cursor → Int × Cursor
  | 0, c => (MODEL_EFUEL, c)
  | fuel + 1, c =>
    match c.path with
    | [] => (MODEL_ESTUCK, c)
    | (pg, _) :: _ =>
      match s.pages pg with
      | none => (MODEL_ESTUCK, c)
      | some nd =>
        if nd.type.isLeaf then (CHIDB_OK, c)
        else
          let r := chidb_dbm_cursor_goDownCurrentCell s c
          if r.1 ≠ CHIDB_OK then r
          else
            match r.2.path with
            | [] => (MODEL_ESTUCK, r.2)
            | (pg2, _) :: rest2 =>
              match s.pages pg2 with
              | none => (MODEL_ESTUCK, r.2)
              | some nd2 => descendRightmost s fuel ⟨(pg2, nd2.cells.length) :: rest2⟩

/-- chidb_dbm_cursor_prev, dbm-cursor.c lines 256-303.  The final leaf cell
index is n_cells - 1, stored through a uint16, hence the wraparound form. -/
def chidb_dbm_cursor_prev (s : PStore) (fuel : Nat) (c : Cursor) : Int × Cursor :=
  match c.path with
  | [] => (MODEL_ESTUCK, c)
  | (pg, i) :: rest =>
    if 1 ≤ i then (CHIDB_OK, ⟨(pg, i - 1) :: rest⟩)
    else if rest = [] then (CHIDB_CURSOR_ENOPREV, c)
    else if rest.all (fun pc => pc.2 == 0) then (CHIDB_CURSOR_ENOPREV, c)
    else
      match ascendToPos rest with
      | none => (MODEL_ESTUCK, c)
      | some c2 =>
        match c2.path with
        | [] => (MODEL_ESTUCK, c)
        | (pg2, i2) :: rest2 =>
          let r := descendRightmost s fuel ⟨(pg2, i2 - 1) :: rest2⟩
          if r.1 ≠ CHIDB_OK then r
          else
            match r.2.path with
            | [] => (MODEL_ESTUCK, r.2)
            | (pgL, _) :: restL =>
              match s.pages pgL with
              | none => (MODEL_ESTUCK, r.2)
              | some ndL =>
                (CHIDB_OK, ⟨(pgL, (ndL.cells.length + 65535) % 65536) :: restL⟩)

/-- findCell, dbm-cursor.c lines 306-316: the index of the first cell with
key ≤ cell key, together with the last cell the loop examined (none when the
node has no cells, in which case the C leaves the out-parameter stale). -/
def findCell (nd : PNode) (key : Nat) : Nat × Option BTreeCell :=
  let i := findCellPos nd.cells key
  (i,
    if nd.cells.length = 0 then none
    else some (getCellD nd (min i (nd.cells.length - 1))))

/-- The exact-match test of seek_partial on the threaded cell variable (false
when the variable was never written). -/
def cellKeyMatches (o : Option BTreeCell) (key : Nat) : Bool :=
  match o with
  | some cl => cl.key == key
  | none => false

/-- The descent loop of seek_partial, dbm-cursor.c lines 326-340, threading
the last examined cell exactly as the C's local variable does. -/
def seekPartialLoop (s : PStore) :
    Nat → Nat → Cursor → Option BTreeCell → Cursor × Nat × Option BTreeCell
  | 0, _, c, prev => (c, 0, prev)
  | fuel + 1, key, c, prev =>
    match c.path with
    | [] => (c, 0, prev)
    | (pg, _) :: rest =>
      match s.pages pg with
      | none => (c, 0, prev)
      | some nd =>
        let fc := findCell nd key
        let cellNow := match fc.2 with | some cl => some cl | none => prev
        let c2 : Cursor := ⟨(pg, fc.1) :: rest⟩
        if nd.type.isLeaf then (c2, fc.1, cellNow)
        else
          if nd.type = PageType.indexInternal ∧ cellKeyMatches cellNow key = true then
            (c2, fc.1, cellNow)
          else seekPartialLoop s fuel key (chidb_dbm_cursor_goDownCurrentCell s c2).2 cellNow

/-- seek_partial, dbm-cursor.c lines 318-361: ascend to the root, then
descend by findCell at each node, stopping early on an INDEX_INTERNAL exact
match, and set the leaf's cell index to its findCell position. -/
def seek_partial (s : PStore) (fuel key : Nat) (c : Cursor) :
    Cursor × Nat × Option BTreeCell :=
  match c.path.getLast? with
  | none => (c, 0, none)
  | some (pgRoot, iRoot) => seekPartialLoop s fuel key ⟨[(pgRoot, iRoot)]⟩ none

/-- chidb_dbm_cursor_seek, dbm-cursor.c lines 362-381.  The comparison of the
C's possibly-unwritten cell variable is modelled as a mismatch; it is
unreachable on well-formed trees, whose nodes all have at least one cell. -/
def chidb_dbm_cursor_seek (s : PStore) (fuel : Nat) (c : Cursor) (key : Nat) : Int × Cursor :=
  let r := seek_partial s fuel key c
  match r.1.path with
  | [] => (MODEL_ESTUCK, r.1)
  | (pg, _) :: _ =>
    match s.pages pg with
    | none => (MODEL_ESTUCK, r.1)
    | some nd =>
      if r.2.1 = nd.cells.length then (CHIDB_CURSOR_EKEYNOTFOUND, r.1)
      else
        match r.2.2 with
        | some cl => if key ≠ cl.key then (CHIDB_CURSOR_EKEYNOTFOUND, r.1) else (CHIDB_OK, r.1)
        | none => (CHIDB_CURSOR_EKEYNOTFOUND, r.1)

/-- chidb_dbm_cursor_seekge, dbm-cursor.c lines 383-430. -/
def chidb_dbm_cursor_seekge (s : PStore) (fuel : Nat) (c : Cursor) (key : Nat) : Int × Cursor :=
  let r := seek_partial s fuel key c
  match r.1.path with
  | [] => (MODEL_ESTUCK, r.1)
  | (pg, _) :: _ =>
    match s.pages pg with
    | none => (MODEL_ESTUCK, r.1)
    | some nd =>
      if r.2.1 = nd.cells.length then
        if nd.type = PageType.tableLeaf then (CHIDB_CURSOR_EKEYNOTFOUND, r.1)
        else if nd.type = PageType.indexInternal ∨ nd.type = PageType.indexLeaf then
          let rn := chidb_dbm_cursor_next s fuel r.1
          if rn.1 = CHIDB_CURSOR_ENONEXT then (CHIDB_CURSOR_EKEYNOTFOUND, rn.2)
          else (CHIDB_OK, rn.2)
        else (CHIDB_OK, r.1)
      else
        if nd.type = PageType.tableLeaf then (CHIDB_OK, r.1)
        else if nd.type = PageType.indexInternal then (CHIDB_OK, r.1)
        else if nd.type = PageType.indexLeaf then
          match r.2.2 with
          | some cl =>
            if key > cl.key then
              let rn := chidb_dbm_cursor_next s fuel r.1
              if rn.1 = CHIDB_CURSOR_ENONEXT then (CHIDB_CURSOR_EKEYNOTFOUND, rn.2)
              else (CHIDB_OK, rn.2)
            else (CHIDB_OK, r.1)
          | none => (CHIDB_OK, r.1)
        else (CHIDB_OK, r.1)

/-- chidb_dbm_cursor_seekgt, dbm-cursor.c lines 432-466. -/
def chidb_dbm_cursor_seekgt (s : PStore) (fuel : Nat) (c : Cursor) (key : Nat) : Int × Cursor :=
  let r := seek_partial s fuel key c
  match r.1.path with
  | [] => (MODEL_ESTUCK, r.1)
  | (pg, _) :: _ =>
    match s.pages pg with
    | none => (MODEL_ESTUCK, r.1)
    | some nd =>
      if r.2.1 = nd.cells.length then
        let rn := chidb_dbm_cursor_next s fuel r.1
        if rn.1 = CHIDB_CURSOR_ENONEXT then (CHIDB_CURSOR_EKEYNOTFOUND, rn.2)
        else (CHIDB_OK, rn.2)
      else
        match r.2.2 with
        | some cl =>
          if key = cl.key then
            let rn := chidb_dbm_cursor_next s fuel r.1
            if rn.1 = CHIDB_CURSOR_ENONEXT then (CHIDB_CURSOR_EKEYNOTFOUND, rn.2)
            else (CHIDB_OK, rn.2)
          else (CHIDB_OK, r.1)
        | none => (CHIDB_OK, r.1)

/-! ### The Seek opcode handlers (dbm-ops.c, claim C10)

The statement state is modelled with the three components the handlers
touch: the program counter, the integer registers, and the cursor array
(dbm.h is not in src/; the fields are read off the handlers' uses). -/

structure chidb_stmt where
  pc : Int
  reg : Int → Int
  cursors : Int → Cursor

/-- The (chidb_key_t)key cast of the handlers: int32_t to uint32_t. -/
def toUInt32 (i : Int) : Nat := (i % (2 ^ 32 : Int)).toNat

/-- chidb_dbm_op_SeekGe, dbm-ops.c lines 223-236: run the
greater-or-equal cursor seek on cursor p1 with the key in register p3, set
pc to p2 on CURSOR_EKEYNOTFOUND, and return CHIDB_OK. -/
def chidb_dbm_op_SeekGe (s : PStore) (fuel : Nat) (stmt : chidb_stmt) (p1 p2 p3 : Int) :
    Int × chidb_stmt :=
  let key := toUInt32 (stmt.reg p3)
  let r := chidb_dbm_cursor_seekge s fuel (stmt.cursors p1) key
  let stmt2 := { stmt with cursors := fun q => if q = p1 then r.2 else stmt.cursors q }
  (CHIDB_OK, if r.1 = CHIDB_CURSOR_EKEYNOTFOUND then { stmt2 with pc := p2 } else stmt2)

/-- chidb_dbm_op_SeekLt, dbm-ops.c lines 238-253: identical body to the
SeekGe handler -- it calls chidb_dbm_cursor_seekge, not a less-than seek. -/
def chidb_dbm_op_SeekLt (s : PStore) (fuel : Nat) (stmt : chidb_stmt) (p1 p2 p3 : Int) :
    Int × chidb_stmt :=
  let key := toUInt32 (stmt.reg p3)
  let r := chidb_dbm_cursor_seekge s fuel (stmt.cursors p1) key
  let stmt2 := { stmt with cursors := fun q => if q = p1 then r.2 else stmt.cursors q }
  (CHIDB_OK, if r.1 = CHIDB_CURSOR_EKEYNOTFOUND then { stmt2 with pc := p2 } else stmt2)

/-- C10: the SeekLt opcode handler computes exactly the same return value,
cursor state and program-counter update as the SeekGe handler on every
statement state, store and operand triple: dbm-ops.c implements SeekLt by
invoking the greater-or-equal seek and jumping to p2 on KeyNotFound, so no
less-than seek is performed. -/
theorem C10_SeekLt_is_SeekGe (s : PStore) (fuel : Nat) (stmt : chidb_stmt) (p1 p2 p3 : Int) :
    chidb_dbm_op_SeekLt s fuel stmt p1 p2 p3 = chidb_dbm_op_SeekGe s fuel stmt p1 p2 p3 := rfl

/-- Root (page 1) of the C8 index-tree scenario: two INDEX_INTERNAL cells
with keys 20 and 40, children pages 2 and 3, right child page 4. -/
def c8Root : PNode :=
  { type := .indexInternal
    free_offset := 116
    cells_offset := 992
    right_page := 4
    cells := [.indexInternal 2 20 200, .indexInternal 3 40 400] }

/-- Leaf page 2 of the C8 scenario (key 10). -/
def c8L1 : PNode :=
  { type := .indexLeaf
    free_offset := 10
    cells_offset := 1012
    right_page := 0
    cells := [.indexLeaf 10 100] }

/-- Leaf page 3 of the C8 scenario (key 30). -/
def c8L2 : PNode :=
  { type := .indexLeaf
    free_offset := 10
    cells_offset := 1012
    right_page := 0
    cells := [.indexLeaf 30 300] }

/-- Leaf page 4 of the C8 scenario (key 50). -/
def c8L3 : PNode :=
  { type := .indexLeaf
    free_offset := 10
    cells_offset := 1012
    right_page := 0
    cells := [.indexLeaf 50 500] }

/-- The C8 index tree: entries 10, 20, 30, 40, 50 with 20 and 40 stored in
the internal root. -/
def c8Store : PStore :=
  { page_size := 1024
    n_pages := 4
    pages := fun p =>
      if p = 1 then some c8Root
      else if p = 2 then some c8L1
      else if p = 3 then some c8L2
      else if p = 4 then some c8L3
      else none }

/-- C8, counterexample: on the index tree with entries 10..50, rewind lands
on the first leaf entry (page 2 cell 0, key 10); three successful next calls
end on the root's cell 1 (key 40); but the three following prev calls end on
the root's cell 0 (key 20, an INDEX_INTERNAL cell) -- prev merely decrements
the internal cell index (the "TODO index" of dbm-cursor.c line 263) and then
reports NoPrev -- so the cursor does not return to the first leaf entry. -/
theorem C8_counterexample :
    chidb_dbm_cursor_rewind c8Store 9 ⟨[(1, 0)]⟩ = (CHIDB_OK, ⟨[(2, 0), (1, 0)]⟩) ∧
    chidb_dbm_cursor_next c8Store 9 ⟨[(2, 0), (1, 0)]⟩ = (CHIDB_OK, ⟨[(1, 0)]⟩) ∧
    chidb_dbm_cursor_next c8Store 9 ⟨[(1, 0)]⟩ = (CHIDB_OK, ⟨[(3, 0), (1, 1)]⟩) ∧
    chidb_dbm_cursor_next c8Store 9 ⟨[(3, 0), (1, 1)]⟩ = (CHIDB_OK, ⟨[(1, 1)]⟩) ∧
    chidb_dbm_cursor_prev c8Store 9 ⟨[(1, 1)]⟩ = (CHIDB_OK, ⟨[(1, 0)]⟩) ∧
    chidb_dbm_cursor_prev c8Store 9 ⟨[(1, 0)]⟩ = (CHIDB_CURSOR_ENOPREV, ⟨[(1, 0)]⟩) ∧
    (⟨[(1, 0)]⟩ : Cursor) ≠ ⟨[(2, 0), (1, 0)]⟩ ∧
    (getCellD c8Root 0).key = 20 ∧ (getCellD c8L1 0).key = 10 ∧ (20 : Nat) ≠ 10 :=
  ⟨rfl, rfl, rfl, rfl, rfl, rfl, by decide, rfl, rfl, by decide⟩

/-! ### Well-formed trees

The tree invariants the engine maintains (spec sections 3.2-3.3, and the
reasoning the seek code relies on in the comments of dbm-cursor.c lines
342-357): every node of a table (resp. index) tree carries the matching leaf
or internal type and at least one cell; keys are strictly increasing; each
internal cell's child subtree lies strictly above the previous key and at
most (tables) / strictly below (indexes) the cell's own key; for tables the
separator key is attained inside the child subtree (separators are promoted
medians, so they are real keys of the left subtree); the right child carries
the keys above the last cell.  Trees are height-balanced, as the
root-splitting insert keeps them.  Key bounds are open intervals with
optional endpoints (none for unbounded). -/

inductive Fam
  | table
  | index
deriving DecidableEq

/-- The leaf node type of a tree family. -/
def leafTypeOf : Fam → PageType
  | .table => .tableLeaf
  | .index => .indexLeaf

/-- The internal node type of a tree family. -/
def internalTypeOf : Fam → PageType
  | .table => .tableInternal
  | .index => .indexInternal

/-- Lower-bound check: the key is above the (optional, exclusive) bound. -/
def loOkB (lo : Option Nat) (k : Nat) : Bool :=
  match lo with
  | none => true
  | some l => decide (l < k)

/-- Upper-bound check: inclusive for table trees (an internal key is ≥ all
keys in its child), exclusive for index trees (internal keys are themselves
entries, so child keys are strictly below). -/
def hiOkB (fam : Fam) (hi : Option Nat) (k : Nat) : Bool :=
  match hi with
  | none => true
  | some h => if fam = Fam.table then decide (k ≤ h) else decide (k < h)

/-- The in-order entry list of the subtree below a node view, given the
entry function for the children's height: child entries in slot order, each
followed (index trees only) by the cell's own key, then the right child's
entries -- starting from cell slot j, with the right child included only
while j ≤ n_cells (slot n_cells means the right child itself). -/
def entsFrom (e : Nat → List Nat) (fam : Fam) (nd : PNode) (j : Nat) : List Nat :=
  ((nd.cells.drop j).flatMap fun c =>
    e c.child_page ++ (if fam = Fam.index then [c.key] else [])) ++
  (if j ≤ nd.cells.length then e nd.right_page else [])

/-- The in-order key list of the (sub)tree rooted at a page, by height. -/
def entKeys (s : PStore) (fam : Fam) : Nat → Nat → List Nat
  | 0, pg =>
    match s.pages pg with
    | some nd => nd.cells.map BTreeCell.key
    | none => []
  | h + 1, pg =>
    match s.pages pg with
    | none => []
    | some nd => entsFrom (entKeys s fam h) fam nd 0

/-- The in-order (keyIdx, keyPk) list of an index (sub)tree, by height. -/
def entPairs (s : PStore) : Nat → Nat → List (Nat × Nat)
  | 0, pg =>
    match s.pages pg with
    | some nd => nd.cells.map fun c => (c.key, c.keyPk)
    | none => []
  | h + 1, pg =>
    match s.pages pg with
    | none => []
    | some nd =>
      (nd.cells.flatMap fun c => entPairs s h c.child_page ++ [(c.key, c.keyPk)]) ++
      entPairs s h nd.right_page

/-- A leaf cell list is well-formed between bounds: each cell has the
family's leaf format and a key inside the running bounds (which also makes
the keys strictly increasing). -/
def leafCellsWfB (fam : Fam) : List BTreeCell → Option Nat → Option Nat → Bool
  | [], _, _ => true
  | c :: rest, lo, hi =>
    (c.ctype == leafTypeOf fam) && loOkB lo c.key && hiOkB fam hi c.key &&
    leafCellsWfB fam rest (some c.key) hi

/-- An internal cell list is well-formed between bounds, where w decides
well-formedness of a child subtree between bounds (and, for table trees,
attainment of the separator inside it). -/
def cellsWfB (fam : Fam) (w : Nat → Option Nat → Option Nat → Bool) :
    List BTreeCell → Option Nat → Option Nat → Bool
  | [], _, _ => true
  | c :: rest, lo, hi =>
    (c.ctype == internalTypeOf fam) && loOkB lo c.key && hiOkB fam hi c.key &&
    w c.child_page lo (some c.key) &&
    cellsWfB fam w rest (some c.key) hi

/-- Well-formedness of the subtree of the given height rooted at a page,
between key bounds. -/
def wfB (s : PStore) (fam : Fam) : Nat → Nat → Option Nat → Option Nat → Bool
  | 0, pg, lo, hi =>
    match s.pages pg with
    | none => false
    | some nd =>
      (nd.type == leafTypeOf fam) && decide (1 ≤ nd.cells.length) &&
      leafCellsWfB fam nd.cells lo hi
  | h + 1, pg, lo, hi =>
    match s.pages pg with
    | none => false
    | some nd =>
      (nd.type == internalTypeOf fam) && decide (1 ≤ nd.cells.length) &&
      cellsWfB fam
        (fun cp clo chi =>
          wfB s fam h cp clo chi &&
          (fam == Fam.index ||
            match chi with
            | some k => (entKeys s fam h cp).contains k
            | none => true))
        nd.cells lo hi &&
      wfB s fam h nd.right_page (some (nd.cells.getLastD junkCell).key) hi

/-- The key list a traversal still has to deliver once the subtree below the
head ancestor frame is exhausted: h is the height of the nodes hanging off
the head frame's cells (the frame's node sits at height h+1).  A frame
sitting at cell index i contributes its own key (index trees, when i <
n_cells: the in-order successor of the finished child), then the entries
from slot i+1 on, then whatever its own ancestors still owe. -/
def upRem (s : PStore) (fam : Fam) : List (Nat × Nat) → Nat → List Nat
  | [], _ => []
  | (pg, i) :: rest, h =>
    match s.pages pg with
    | none => []
    | some nd =>
      (if fam = Fam.index ∧ i < nd.cells.length then [(getCellD nd i).key] else []) ++
      entsFrom (entKeys s fam h) fam nd (i + 1) ++
      upRem s fam rest (h + 1)

/-- The keys remaining from the cursor position on (current entry included),
given the height h of the current node: for a leaf frame, its keys from the
cell index on plus the ancestors' dues; for an internal frame (a legitimate
index-tree position on cell i), its own key and everything after. -/
def remAt (s : PStore) (fam : Fam) (c : Cursor) (h : Nat) : List Nat :=
  match c.path with
  | [] => []
  | (pg, i) :: rest =>
    match s.pages pg with
    | none => []
    | some nd =>
      if nd.type.isLeaf then
        (nd.cells.drop i).map BTreeCell.key ++ upRem s fam rest 0
      else upRem s fam c.path (h - 1)

/-- The keys strictly after the cursor position, given the current node's
height. -/
def afterC (s : PStore) (fam : Fam) (c : Cursor) (h : Nat) : List Nat :=
  match c.path with
  | [] => []
  | (pg, i) :: rest =>
    match s.pages pg with
    | none => []
    | some nd =>
      if nd.type.isLeaf then
        (nd.cells.drop (i + 1)).map BTreeCell.key ++ upRem s fam rest 0
      else entsFrom (entKeys s fam (h - 1)) fam nd (i + 1) ++ upRem s fam rest h

/-- The key of the cell the cursor points at. -/
def keyAtC (s : PStore) (c : Cursor) : Nat :=
  match c.path with
  | [] => 0
  | (pg, i) :: _ =>
    match s.pages pg with
    | none => 0
    | some nd => (getCellD nd i).key

/-- A descent position inside the tree rooted at page root of height H:
PathTo root H pg h lo hi anc says that following the ancestor frames anc
(deepest first: the head is the immediate parent) down from the root reaches
the node at page pg, which governs the subtree of height h between bounds
(lo, hi).  Frames record exactly the child slot the descent took, matching
goDownCurrentCell. -/
inductive PathTo (s : PStore) (fam : Fam) (root H : Nat) :
    Nat → Nat → Option Nat → Option Nat → List (Nat × Nat) → Prop
  | nil : PathTo s fam root H root H none none []
  | cons {p : Nat} {h : Nat} {lo hi : Option Nat} {anc : List (Nat × Nat)} {nd : PNode}
      {j : Nat} :
      PathTo s fam root H p (h + 1) lo hi anc →
      s.pages p = some nd →
      j ≤ nd.cells.length →
      PathTo s fam root H (childAtSlot nd j) h
        (if j = 0 then lo else some (getCellD nd (j - 1)).key)
        (if j = nd.cells.length then hi else some (getCellD nd j).key)
        ((p, j) :: anc)

/-! ### Basic facts about well-formed trees -/

theorem loOkB_trans {lo : Option Nat} {a b : Nat} (h1 : loOkB lo a = true) (h2 : a ≤ b) :
    loOkB lo b = true := by
  cases lo with
  | none => rfl
  | some l => simp only [loOkB, decide_eq_true_eq] at h1 ⊢; omega

theorem hiOkB_trans {fam : Fam} {hi : Option Nat} {a b : Nat} (h1 : hiOkB fam hi a = true)
    (h2 : b ≤ a) : hiOkB fam hi b = true := by
  cases hi with
  | none => rfl
  | some l =>
    simp only [hiOkB] at h1 ⊢
    split_ifs at h1 ⊢ <;> simp_all <;> omega

theorem wf0_elim {s : PStore} {fam : Fam} {pg : Nat} {lo hi : Option Nat}
    (h : wfB s fam 0 pg lo hi = true) :
    ∃ nd, s.pages pg = some nd ∧ nd.type = leafTypeOf fam ∧ 1 ≤ nd.cells.length ∧
      leafCellsWfB fam nd.cells lo hi = true := by
  rw [wfB] at h
  cases hp : s.pages pg with
  | none => rw [hp] at h; exact absurd h (by simp)
  | some nd =>
    rw [hp] at h
    simp only [Bool.and_eq_true, beq_iff_eq, decide_eq_true_eq] at h
    exact ⟨nd, rfl, h.1.1, h.1.2, h.2⟩

theorem wfS_elim {s : PStore} {fam : Fam} {h : Nat} {pg : Nat} {lo hi : Option Nat}
    (hw : wfB s fam (h + 1) pg lo hi = true) :
    ∃ nd, s.pages pg = some nd ∧ nd.type = internalTypeOf fam ∧ 1 ≤ nd.cells.length ∧
      cellsWfB fam
        (fun cp clo chi =>
          wfB s fam h cp clo chi &&
          (fam == Fam.index ||
            match chi with
            | some k => (entKeys s fam h cp).contains k
            | none => true))
        nd.cells lo hi = true ∧
      wfB s fam h nd.right_page (some (nd.cells.getLastD junkCell).key) hi = true := by
  rw [wfB] at hw
  cases hp : s.pages pg with
  | none => rw [hp] at hw; exact absurd hw (by simp)
  | some nd =>
    rw [hp] at hw
    simp only [Bool.and_eq_true, beq_iff_eq, decide_eq_true_eq] at hw
    exact ⟨nd, rfl, hw.1.1.1, hw.1.1.2, hw.1.2, hw.2⟩

/-- The lower bound governing cell slot j: the node's own bound for slot 0,
the previous cell's key after that. -/
def cellLo (cells : List BTreeCell) (lo : Option Nat) (j : Nat) : Option Nat :=
  if j = 0 then lo else some (cells.getD (j - 1) junkCell).key

theorem cellsWfB_elim {fam : Fam} {w : Nat → Option Nat → Option Nat → Bool} :
    ∀ {cells : List BTreeCell} {lo hi : Option Nat},
      cellsWfB fam w cells lo hi = true →
      ∀ j, j < cells.length →
        (cells.getD j junkCell).ctype = internalTypeOf fam ∧
        loOkB (cellLo cells lo j) (cells.getD j junkCell).key = true ∧
        hiOkB fam hi (cells.getD j junkCell).key = true ∧
        w (cells.getD j junkCell).child_page (cellLo cells lo j)
          (some (cells.getD j junkCell).key) = true := by
  intro cells
  induction cells with
  | nil => intro lo hi _ j hj; simp at hj
  | cons c rest ih =>
    intro lo hi hw j hj
    rw [cellsWfB] at hw
    simp only [Bool.and_eq_true, beq_iff_eq] at hw
    obtain ⟨⟨⟨⟨ht, hlo⟩, hhi⟩, hwc⟩, hrest⟩ := hw
    cases j with
    | zero => exact ⟨ht, by simpa [cellLo] using hlo, hhi, by simpa [cellLo] using hwc⟩
    | succ m =>
      have hm := ih hrest m (by simpa using hj)
      rcases hm with ⟨h1, h2, h3, h4⟩
      refine ⟨by simpa using h1, ?_, by simpa using h3, ?_⟩
      · cases m with
        | zero => simpa [cellLo] using h2
        | succ k => simpa [cellLo] using h2
      · cases m with
        | zero => simpa [cellLo] using h4
        | succ k => simpa [cellLo] using h4

theorem leafCellsWfB_elim {fam : Fam} :
    ∀ {cells : List BTreeCell} {lo hi : Option Nat},
      leafCellsWfB fam cells lo hi = true →
      ∀ j, j < cells.length →
        (cells.getD j junkCell).ctype = leafTypeOf fam ∧
        loOkB (cellLo cells lo j) (cells.getD j junkCell).key = true ∧
        hiOkB fam hi (cells.getD j junkCell).key = true := by
  intro cells
  induction cells with
  | nil => intro lo hi _ j hj; simp at hj
  | cons c rest ih =>
    intro lo hi hw j hj
    rw [leafCellsWfB] at hw
    simp only [Bool.and_eq_true, beq_iff_eq] at hw
    obtain ⟨⟨⟨ht, hlo⟩, hhi⟩, hrest⟩ := hw
    cases j with
    | zero => exact ⟨ht, by simpa [cellLo] using hlo, hhi⟩
    | succ m =>
      have hm := ih hrest m (by simpa using hj)
      rcases hm with ⟨h1, h2, h3⟩
      refine ⟨by simpa using h1, ?_, by simpa using h3⟩
      cases m with
      | zero => simpa [cellLo] using h2
      | succ k => simpa [cellLo] using h2

theorem childPageOfCell_eq {fam : Fam} {c : BTreeCell} (h : c.ctype = internalTypeOf fam)
    (z : Nat) : childPageOfCell c z = c.child_page := by
  cases fam <;> cases c <;> simp [BTreeCell.ctype, internalTypeOf] at h ⊢ <;> rfl

theorem getD_last_eq {cells : List BTreeCell} (h : 1 ≤ cells.length) :
    cells.getD (cells.length - 1) junkCell = cells.getLastD junkCell := by
  rw [List.getD_eq_getElem?_getD, List.getLastD_eq_getLast?, ← List.getLast?_eq_getElem?]

theorem wf_of_path {s : PStore} {fam : Fam} {root H : Nat}
    (hroot : wfB s fam H root none none = true) :
    ∀ {pg h lo hi anc}, PathTo s fam root H pg h lo hi anc → wfB s fam h pg lo hi = true := by
  intro pg h lo hi anc hp
  induction hp with
  | nil => exact hroot
  | @cons p h' lo' hi' anc' nd j hpar hnd hj ih =>
    obtain ⟨nd2, hnd2, htype, hlen, hcells, hright⟩ := wfS_elim ih
    rw [hnd] at hnd2
    injection hnd2 with hnd2
    subst hnd2
    by_cases hje : j = nd.cells.length
    · subst hje
      unfold childAtSlot
      rw [if_pos rfl, if_neg (by omega), if_pos rfl]
      simp only [getCellD]
      rw [getD_last_eq hlen]
      exact hright
    · have hjlt : j < nd.cells.length := lt_of_le_of_ne hj hje
      obtain ⟨hct, hlo2, hhi2, hw⟩ := cellsWfB_elim hcells j hjlt
      simp only [Bool.and_eq_true] at hw
      unfold childAtSlot
      simp only [getCellD]
      rw [if_neg hje, if_neg hje, childPageOfCell_eq hct]
      have := hw.1
      unfold cellLo at this
      exact this

theorem leafCells_bounds {fam : Fam} :
    ∀ {cells : List BTreeCell} {lo hi : Option Nat},
      leafCellsWfB fam cells lo hi = true →
      ∀ c ∈ cells, loOkB lo c.key = true ∧ hiOkB fam hi c.key = true := by
  intro cells
  induction cells with
  | nil => intro lo hi _ c hc; simp at hc
  | cons c0 rest ih =>
    intro lo hi hw c hc
    rw [leafCellsWfB] at hw
    simp only [Bool.and_eq_true, beq_iff_eq] at hw
    obtain ⟨⟨⟨-, hlo⟩, hhi⟩, hrest⟩ := hw
    rcases List.mem_cons.mp hc with hc0 | hct
    · subst hc0; exact ⟨hlo, hhi⟩
    · have := ih hrest c hct
      refine ⟨loOkB_trans hlo ?_, this.2⟩
      have hlo2 := this.1
      simp only [loOkB, decide_eq_true_eq] at hlo2
      omega

theorem cellsWfB_key_lo {fam : Fam} {w : Nat → Option Nat → Option Nat → Bool} :
    ∀ {cells : List BTreeCell} {lo hi : Option Nat},
      cellsWfB fam w cells lo hi = true →
      ∀ j, j < cells.length → loOkB lo (cells.getD j junkCell).key = true := by
  intro cells
  induction cells with
  | nil => intro lo hi _ j hj; simp at hj
  | cons c0 rest ih =>
    intro lo hi hw j hj
    rw [cellsWfB] at hw
    simp only [Bool.and_eq_true, beq_iff_eq] at hw
    obtain ⟨⟨⟨⟨-, hlo⟩, hhi⟩, -⟩, hrest⟩ := hw
    cases j with
    | zero => simpa using hlo
    | succ m =>
      have hm := ih hrest m (by simpa using hj)
      have hlt : c0.key < (rest.getD m junkCell).key := by simpa [loOkB] using hm
      rw [List.getD_cons_succ]
      exact loOkB_trans hlo (le_of_lt hlt)

theorem cellsWfB_key_hi {fam : Fam} {w : Nat → Option Nat → Option Nat → Bool} :
    ∀ {cells : List BTreeCell} {lo hi : Option Nat},
      cellsWfB fam w cells lo hi = true →
      ∀ j, j < cells.length → hiOkB fam hi (cells.getD j junkCell).key = true := by
  intro cells lo hi hw j hj
  exact (cellsWfB_elim hw j hj).2.2.1

theorem loOkB_some {a k : Nat} : loOkB (some a) k = true ↔ a < k := by
  simp [loOkB]

theorem hiOkB_some_le {fam : Fam} {a k : Nat} (h : hiOkB fam (some a) k = true) : k ≤ a := by
  cases fam <;> simp [hiOkB] at h <;> omega

theorem flat_bounds {fam : Fam} {e : Nat → List Nat} {w : Nat → Option Nat → Option Nat → Bool}
    (hws : ∀ cp clo chi, w cp clo chi = true →
      ∀ k ∈ e cp, loOkB clo k = true ∧ hiOkB fam chi k = true) :
    ∀ {cells : List BTreeCell} {lo hi : Option Nat}, cellsWfB fam w cells lo hi = true →
      ∀ k ∈ cells.flatMap
          (fun c => e c.child_page ++ (if fam = Fam.index then [c.key] else [])),
        loOkB lo k = true ∧ hiOkB fam hi k = true := by
  intro cells
  induction cells with
  | nil => intro lo hi _ k hk; simp at hk
  | cons c rest ih =>
    intro lo hi hw k hk
    rw [cellsWfB] at hw
    simp only [Bool.and_eq_true, beq_iff_eq] at hw
    obtain ⟨⟨⟨⟨-, hlo⟩, hhi⟩, hwc⟩, hrest⟩ := hw
    rw [List.flatMap_cons, List.mem_append, List.mem_append] at hk
    rcases hk with (hk | hk) | hk
    · have := hws _ _ _ hwc k hk
      exact ⟨this.1, hiOkB_trans hhi (hiOkB_some_le this.2)⟩
    · have hkc : k = c.key := by
        rcases hfam : fam <;> rw [hfam] at hk <;> simpa using hk
      subst hkc
      exact ⟨hlo, hhi⟩
    · have := ih hrest k hk
      have hck : c.key < k := loOkB_some.mp (by
        have := this.1
        exact this)
      exact ⟨loOkB_trans hlo (by omega), this.2⟩

theorem entKeys_bounds {s : PStore} {fam : Fam} :
    ∀ (h : Nat) {pg : Nat} {lo hi : Option Nat}, wfB s fam h pg lo hi = true →
      ∀ k ∈ entKeys s fam h pg, loOkB lo k = true ∧ hiOkB fam hi k = true := by
  intro h
  induction h with
  | zero =>
    intro pg lo hi hw k hk
    obtain ⟨nd, hnd, -, -, hcw⟩ := wf0_elim hw
    rw [entKeys, hnd] at hk
    dsimp only at hk
    simp only [List.mem_map] at hk
    obtain ⟨c, hc, rfl⟩ := hk
    exact leafCells_bounds hcw c hc
  | succ hh ih =>
    intro pg lo hi hw k hk
    obtain ⟨nd, hnd, -, hlen, hcw, hrw⟩ := wfS_elim hw
    rw [entKeys, hnd] at hk
    dsimp only at hk
    unfold entsFrom at hk
    rw [List.drop_zero, if_pos (by omega)] at hk
    rw [List.mem_append] at hk
    rcases hk with hk | hk
    · exact flat_bounds (fun cp clo chi hwc => ih (by
        simp only [Bool.and_eq_true] at hwc
        exact hwc.1)) hcw k hk
    · have := ih hrw k hk
      have hlast : loOkB lo (nd.cells.getLastD junkCell).key = true := by
        have := cellsWfB_key_lo hcw (nd.cells.length - 1) (by omega)
        rwa [getD_last_eq hlen] at this
      have h1 : (nd.cells.getLastD junkCell).key < k := loOkB_some.mp this.1
      exact ⟨loOkB_trans hlast (by omega), this.2⟩

theorem leafCells_sorted {fam : Fam} :
    ∀ {cells : List BTreeCell} {lo hi : Option Nat}, leafCellsWfB fam cells lo hi = true →
      List.Pairwise (· < ·) (cells.map BTreeCell.key) := by
  intro cells
  induction cells with
  | nil => intro lo hi _; simp
  | cons c rest ih =>
    intro lo hi hw
    rw [leafCellsWfB] at hw
    simp only [Bool.and_eq_true, beq_iff_eq] at hw
    obtain ⟨⟨⟨-, -⟩, -⟩, hrest⟩ := hw
    rw [List.map_cons, List.pairwise_cons]
    refine ⟨?_, ih hrest⟩
    intro b hb
    simp only [List.mem_map] at hb
    obtain ⟨c2, hc2, rfl⟩ := hb
    exact loOkB_some.mp (leafCells_bounds hrest c2 hc2).1

/-- The lower bound that applies after all of a cell list: cellLo at the list
length. -/
theorem cellLo_cons_shift (c : BTreeCell) (rest : List BTreeCell) (lo : Option Nat) :
    cellLo (c :: rest) lo (c :: rest).length = cellLo rest (some c.key) rest.length := by
  cases rest with
  | nil => simp [cellLo]
  | cons d tl => simp [cellLo]

theorem flat_sorted_append {fam : Fam} {e : Nat → List Nat}
    {w : Nat → Option Nat → Option Nat → Bool}
    (hwsB : ∀ cp clo chi, w cp clo chi = true →
      ∀ k ∈ e cp, loOkB clo k = true ∧ hiOkB fam chi k = true)
    (hwsS : ∀ cp clo chi, w cp clo chi = true → List.Pairwise (· < ·) (e cp)) :
    ∀ {cells : List BTreeCell} {lo hi : Option Nat}, cellsWfB fam w cells lo hi = true →
      ∀ {tl : List Nat}, List.Pairwise (· < ·) tl →
        (∀ x ∈ tl, loOkB (cellLo cells lo cells.length) x = true) →
        List.Pairwise (· < ·)
          (cells.flatMap (fun c => e c.child_page ++ (if fam = Fam.index then [c.key] else [])) ++ tl) := by
  intro cells
  induction cells with
  | nil => intro lo hi _ tl htl _; simpa using htl
  | cons c rest ih =>
    intro lo hi hw tl htl htlb
    rw [cellsWfB] at hw
    simp only [Bool.and_eq_true, beq_iff_eq] at hw
    obtain ⟨⟨⟨⟨-, hlo⟩, hhi⟩, hwc⟩, hrest⟩ := hw
    have htlb2 : ∀ x ∈ tl, loOkB (cellLo rest (some c.key) rest.length) x = true := by
      intro x hx
      have := htlb x hx
      rwa [cellLo_cons_shift] at this
    have hrestPart := ih hrest htl htlb2
    -- every element of the rest-flat ++ tl is above c.key
    have habove : ∀ x ∈ rest.flatMap
        (fun cc => e cc.child_page ++ (if fam = Fam.index then [cc.key] else [])) ++ tl,
        c.key < x := by
      intro x hx
      rw [List.mem_append] at hx
      rcases hx with hx | hx
      · exact loOkB_some.mp (flat_bounds hwsB hrest x hx).1
      · have := htlb2 x hx
        have hchain : ∀ j, j < rest.length →
            c.key < (rest.getD j junkCell).key := fun j hj =>
          loOkB_some.mp (cellsWfB_key_lo hrest j hj)
        cases hr : rest with
        | nil =>
          subst hr
          have := htlb2 x hx
          simpa [cellLo] using loOkB_some.mp this
        | cons d tl2 =>
          have hlast := hchain (rest.length - 1) (by rw [hr]; simp)
          have hx2 : (rest.getD (rest.length - 1) junkCell).key < x := by
            have := htlb2 x hx
            unfold cellLo at this
            rw [if_neg (by rw [hr]; simp)] at this
            exact loOkB_some.mp this
          omega
    -- the child entries are ≤ c.key (table) / < c.key (index)
    have hchild : ∀ x ∈ e c.child_page, x ≤ c.key := fun x hx =>
      hiOkB_some_le (hwsB _ _ _ hwc x hx).2
    rw [List.flatMap_cons, List.append_assoc]
    rw [List.pairwise_append]
    refine ⟨?_, hrestPart, ?_⟩
    · -- e child ++ (index key singleton) is sorted
      rw [List.pairwise_append]
      refine ⟨hwsS _ _ _ hwc, by
        rcases hfam : fam <;> simp, ?_⟩
      intro a ha b hb
      rcases hfam : fam <;> rw [hfam] at hb
      · simp at hb
      · simp at hb
        subst hb
        have := (hwsB _ _ _ hwc a ha).2
        rw [hfam] at this
        simpa [hiOkB] using this
    · intro a ha b hb
      rw [List.mem_append] at ha
      rcases ha with ha | ha
      · exact lt_of_le_of_lt (hchild a ha) (habove b hb)
      · have hac : a = c.key := by
          rcases hfam : fam <;> rw [hfam] at ha <;> simpa using ha
        subst hac
        exact habove b hb

theorem entKeys_sorted {s : PStore} {fam : Fam} :
    ∀ (h : Nat) {pg : Nat} {lo hi : Option Nat}, wfB s fam h pg lo hi = true →
      List.Pairwise (· < ·) (entKeys s fam h pg) := by
  intro h
  induction h with
  | zero =>
    intro pg lo hi hw
    obtain ⟨nd, hnd, -, -, hcw⟩ := wf0_elim hw
    rw [entKeys, hnd]
    dsimp only
    exact leafCells_sorted hcw
  | succ hh ih =>
    intro pg lo hi hw
    obtain ⟨nd, hnd, -, hlen, hcw, hrw⟩ := wfS_elim hw
    rw [entKeys, hnd]
    dsimp only
    unfold entsFrom
    rw [List.drop_zero, if_pos (by omega)]
    refine flat_sorted_append
      (fun cp clo chi hwc => entKeys_bounds hh (by
        simp only [Bool.and_eq_true] at hwc
        exact hwc.1))
      (fun cp clo chi hwc => ih (by
        simp only [Bool.and_eq_true] at hwc
        exact hwc.1)) hcw (ih hrw) ?_
    intro x hx
    have := entKeys_bounds hh hrw x hx
    unfold cellLo
    rw [if_neg (by omega), getD_last_eq hlen]
    exact this.1

theorem entKeys_ne_nil {s : PStore} {fam : Fam} :
    ∀ (h : Nat) {pg : Nat} {lo hi : Option Nat}, wfB s fam h pg lo hi = true →
      entKeys s fam h pg ≠ [] := by
  intro h
  cases h with
  | zero =>
    intro pg lo hi hw
    obtain ⟨nd, hnd, -, hlen, -⟩ := wf0_elim hw
    rw [entKeys, hnd]
    dsimp only
    simp only [ne_eq, List.map_eq_nil_iff]
    intro hc
    rw [hc] at hlen
    simp at hlen
  | succ hh =>
    intro pg lo hi hw
    obtain ⟨nd, hnd, -, hlen, -, hrw⟩ := wfS_elim hw
    rw [entKeys, hnd]
    dsimp only
    unfold entsFrom
    rw [List.drop_zero, if_pos (by omega)]
    have := entKeys_ne_nil hh hrw
    intro hc
    rcases List.append_eq_nil.mp hc with ⟨-, h2⟩
    exact this h2

/-! ### Properties of the scan position and of index-tree pairs -/

theorem findCellPos_le_length (cells : List BTreeCell) (key : Nat) :
    findCellPos cells key ≤ cells.length := by
  induction cells with
  | nil => simp [findCellPos]
  | cons c rest ih =>
    rw [findCellPos]
    split_ifs <;> simp <;> omega

theorem findCellPos_lt_of_lt {cells : List BTreeCell} {key : Nat} :
    ∀ {j}, j < findCellPos cells key → (cells.getD j junkCell).key < key := by
  induction cells with
  | nil => intro j hj; rw [findCellPos] at hj; omega
  | cons c rest ih =>
    intro j hj
    rw [findCellPos] at hj
    split_ifs at hj with hc
    · omega
    · cases j with
      | zero => simpa using by omega
      | succ m =>
        rw [List.getD_cons_succ]
        exact ih (by omega)

theorem findCellPos_ge {cells : List BTreeCell} {key : Nat}
    (h : findCellPos cells key < cells.length) :
    key ≤ (cells.getD (findCellPos cells key) junkCell).key := by
  induction cells with
  | nil => simp at h
  | cons c rest ih =>
    rw [findCellPos] at h ⊢
    split_ifs at h ⊢ with hc
    · simpa using hc
    · rw [List.getD_cons_succ]
      rw [List.length_cons] at h
      exact ih (by omega)

/-- For an index tree the key list is the first projection of the pair list. -/
theorem entKeys_index_map_fst (s : PStore) :
    ∀ (h : Nat) (pg : Nat), entKeys s Fam.index h pg = (entPairs s h pg).map Prod.fst := by
  intro h
  induction h with
  | zero =>
    intro pg
    rw [entKeys, entPairs]
    cases s.pages pg <;> simp
  | succ hh ih =>
    intro pg
    rw [entKeys, entPairs]
    cases s.pages pg with
    | none => simp
    | some nd =>
      dsimp only
      unfold entsFrom
      rw [List.drop_zero, if_pos (by omega)]
      rw [List.map_append, List.map_flatMap]
      simp only [List.map_append, ih, List.map_cons, List.map_nil]
      rfl

theorem getD_of_lt {l : List BTreeCell} {n : Nat} (h : n < l.length) :
    l.getD n junkCell = l.get ⟨n, h⟩ := by
  rw [List.getD_eq_getElem?_getD, List.getElem?_eq_getElem h]
  rfl

/-- Keys of a bounded cell list grow strictly with the index, from the
adjacency bounds that both leafCellsWfB and cellsWfB record. -/
theorem keys_mono_of_adj {cells : List BTreeCell} {lo : Option Nat}
    (hadj : ∀ j, j < cells.length →
      loOkB (cellLo cells lo j) (cells.getD j junkCell).key = true) :
    ∀ m j, m < j → j < cells.length →
      (cells.getD m junkCell).key < (cells.getD j junkCell).key := by
  intro m j
  induction j with
  | zero => intro h1 _; omega
  | succ n ihj =>
    intro hmj hjl
    have hadjn := hadj (n + 1) hjl
    unfold cellLo at hadjn
    rw [if_neg (by omega), Nat.add_sub_cancel] at hadjn
    have hadj2 := loOkB_some.mp hadjn
    by_cases hmn : m = n
    · rw [hmn]; exact hadj2
    · exact lt_trans (ihj (by omega) (by omega)) hadj2

/-- The scan position is j exactly when every key before j is below the key
and the key at j (if any) is not. -/
theorem findCellPos_eq {key : Nat} :
    ∀ {cells : List BTreeCell} {j : Nat}, j ≤ cells.length →
      (∀ m, m < j → (cells.getD m junkCell).key < key) →
      (j < cells.length → key ≤ (cells.getD j junkCell).key) →
      findCellPos cells key = j := by
  intro cells
  induction cells with
  | nil =>
    intro j hj _ _
    rw [findCellPos]
    simp at hj
    omega
  | cons c rest ih =>
    intro j hj hlt hge
    rw [findCellPos]
    cases j with
    | zero =>
      rw [if_pos]
      have := hge (by simp)
      simpa using this
    | succ m =>
      have hc : c.key < key := by simpa using hlt 0 (by omega)
      rw [if_neg (by omega)]
      rw [List.length_cons] at hj
      have hres := ih (j := m) (by omega)
        (fun i hi => by
          have := hlt (i + 1) (by omega)
          rwa [List.getD_cons_succ] at this)
        (fun hm => by
          have := hge (by rw [List.length_cons]; omega)
          rwa [List.getD_cons_succ] at this)
      omega

/-- chidb_Btree_find on a well-formed index subtree of height h, queried with
a keyIdx stored in it, returns OK with the native little-endian store of the
paired keyPk; h + 1 descent frames suffice (one per level). -/
theorem find_index_found {s : PStore} :
    ∀ (h : Nat) {pg : Nat} {lo hi : Option Nat} {k pk : Nat},
      wfB s Fam.index h pg lo hi = true →
      (k, pk) ∈ entPairs s h pg →
      chidb_Btree_find (h + 1) s pg k = .ok (chidb_key_store_bytes pk) := by
  intro h
  induction h with
  | zero =>
    intro pg lo hi k pk hw hmem
    obtain ⟨nd, hnd, htype, hlen, hcw⟩ := wf0_elim hw
    simp only [leafTypeOf] at htype
    rw [entPairs, hnd] at hmem
    dsimp only at hmem
    obtain ⟨c, hc, hck⟩ := List.mem_map.mp hmem
    have hk : c.key = k := congrArg Prod.fst hck
    have hpk : c.keyPk = pk := congrArg Prod.snd hck
    obtain ⟨j, hjl, hje⟩ := List.getElem_of_mem hc
    have hgd : nd.cells.getD j junkCell = c := by
      rw [getD_of_lt hjl]
      exact hje
    have hmono := keys_mono_of_adj (fun i hi2 => (leafCellsWfB_elim hcw i hi2).2.1)
    have hpos : findCellPos nd.cells k = j := by
      apply findCellPos_eq (le_of_lt hjl)
      · intro m hm
        have h2 := hmono m j hm hjl
        rw [hgd] at h2
        omega
      · intro _
        rw [hgd]
        omega
    rw [chidb_Btree_find, hnd]
    dsimp only
    rw [htype]
    dsimp only [PageType.isLeaf]
    rw [if_pos rfl]
    rw [hpos, if_neg (by omega : ¬ j = nd.cells.length)]
    simp only [getCellD]
    rw [hgd]
    rw [if_neg (by omega : ¬ k < c.key)]
    rw [hpk]
  | succ hh ih =>
    intro pg lo hi k pk hw hmem
    obtain ⟨nd, hnd, htype, hlen, hcw, hrw⟩ := wfS_elim hw
    simp only [internalTypeOf] at htype
    rw [entPairs, hnd] at hmem
    dsimp only at hmem
    rw [List.mem_append] at hmem
    have hmono := keys_mono_of_adj (fun i hi2 => (cellsWfB_elim hcw i hi2).2.1)
    rcases hmem with hmem | hmem
    · rw [List.mem_flatMap] at hmem
      obtain ⟨c, hc, hcm⟩ := hmem
      obtain ⟨j, hjl, hje⟩ := List.getElem_of_mem hc
      have hgd : nd.cells.getD j junkCell = c := by
        rw [getD_of_lt hjl]
        exact hje
      obtain ⟨hct, hclo, hchi, hwc⟩ := cellsWfB_elim hcw j hjl
      rw [hgd] at hct hwc
      simp only [Bool.and_eq_true] at hwc
      have hwchild := hwc.1
      rw [List.mem_append] at hcm
      rcases hcm with hcm | hcm
      · -- the pair lives in the cell's child subtree: k < c.key, descend
        have hkmem : k ∈ entKeys s Fam.index hh c.child_page := by
          rw [entKeys_index_map_fst]
          exact List.mem_map_of_mem Prod.fst hcm
        have hb := entKeys_bounds hh hwchild k hkmem
        have hkj : k < c.key := by
          have := hb.2
          simpa [hiOkB] using this
        have hpos : findCellPos nd.cells k = j := by
          apply findCellPos_eq (le_of_lt hjl)
          · intro m hm
            have hj1 : (nd.cells.getD (j - 1) junkCell).key < k := by
              have := hb.1
              unfold cellLo at this
              rw [if_neg (by omega)] at this
              exact loOkB_some.mp this
            by_cases hme : m = j - 1
            · rw [hme]; exact hj1
            · exact lt_trans (hmono m (j - 1) (by omega) (by omega)) hj1
          · intro _
            rw [hgd]
            omega
        rw [chidb_Btree_find, hnd]
        dsimp only
        rw [htype]
        dsimp only [PageType.isLeaf]
        rw [if_neg (fun hcon => nomatch hcon : ¬ (false = true))]
        rw [hpos, if_neg (by omega : ¬ j = nd.cells.length)]
        simp only [getCellD]
        rw [hgd]
        rw [if_neg (by rintro ⟨-, hcon⟩; omega)]
        rw [childPageOfCell_eq hct]
        exact ih hwchild hcm
      · -- the pair is the cell's own (exact match at the internal node)
        have he := List.mem_singleton.mp hcm
        have hk : k = c.key := congrArg Prod.fst he
        have hpk : pk = c.keyPk := congrArg Prod.snd he
        have hpos : findCellPos nd.cells k = j := by
          apply findCellPos_eq (le_of_lt hjl)
          · intro m hm
            have h2 := hmono m j hm hjl
            rw [hgd] at h2
            omega
          · intro _
            rw [hgd]
            omega
        rw [chidb_Btree_find, hnd]
        dsimp only
        rw [htype]
        dsimp only [PageType.isLeaf]
        rw [if_neg (fun hcon => nomatch hcon : ¬ (false = true))]
        rw [hpos, if_neg (by omega : ¬ j = nd.cells.length)]
        simp only [getCellD]
        rw [hgd]
        rw [if_pos ⟨trivial, hk⟩]
        rw [hpk]
    · -- the pair lives in the right child: every cell key is below k
      have hkmem : k ∈ entKeys s Fam.index hh nd.right_page := by
        rw [entKeys_index_map_fst]
        exact List.mem_map_of_mem Prod.fst hmem
      have hb := entKeys_bounds hh hrw k hkmem
      have hlast : (nd.cells.getLastD junkCell).key < k := loOkB_some.mp hb.1
      have hpos : findCellPos nd.cells k = nd.cells.length := by
        apply findCellPos_eq (le_refl _)
        · intro m hm
          have hle : (nd.cells.getD m junkCell).key ≤ (nd.cells.getLastD junkCell).key := by
            rw [← getD_last_eq hlen]
            by_cases hme : m = nd.cells.length - 1
            · exact le_of_eq (by rw [hme])
            · exact le_of_lt (hmono m (nd.cells.length - 1) (by omega) (by omega))
          omega
        · intro hcon
          omega
      rw [chidb_Btree_find, hnd]
      dsimp only
      rw [htype]
      dsimp only [PageType.isLeaf]
      rw [if_neg (fun hcon => nomatch hcon : ¬ (false = true))]
      rw [hpos, if_pos rfl]
      exact ih hrw hmem

/-- C4: corrected.  On a well-formed index tree of height H rooted at page
root, find on a stored keyIdx k whose cell pairs it with keyPk pk returns OK
with the four bytes of pk laid out by the native little-endian uint32 store
the C performs (chidb_key_store_bytes) -- not the big-endian encoding the
claim states.  The theorem covers both placements the claim mentions: an
exact match at an INDEX_INTERNAL cell and one at an index leaf. -/
theorem C4_find_returns_native_store {s : PStore} {H root k pk : Nat}
    (hwf : wfB s Fam.index H root none none = true)
    (hmem : (k, pk) ∈ entPairs s H root) :
    chidb_Btree_find (H + 1) s root k = .ok (chidb_key_store_bytes pk) :=
  find_index_found H hwf hmem

/-- C4 witness: the spec's example index tree (one leaf with
(10,100),(20,200),(30,300)) is well-formed, stores the pair (20,200), and
find by 20 returns the native store bytes of 200. -/
theorem C4_find_returns_native_store_witness :
    wfB c4Store Fam.index 0 1 none none = true ∧
    (20, 200) ∈ entPairs c4Store 0 1 ∧
    chidb_Btree_find 1 c4Store 1 20 = .ok (chidb_key_store_bytes 200) :=
  ⟨by decide, by decide, C4_find_returns_native_store (by decide) (by decide)⟩

/-! ### Traversal framework: the leftmost spine and the remaining-keys laws -/

/-- The path frames descendLeft builds when entering a subtree of height h
with cell index 0: the leftmost spine, deepest frame first. -/
def dLeft (s : PStore) : Nat → Nat → List (Nat × Nat)
  | 0, pg => [(pg, 0)]
  | h + 1, pg =>
    match s.pages pg with
    | none => [(pg, 0)]
    | some nd => dLeft s h (childAtSlot nd 0) ++ [(pg, 0)]

theorem isLeaf_leafTypeOf (fam : Fam) : (leafTypeOf fam).isLeaf = true := by
  cases fam <;> rfl

theorem isLeaf_internalTypeOf (fam : Fam) : (internalTypeOf fam).isLeaf = false := by
  cases fam <;> rfl

theorem getD_eq_getElem {l : List BTreeCell} {n : Nat} (h : n < l.length) :
    l.getD n junkCell = l[n] := by
  rw [List.getD_eq_getElem?_getD, List.getElem?_eq_getElem h]
  rfl

theorem drop_cons_getD {l : List BTreeCell} {j : Nat} (h : j < l.length) :
    l.drop j = l.getD j junkCell :: l.drop (j + 1) := by
  rw [List.drop_eq_getElem_cons h, getD_eq_getElem h]

theorem entsFrom_step {e : Nat → List Nat} {fam : Fam} {nd : PNode} {j : Nat}
    (hj : j < nd.cells.length) :
    entsFrom e fam nd j =
      e (nd.cells.getD j junkCell).child_page ++
        ((if fam = Fam.index then [(nd.cells.getD j junkCell).key] else []) ++
          entsFrom e fam nd (j + 1)) := by
  unfold entsFrom
  rw [drop_cons_getD hj, List.flatMap_cons]
  rw [if_pos (by omega : j ≤ nd.cells.length), if_pos (by omega : j + 1 ≤ nd.cells.length)]
  simp [List.append_assoc]

theorem entsFrom_at_len {e : Nat → List Nat} {fam : Fam} {nd : PNode} :
    entsFrom e fam nd nd.cells.length = e nd.right_page := by
  unfold entsFrom
  rw [List.drop_length, if_pos (le_refl _)]
  simp

theorem entsFrom_past {e : Nat → List Nat} {fam : Fam} {nd : PNode} {j : Nat}
    (hj : nd.cells.length < j) :
    entsFrom e fam nd j = [] := by
  unfold entsFrom
  rw [List.drop_eq_nil_of_le (by omega), if_neg (by omega)]
  simp

theorem upRem_cons {s : PStore} {fam : Fam} {pg i : Nat} {rest : List (Nat × Nat)} {h : Nat}
    {nd : PNode} (hnd : s.pages pg = some nd) :
    upRem s fam ((pg, i) :: rest) h =
      (if fam = Fam.index ∧ i < nd.cells.length then [(getCellD nd i).key] else []) ++
      (entsFrom (entKeys s fam h) fam nd (i + 1) ++ upRem s fam rest (h + 1)) := by
  simp only [upRem, hnd, List.append_assoc]

theorem PathTo_height_le {s : PStore} {fam : Fam} {root H : Nat} :
    ∀ {pg h : Nat} {lo hi : Option Nat} {anc : List (Nat × Nat)},
      PathTo s fam root H pg h lo hi anc → h ≤ H := by
  intro pg h lo hi anc hp
  induction hp with
  | nil => exact le_refl _
  | cons hpar hnd hj ih => omega

theorem wf_page_isSome {s : PStore} {fam : Fam} {h pg : Nat} {lo hi : Option Nat}
    (hw : wfB s fam h pg lo hi = true) : (s.pages pg).isSome = true := by
  cases h with
  | zero =>
    obtain ⟨nd, hnd, -, -, -⟩ := wf0_elim hw
    rw [hnd]
    rfl
  | succ hh =>
    obtain ⟨nd, hnd, -, -, -, -⟩ := wfS_elim hw
    rw [hnd]
    rfl

/-- The subtree hanging off slot j of a well-formed internal node is
well-formed between the slot's bounds (the bounds PathTo records). -/
theorem wf_child_of_slot {s : PStore} {fam : Fam} {h pg : Nat} {lo hi : Option Nat} {nd : PNode}
    (hw : wfB s fam (h + 1) pg lo hi = true) (hnd : s.pages pg = some nd)
    {j : Nat} (hj : j ≤ nd.cells.length) :
    wfB s fam h (childAtSlot nd j)
      (if j = 0 then lo else some (getCellD nd (j - 1)).key)
      (if j = nd.cells.length then hi else some (getCellD nd j).key) = true := by
  obtain ⟨nd2, hnd2, htype, hlen, hcells, hright⟩ := wfS_elim hw
  rw [hnd] at hnd2
  injection hnd2 with hnd2
  subst hnd2
  by_cases hje : j = nd.cells.length
  · subst hje
    unfold childAtSlot
    rw [if_pos rfl, if_neg (by omega), if_pos rfl]
    simp only [getCellD]
    rw [getD_last_eq hlen]
    exact hright
  · have hjlt : j < nd.cells.length := lt_of_le_of_ne hj hje
    obtain ⟨hct, hlo2, hhi2, hw2⟩ := cellsWfB_elim hcells j hjlt
    simp only [Bool.and_eq_true] at hw2
    unfold childAtSlot
    simp only [getCellD]
    rw [if_neg hje, if_neg hje, childPageOfCell_eq hct]
    have := hw2.1
    unfold cellLo at this
    exact this

theorem descendLeft_go {s : PStore} {fam : Fam} :
    ∀ (h : Nat) {pg : Nat} {lo hi : Option Nat} {rest : List (Nat × Nat)} {fuel : Nat},
      wfB s fam h pg lo hi = true → h < fuel →
      descendLeft s fuel ⟨(pg, 0) :: rest⟩ = (CHIDB_OK, ⟨dLeft s h pg ++ rest⟩) := by
  intro h
  induction h with
  | zero =>
    intro pg lo hi rest fuel hw hfuel
    obtain ⟨nd, hnd, htype, hlen, -⟩ := wf0_elim hw
    obtain ⟨f, rfl⟩ : ∃ f, fuel = f + 1 := ⟨fuel - 1, by omega⟩
    rw [descendLeft]
    dsimp only
    rw [hnd]
    dsimp only
    rw [htype, isLeaf_leafTypeOf, if_pos rfl]
    rfl
  | succ hh ih =>
    intro pg lo hi rest fuel hw hfuel
    obtain ⟨nd, hnd, htype, hlen, hcw, hrw⟩ := wfS_elim hw
    obtain ⟨f, rfl⟩ : ∃ f, fuel = f + 1 := ⟨fuel - 1, by omega⟩
    have hchild := wf_child_of_slot hw hnd (le_of_lt hlen)
    have hsome : (s.pages (childAtSlot nd 0)).isSome = true := wf_page_isSome hchild
    have hgo : chidb_dbm_cursor_goDownCurrentCell s ⟨(pg, 0) :: rest⟩ =
        (CHIDB_OK, ⟨(childAtSlot nd 0, 0) :: (pg, 0) :: rest⟩) := by
      unfold chidb_dbm_cursor_goDownCurrentCell
      dsimp only
      rw [hnd]
      dsimp only
      rw [if_pos hsome]
    have hd : dLeft s (hh + 1) pg = dLeft s hh (childAtSlot nd 0) ++ [(pg, 0)] := by
      rw [dLeft, hnd]
    rw [descendLeft]
    dsimp only
    rw [hnd]
    dsimp only
    rw [htype, isLeaf_internalTypeOf]
    rw [if_neg (fun hcon => nomatch hcon : ¬ (false = true))]
    rw [hgo]
    dsimp only
    rw [if_pos rfl]
    rw [ih hchild (by omega), hd, List.append_assoc]
    rfl

theorem descendLeft_slot {s : PStore} {fam : Fam} {h pg : Nat} {lo hi : Option Nat} {nd : PNode}
    {j : Nat} {rest : List (Nat × Nat)} {fuel : Nat}
    (hw : wfB s fam (h + 1) pg lo hi = true) (hnd : s.pages pg = some nd)
    (hj : j ≤ nd.cells.length) (hfuel : h + 1 < fuel) :
    descendLeft s fuel ⟨(pg, j) :: rest⟩ =
      (CHIDB_OK, ⟨dLeft s h (childAtSlot nd j) ++ (pg, j) :: rest⟩) := by
  obtain ⟨f, rfl⟩ : ∃ f, fuel = f + 1 := ⟨fuel - 1, by omega⟩
  obtain ⟨nd2, hnd2, htype, hlen, -, -⟩ := wfS_elim hw
  rw [hnd] at hnd2
  injection hnd2 with hnd2
  subst hnd2
  have hchild := wf_child_of_slot hw hnd hj
  have hsome : (s.pages (childAtSlot nd j)).isSome = true := wf_page_isSome hchild
  have hgo : chidb_dbm_cursor_goDownCurrentCell s ⟨(pg, j) :: rest⟩ =
      (CHIDB_OK, ⟨(childAtSlot nd j, 0) :: (pg, j) :: rest⟩) := by
    unfold chidb_dbm_cursor_goDownCurrentCell
    dsimp only
    rw [hnd]
    dsimp only
    rw [if_pos hsome]
  rw [descendLeft]
  dsimp only
  rw [hnd]
  dsimp only
  rw [htype, isLeaf_internalTypeOf]
  rw [if_neg (fun hcon => nomatch hcon : ¬ (false = true))]
  rw [hgo]
  dsimp only
  rw [if_pos rfl]
  exact descendLeft_go h hchild (by omega)

theorem entKeys_succ {s : PStore} {fam : Fam} {hh pg : Nat} {nd : PNode}
    (hnd : s.pages pg = some nd) :
    entKeys s fam (hh + 1) pg = entsFrom (entKeys s fam hh) fam nd 0 := by
  rw [entKeys, hnd]

/-- Entering a well-formed subtree at cell index 0, the leftmost spine ends on
a leaf, extends the descent path, and positions the traversal so that the
remaining keys are exactly the subtree's keys followed by the ancestors'
dues. -/
theorem dLeft_spec {s : PStore} {fam : Fam} {root H : Nat} :
    ∀ (h : Nat) {pg : Nat} {lo hi : Option Nat} {rest : List (Nat × Nat)},
      wfB s fam h pg lo hi = true →
      PathTo s fam root H pg h lo hi rest →
      ∃ pgL ndL tl lo2 hi2,
        dLeft s h pg = (pgL, 0) :: tl ∧
        s.pages pgL = some ndL ∧ ndL.type = leafTypeOf fam ∧ 1 ≤ ndL.cells.length ∧
        PathTo s fam root H pgL 0 lo2 hi2 (tl ++ rest) ∧
        remAt s fam ⟨dLeft s h pg ++ rest⟩ 0 = entKeys s fam h pg ++ upRem s fam rest h := by
  intro h
  induction h with
  | zero =>
    intro pg lo hi rest hw hpath
    obtain ⟨nd, hnd, htype, hlen, -⟩ := wf0_elim hw
    refine ⟨pg, nd, [], lo, hi, rfl, hnd, htype, hlen, hpath, ?_⟩
    show remAt s fam ⟨(pg, 0) :: rest⟩ 0 = _
    rw [remAt]
    dsimp only
    rw [hnd]
    dsimp only
    rw [htype, isLeaf_leafTypeOf, if_pos rfl]
    rw [List.drop_zero, entKeys, hnd]
  | succ hh ih =>
    intro pg lo hi rest hw hpath
    obtain ⟨nd, hnd, htype, hlen, hcw, hrw⟩ := wfS_elim hw
    have hchild := wf_child_of_slot hw hnd (Nat.zero_le _)
    rw [if_pos rfl, if_neg (by omega)] at hchild
    have hpath2 : PathTo s fam root H (childAtSlot nd 0) hh
        lo (some (getCellD nd 0).key) ((pg, 0) :: rest) := by
      have := PathTo.cons (j := 0) hpath hnd (Nat.zero_le _)
      rw [if_pos rfl, if_neg (by omega)] at this
      exact this
    obtain ⟨pgL, ndL, tl, lo2, hi2, hdl, hndL, htL, hlenL, hpathL, hrem⟩ := ih hchild hpath2
    have hd : dLeft s (hh + 1) pg = dLeft s hh (childAtSlot nd 0) ++ [(pg, 0)] := by
      rw [dLeft, hnd]
    have hct := (cellsWfB_elim hcw 0 hlen).1
    have hch : childAtSlot nd 0 = (nd.cells.getD 0 junkCell).child_page := by
      unfold childAtSlot
      simp only [getCellD]
      rw [if_neg (by omega), childPageOfCell_eq hct]
    refine ⟨pgL, ndL, tl ++ [(pg, 0)], lo2, hi2, ?_, hndL, htL, hlenL, ?_, ?_⟩
    · rw [hd, hdl, List.cons_append]
    · rw [List.append_assoc, List.singleton_append]
      exact hpathL
    · rw [hd, List.append_assoc, List.singleton_append]
      rw [hrem, upRem_cons hnd, entKeys_succ hnd,
        entsFrom_step (show 0 < nd.cells.length by omega), hch]
      simp only [getCellD]
      by_cases hf : fam = Fam.index
      · rw [if_pos ⟨hf, by omega⟩, if_pos hf]
        simp [List.append_assoc]
      · rw [if_neg (fun hcon => hf hcon.1), if_neg hf]
        simp [List.append_assoc]

/-- The ascent analysis of next: the ancestors owe no keys exactly when every
ancestor frame is closed (sits at n_cells); when they do owe keys,
ascendToOpen finds the deepest open frame, the frames popped contribute
nothing, and the dues carry over. -/
theorem ascend_spec {s : PStore} {fam : Fam} {root H : Nat}
    (hroot : wfB s fam H root none none = true) :
    ∀ {pg h : Nat} {lo hi : Option Nat} {rest : List (Nat × Nat)},
      PathTo s fam root H pg h lo hi rest →
      (upRem s fam rest h = [] → allRight s rest = true) ∧
      (upRem s fam rest h ≠ [] →
        allRight s rest = false ∧ rest ≠ [] ∧
        ∃ p j anc h2 lo2 hi2 ndp,
          ascendToOpen s rest = some ⟨(p, j) :: anc⟩ ∧
          PathTo s fam root H p (h2 + 1) lo2 hi2 anc ∧
          s.pages p = some ndp ∧ j < ndp.cells.length ∧
          upRem s fam rest h = upRem s fam ((p, j) :: anc) h2) := by
  intro pg h lo hi rest hpath
  induction hpath with
  | nil => exact ⟨fun _ => rfl, fun hcon => absurd rfl hcon⟩
  | @cons p h' lo' hi' anc nd j hpar hnd hj ih =>
    have hwp : wfB s fam (h' + 1) p lo' hi' = true := wf_of_path hroot hpar
    obtain ⟨nd2, hnd2, htype, hlen, hcw, hrw⟩ := wfS_elim hwp
    rw [hnd] at hnd2
    injection hnd2 with hnd2
    subst hnd2
    by_cases hje : j = nd.cells.length
    · subst hje
      have h1 : upRem s fam ((p, nd.cells.length) :: anc) h' = upRem s fam anc (h' + 1) := by
        rw [upRem_cons hnd, if_neg (fun hcon => absurd hcon.2 (lt_irrefl _)),
          entsFrom_past (by omega)]
        simp
      have hall : allRight s ((p, nd.cells.length) :: anc) = allRight s anc := by
        unfold allRight
        rw [List.all_cons]
        dsimp only
        rw [hnd]
        dsimp only
        rw [beq_self_eq_true, Bool.true_and]
      have hasc : ascendToOpen s ((p, nd.cells.length) :: anc) = ascendToOpen s anc := by
        rw [ascendToOpen]
        rw [hnd]
        dsimp only
        rw [if_neg (lt_irrefl _)]
      constructor
      · intro hz
        rw [h1] at hz
        rw [hall]
        exact ih.1 hz
      · intro hnz
        rw [h1] at hnz
        obtain ⟨ha, -, p2, j2, anc2, h2, lo2, hi2, ndp2, hasc2, hpath2, hndp2, hj2, hup⟩ :=
          ih.2 hnz
        refine ⟨?_, by simp, p2, j2, anc2, h2, lo2, hi2, ndp2, ?_, hpath2, hndp2, hj2, ?_⟩
        · rw [hall]; exact ha
        · rw [hasc]; exact hasc2
        · rw [h1, hup]
    · have hjlt : j < nd.cells.length := lt_of_le_of_ne hj hje
      have hne : upRem s fam ((p, j) :: anc) h' ≠ [] := by
        rw [upRem_cons hnd]
        intro hcon
        rcases List.append_eq_nil.mp hcon with ⟨-, hcon2⟩
        rcases List.append_eq_nil.mp hcon2 with ⟨hcon3, -⟩
        unfold entsFrom at hcon3
        rcases List.append_eq_nil.mp hcon3 with ⟨-, hcon4⟩
        rw [if_pos (by omega)] at hcon4
        exact entKeys_ne_nil h' hrw hcon4
      refine ⟨fun hz => absurd hz hne, fun _ => ⟨?_, by simp, p, j, anc, h', lo', hi', nd,
        ?_, hpar, hnd, hjlt, rfl⟩⟩
      · unfold allRight
        rw [List.all_cons]
        dsimp only
        rw [hnd]
        dsimp only
        rw [show (j == nd.cells.length) = false from by simpa using hje, Bool.false_and]
      · rw [ascendToOpen]
        rw [hnd]
        dsimp only
        rw [if_pos hjlt]

/-- A legitimate cursor position in the tree rooted at root (height H): the
head frame sits on a node reached by a descent path, with its cell index in
range; positions on internal nodes only arise in index trees. -/
def PosAt (s : PStore) (fam : Fam) (root H : Nat) (c : Cursor) (h : Nat) : Prop :=
  ∃ pg i rest lo hi nd,
    c.path = (pg, i) :: rest ∧ PathTo s fam root H pg h lo hi rest ∧
    s.pages pg = some nd ∧ i < nd.cells.length ∧ (h = 0 ∨ fam = Fam.index)

/-- The weaker position shape seek can produce: on a leaf the cell index may
also sit at n_cells (one past the last cell), as seekge leaves it after a
failed search. -/
def PosW (s : PStore) (fam : Fam) (root H : Nat) (c : Cursor) (h : Nat) : Prop :=
  ∃ pg i rest lo hi nd,
    c.path = (pg, i) :: rest ∧ PathTo s fam root H pg h lo hi rest ∧
    s.pages pg = some nd ∧
    ((h = 0 ∧ i ≤ nd.cells.length) ∨ (0 < h ∧ fam = Fam.index ∧ i < nd.cells.length))

theorem posW_of_posAt {s : PStore} {fam : Fam} {root H : Nat} {c : Cursor} {h : Nat}
    (hp : PosAt s fam root H c h) : PosW s fam root H c h := by
  obtain ⟨pg, i, rest, lo, hi, nd, hpe, hpath, hnd, hilt, hkind⟩ := hp
  refine ⟨pg, i, rest, lo, hi, nd, hpe, hpath, hnd, ?_⟩
  cases hkind with
  | inl h0 => exact Or.inl ⟨h0, le_of_lt hilt⟩
  | inr hf =>
    cases h with
    | zero => exact Or.inl ⟨rfl, le_of_lt hilt⟩
    | succ hh => exact Or.inr ⟨by omega, hf, hilt⟩

/-- The remaining keys at a position start with the key under the cursor. -/
theorem remAt_head {s : PStore} {fam : Fam} {root H : Nat}
    (hroot : wfB s fam H root none none = true) {c : Cursor} {h : Nat}
    (hp : PosAt s fam root H c h) :
    remAt s fam c h = keyAtC s c :: afterC s fam c h := by
  obtain ⟨pg, i, rest, lo, hi, nd, hpe, hpath, hnd, hilt, hkind⟩ := hp
  have hw : wfB s fam h pg lo hi = true := wf_of_path hroot hpath
  rw [remAt, afterC, keyAtC, hpe]
  dsimp only
  rw [hnd]
  dsimp only
  cases h with
  | zero =>
    obtain ⟨nd2, hnd2, htype, hlen, -⟩ := wf0_elim hw
    rw [hnd] at hnd2
    injection hnd2 with hnd2
    subst hnd2
    rw [htype, isLeaf_leafTypeOf, if_pos rfl, if_pos rfl]
    rw [drop_cons_getD hilt, List.map_cons, List.cons_append]
    rfl
  | succ hh =>
    obtain ⟨nd2, hnd2, htype, hlen, -, -⟩ := wfS_elim hw
    rw [hnd] at hnd2
    injection hnd2 with hnd2
    subst hnd2
    rw [htype, isLeaf_internalTypeOf]
    rw [if_neg (fun hcon => nomatch hcon : ¬ (false = true)),
      if_neg (fun hcon => nomatch hcon : ¬ (false = true))]
    rw [Nat.add_sub_cancel, upRem_cons hnd]
    have hf : fam = Fam.index := by
      cases hkind with
      | inl h0 => omega
      | inr hf => exact hf
    rw [if_pos ⟨hf, hilt⟩]
    rfl

/-- Stepping into slot j: the subtree keys below slot j followed by the dues
of the frame parked at j equal the node's entries from slot j on followed by
the dues of the frame's own ancestors. -/
theorem entKeys_slot_upRem {s : PStore} {fam : Fam} {h p : Nat} {lo hi : Option Nat}
    {ndp : PNode} {anc : List (Nat × Nat)} {j : Nat}
    (hw : wfB s fam (h + 1) p lo hi = true) (hndp : s.pages p = some ndp)
    (hj : j ≤ ndp.cells.length) :
    entKeys s fam h (childAtSlot ndp j) ++ upRem s fam ((p, j) :: anc) h =
      entsFrom (entKeys s fam h) fam ndp j ++ upRem s fam anc (h + 1) := by
  obtain ⟨nd2, hnd2, htype, hlen, hcw, hrw⟩ := wfS_elim hw
  rw [hndp] at hnd2
  injection hnd2 with hnd2
  subst hnd2
  rw [upRem_cons hndp]
  by_cases hje : j = ndp.cells.length
  · subst hje
    unfold childAtSlot
    rw [if_pos rfl, if_neg (fun hcon => absurd hcon.2 (lt_irrefl _)),
      entsFrom_past (by omega), entsFrom_at_len]
    simp
  · have hjlt : j < ndp.cells.length := lt_of_le_of_ne hj hje
    have hct := (cellsWfB_elim hcw j hjlt).1
    have hch : childAtSlot ndp j = (ndp.cells.getD j junkCell).child_page := by
      unfold childAtSlot
      simp only [getCellD]
      rw [if_neg hje, childPageOfCell_eq hct]
    rw [hch, entsFrom_step hjlt]
    simp only [getCellD]
    by_cases hf : fam = Fam.index
    · rw [if_pos ⟨hf, hjlt⟩, if_pos hf]
      simp [List.append_assoc]
    · rw [if_neg (fun hcon => hf hcon.1), if_neg hf]
      simp [List.append_assoc]

/-- The master step law of chidb_dbm_cursor_next on a well-formed tree: from
a legitimate position, next returns NoNext exactly when no keys remain after
the current one, and otherwise lands on a legitimate position whose remaining
keys are exactly those after the current one. -/
theorem next_step {s : PStore} {fam : Fam} {root H : Nat}
    (hroot : wfB s fam H root none none = true) {fuel : Nat} (hfuel : H < fuel)
    {c : Cursor} {h : Nat} (hp : PosW s fam root H c h) :
    (afterC s fam c h = [] →
      chidb_dbm_cursor_next s fuel c = (CHIDB_CURSOR_ENONEXT, c)) ∧
    (afterC s fam c h ≠ [] →
      ∃ c2 h2, chidb_dbm_cursor_next s fuel c = (CHIDB_OK, c2) ∧
        PosAt s fam root H c2 h2 ∧ remAt s fam c2 h2 = afterC s fam c h) := by
  obtain ⟨pg, i, rest, lo, hi, nd, hpe, hpath, hnd, hkind⟩ := hp
  have hw : wfB s fam h pg lo hi = true := wf_of_path hroot hpath
  have hH : h ≤ H := PathTo_height_le hpath
  cases h with
  | zero =>
    obtain ⟨nd2, hnd2, htype, hlen, -⟩ := wf0_elim hw
    rw [hnd] at hnd2
    injection hnd2 with hnd2
    subst hnd2
    have hafter : afterC s fam c 0 =
        (nd.cells.drop (i + 1)).map BTreeCell.key ++ upRem s fam rest 0 := by
      rw [afterC, hpe]
      dsimp only
      rw [hnd]
      dsimp only
      rw [htype, isLeaf_leafTypeOf, if_pos rfl]
    have hnotidx : ¬ nd.type = PageType.indexInternal := by
      rw [htype]
      cases fam <;> simp [leafTypeOf]
    by_cases hA : i + 1 < nd.cells.length
    · have hnx : chidb_dbm_cursor_next s fuel c = (CHIDB_OK, ⟨(pg, i + 1) :: rest⟩) := by
        rw [chidb_dbm_cursor_next, hpe]
        dsimp only
        rw [hnd]
        dsimp only
        rw [if_pos hA, if_neg hnotidx]
      have hne : afterC s fam c 0 ≠ [] := by
        rw [hafter]
        intro hcon
        rcases List.append_eq_nil.mp hcon with ⟨hcon1, -⟩
        have := congrArg List.length hcon1
        rw [List.length_map, List.length_drop] at this
        simp at this
        omega
      refine ⟨fun hz => absurd hz hne, fun _ => ⟨⟨(pg, i + 1) :: rest⟩, 0, hnx, ?_, ?_⟩⟩
      · exact ⟨pg, i + 1, rest, lo, hi, nd, rfl, hpath, hnd, hA, Or.inl rfl⟩
      · rw [remAt]
        dsimp only
        rw [hnd]
        dsimp only
        rw [htype, isLeaf_leafTypeOf, if_pos rfl]
        exact hafter.symm
    · have hdropnil : nd.cells.drop (i + 1) = [] := List.drop_eq_nil_of_le (by omega)
      have hafter2 : afterC s fam c 0 = upRem s fam rest 0 := by
        rw [hafter, hdropnil]
        rfl
      by_cases hup : upRem s fam rest 0 = []
      · have hall := (ascend_spec hroot hpath).1 hup
        have hnx : chidb_dbm_cursor_next s fuel c = (CHIDB_CURSOR_ENONEXT, c) := by
          rw [chidb_dbm_cursor_next, hpe]
          dsimp only
          rw [hnd]
          dsimp only
          rw [if_neg hA]
          rw [htype, isLeaf_leafTypeOf, if_pos rfl]
          by_cases hrest : rest = []
          · rw [if_pos hrest]
          · rw [if_neg hrest, hall, if_pos rfl]
        exact ⟨fun _ => hnx, fun hnz => absurd (by rw [hafter2, hup]) hnz⟩
      · obtain ⟨hall, hrestne, p3, j3, anc3, h3, lo3, hi3, ndp3, hasc, hpath3, hndp3, hj3,
          hupEq⟩ := (ascend_spec hroot hpath).2 hup
        have hwp3 : wfB s fam (h3 + 1) p3 lo3 hi3 = true := wf_of_path hroot hpath3
        have hH3 : h3 + 1 ≤ H := PathTo_height_le hpath3
        obtain ⟨nd3b, hnd3b, htype3, hlen3, -, -⟩ := wfS_elim hwp3
        rw [hndp3] at hnd3b
        injection hnd3b with hnd3b
        subst hnd3b
        have hne : afterC s fam c 0 ≠ [] := by
          rw [hafter2]
          exact hup
        have hnx0 : chidb_dbm_cursor_next s fuel c =
            (if ndp3.type = PageType.indexInternal then (CHIDB_OK, ⟨(p3, j3) :: anc3⟩)
             else descendLeft s fuel ⟨(p3, j3 + 1) :: anc3⟩) := by
          rw [chidb_dbm_cursor_next, hpe]
          dsimp only
          rw [hnd]
          dsimp only
          rw [if_neg hA]
          rw [htype, isLeaf_leafTypeOf, if_pos rfl]
          rw [if_neg hrestne, hall]
          rw [if_neg (fun hcon => nomatch hcon : ¬ (false = true))]
          rw [hasc]
          dsimp only
          rw [hndp3]
        cases hfam : fam with
        | index =>
          subst hfam
          have hidx : ndp3.type = PageType.indexInternal := by
            rw [htype3]
            rfl
          have hnx : chidb_dbm_cursor_next s fuel c = (CHIDB_OK, ⟨(p3, j3) :: anc3⟩) := by
            rw [hnx0, if_pos hidx]
          refine ⟨fun hz => absurd hz hne, fun _ =>
            ⟨⟨(p3, j3) :: anc3⟩, h3 + 1, hnx, ?_, ?_⟩⟩
          · exact ⟨p3, j3, anc3, lo3, hi3, ndp3, rfl, hpath3, hndp3, hj3, Or.inr rfl⟩
          · rw [remAt]
            dsimp only
            rw [hndp3]
            dsimp only
            rw [hidx]
            dsimp only [PageType.isLeaf]
            rw [if_neg (fun hcon => nomatch hcon : ¬ (false = true)), Nat.add_sub_cancel]
            rw [hafter2, hupEq]
        | table =>
          subst hfam
          have hnidx : ¬ ndp3.type = PageType.indexInternal := by
            rw [htype3]
            decide
          have hdesc : descendLeft s fuel ⟨(p3, j3 + 1) :: anc3⟩ =
              (CHIDB_OK, ⟨dLeft s h3 (childAtSlot ndp3 (j3 + 1)) ++ (p3, j3 + 1) :: anc3⟩) :=
            descendLeft_slot hwp3 hndp3
              (show j3 + 1 ≤ ndp3.cells.length by omega) (show h3 + 1 < fuel by omega)
          have hnx : chidb_dbm_cursor_next s fuel c =
              (CHIDB_OK, ⟨dLeft s h3 (childAtSlot ndp3 (j3 + 1)) ++ (p3, j3 + 1) :: anc3⟩) := by
            rw [hnx0, if_neg hnidx, hdesc]
          have hchild := wf_child_of_slot hwp3 hndp3
            (show j3 + 1 ≤ ndp3.cells.length by omega)
          have hpath4 := PathTo.cons (j := j3 + 1) hpath3 hndp3 (by omega)
          obtain ⟨pgL, ndL, tl, lo4, hi4, hdl, hndL, htL, hlenL, hpathL, hrem⟩ :=
            dLeft_spec h3 hchild hpath4
          refine ⟨fun hz => absurd hz hne, fun _ =>
            ⟨_, 0, hnx, ⟨pgL, 0, tl ++ (p3, j3 + 1) :: anc3, lo4, hi4, ndL, ?_, hpathL, hndL,
              by omega, Or.inl rfl⟩, ?_⟩⟩
          · dsimp only
            rw [hdl, List.cons_append]
          · rw [hrem, entKeys_slot_upRem hwp3 hndp3 (by omega)]
            rw [hafter2, hupEq, upRem_cons hndp3]
            rw [if_neg (fun hcon => nomatch hcon.1)]
            rfl
  | succ hh =>
    have hfi : fam = Fam.index ∧ i < nd.cells.length := by
      cases hkind with
      | inl h0 => omega
      | inr hf => exact ⟨hf.2.1, hf.2.2⟩
    obtain ⟨hf, hilt⟩ := hfi
    subst hf
    obtain ⟨nd2, hnd2, htype, hlen, hcw, hrw⟩ := wfS_elim hw
    rw [hnd] at hnd2
    injection hnd2 with hnd2
    subst hnd2
    have hidx : nd.type = PageType.indexInternal := by
      rw [htype]
      rfl
    have hafter : afterC s Fam.index c (hh + 1) =
        entsFrom (entKeys s Fam.index hh) Fam.index nd (i + 1) ++
          upRem s Fam.index rest (hh + 1) := by
      rw [afterC, hpe]
      dsimp only
      rw [hnd]
      dsimp only
      rw [hidx]
      dsimp only [PageType.isLeaf]
      rw [if_neg (fun hcon => nomatch hcon : ¬ (false = true)), Nat.add_sub_cancel]
    have hne : afterC s Fam.index c (hh + 1) ≠ [] := by
      rw [hafter]
      intro hcon
      rcases List.append_eq_nil.mp hcon with ⟨hcon1, -⟩
      unfold entsFrom at hcon1
      rcases List.append_eq_nil.mp hcon1 with ⟨-, hcon2⟩
      rw [if_pos (by omega)] at hcon2
      exact entKeys_ne_nil hh hrw hcon2
    have hdesc : descendLeft s fuel ⟨(pg, i + 1) :: rest⟩ =
        (CHIDB_OK, ⟨dLeft s hh (childAtSlot nd (i + 1)) ++ (pg, i + 1) :: rest⟩) :=
      descendLeft_slot hw hnd
        (show i + 1 ≤ nd.cells.length by omega) (show hh + 1 < fuel by omega)
    have hnx : chidb_dbm_cursor_next s fuel c =
        (CHIDB_OK, ⟨dLeft s hh (childAtSlot nd (i + 1)) ++ (pg, i + 1) :: rest⟩) := by
      rw [chidb_dbm_cursor_next, hpe]
      dsimp only
      rw [hnd]
      dsimp only
      by_cases hA : i + 1 < nd.cells.length
      · rw [if_pos hA, if_pos hidx, hdesc]
      · have hieq : i + 1 = nd.cells.length := by omega
        rw [if_neg hA]
        rw [hidx]
        dsimp only [PageType.isLeaf]
        rw [if_neg (fun hcon => nomatch hcon : ¬ (false = true))]
        rw [if_pos rfl]
        rw [← hieq]
        exact hdesc
    have hchild := wf_child_of_slot hw hnd (show i + 1 ≤ nd.cells.length by omega)
    have hpath4 := PathTo.cons (j := i + 1) hpath hnd (by omega)
    obtain ⟨pgL, ndL, tl, lo4, hi4, hdl, hndL, htL, hlenL, hpathL, hrem⟩ :=
      dLeft_spec hh hchild hpath4
    refine ⟨fun hz => absurd hz hne, fun _ =>
      ⟨_, 0, hnx, ⟨pgL, 0, tl ++ (pg, i + 1) :: rest, lo4, hi4, ndL, ?_, hpathL, hndL,
        by omega, Or.inl rfl⟩, ?_⟩⟩
    · dsimp only
      rw [hdl, List.cons_append]
    · rw [hrem, entKeys_slot_upRem hw hnd (by omega), hafter]

/-- The C1 iteration: record the key under the cursor, call next, and repeat
while next returns OK, for at most n visits; returns the keys visited and the
status and cursor of the last next call. -/
def cursorIterate (s : PStore) (fuel : Nat) : Nat → Cursor → List Nat × Int × Cursor
  | 0, c => ([], MODEL_EFUEL, c)
  | n + 1, c =>
    let k := keyAtC s c
    let r := chidb_dbm_cursor_next s fuel c
    if r.1 = CHIDB_OK then
      let t := cursorIterate s fuel n r.2
      (k :: t.1, t.2)
    else ([k], r.1, r.2)

theorem iterate_spec {s : PStore} {fam : Fam} {root H : Nat}
    (hroot : wfB s fam H root none none = true) {fuel : Nat} (hfuel : H < fuel) :
    ∀ (l : List Nat) {c : Cursor} {h : Nat}, PosAt s fam root H c h →
      remAt s fam c h = l → l ≠ [] →
      (cursorIterate s fuel l.length c).1 = l ∧
      (cursorIterate s fuel l.length c).2.1 = CHIDB_CURSOR_ENONEXT := by
  intro l
  induction l with
  | nil => intro c h _ _ hcon; exact absurd rfl hcon
  | cons k tl ih =>
    intro c h hp hrem _
    have hhead := remAt_head hroot hp
    rw [hrem] at hhead
    injection hhead with hk htl
    rw [List.length_cons, cursorIterate]
    dsimp only
    by_cases haft : afterC s fam c h = []
    · have hnx := (next_step hroot hfuel (posW_of_posAt hp)).1 haft
      have htl0 : tl = [] := by rw [htl, haft]
      subst htl0
      rw [hnx]
      dsimp only
      rw [if_neg (by decide : ¬ (CHIDB_CURSOR_ENONEXT : Int) = CHIDB_OK)]
      exact ⟨by rw [hk], rfl⟩
    · obtain ⟨c2, h2, hnx, hp2, hrem2⟩ := (next_step hroot hfuel (posW_of_posAt hp)).2 haft
      rw [← htl] at hrem2
      have hres := ih hp2 hrem2 (by rw [htl]; exact haft)
      rw [hnx]
      dsimp only
      rw [if_pos rfl]
      exact ⟨by dsimp only; rw [hres.1, hk], by dsimp only; exact hres.2⟩

/-- chidb_dbm_cursor_rewind on a well-formed tree lands on the leftmost leaf
with every key of the tree still to be delivered. -/
theorem rewind_spec {s : PStore} {fam : Fam} {root H fuel : Nat}
    (hroot : wfB s fam H root none none = true) (hfuel : H < fuel)
    {c : Cursor} {i0 : Nat} (hlast : c.path.getLast? = some (root, i0)) :
    ∃ c0, chidb_dbm_cursor_rewind s fuel c = (CHIDB_OK, c0) ∧
      PosAt s fam root H c0 0 ∧ remAt s fam c0 0 = entKeys s fam H root := by
  obtain ⟨pgL, ndL, tl, lo2, hi2, hdl, hndL, htL, hlenL, hpathL, hrem⟩ :=
    dLeft_spec H hroot PathTo.nil
  refine ⟨⟨dLeft s H root⟩, ?_, ?_, ?_⟩
  · rw [chidb_dbm_cursor_rewind, hlast]
    dsimp only
    have h1 : descendLeft s fuel ⟨(root, 0) :: []⟩ = (CHIDB_OK, ⟨dLeft s H root ++ []⟩) :=
      descendLeft_go H hroot hfuel
    rw [List.append_nil] at h1
    exact h1
  · refine ⟨pgL, 0, tl, lo2, hi2, ndL, ?_, ?_, hndL, by omega, Or.inl rfl⟩
    · dsimp only
      rw [hdl]
    · rwa [List.append_nil] at hpathL
  · rw [show upRem s fam ([] : List (Nat × Nat)) H = [] from rfl] at hrem
    simp only [List.append_nil] at hrem
    exact hrem

/-- C1: confirmed.  On any well-formed table or index tree (root at page
root, height H, with descent fuel exceeding H), rewind succeeds, and reading
the key under the cursor then calling next, repeated once per stored key,
yields exactly the in-order key list of the tree -- every key exactly once,
in strictly ascending order -- with the last next call returning NoNext. -/
theorem C1_rewind_next_visits_all {s : PStore} {fam : Fam} {root H fuel : Nat}
    (hroot : wfB s fam H root none none = true) (hfuel : H < fuel)
    {c : Cursor} {i0 : Nat} (hlast : c.path.getLast? = some (root, i0)) :
    ∃ c0, chidb_dbm_cursor_rewind s fuel c = (CHIDB_OK, c0) ∧
      (cursorIterate s fuel (entKeys s fam H root).length c0).1 = entKeys s fam H root ∧
      (cursorIterate s fuel (entKeys s fam H root).length c0).2.1 = CHIDB_CURSOR_ENONEXT ∧
      List.Pairwise (· < ·) (entKeys s fam H root) := by
  obtain ⟨c0, hrw0, hpos0, hrem0⟩ := rewind_spec hroot hfuel hlast
  have hit := iterate_spec hroot hfuel (entKeys s fam H root) hpos0 hrem0
    (entKeys_ne_nil H hroot)
  exact ⟨c0, hrw0, hit.1, hit.2, entKeys_sorted H hroot⟩

/-- C1 witness: the five-key index tree of the C8 scenario is well-formed at
height 1; rewind then four next calls visit 10 20 30 40 50 in order and the
fifth next returns NoNext. -/
theorem C1_rewind_next_visits_all_witness :
    wfB c8Store Fam.index 1 1 none none = true ∧
    (1 : Nat) < 2 ∧
    (∃ c0, chidb_dbm_cursor_rewind c8Store 2 ⟨[(1, 0)]⟩ = (CHIDB_OK, c0) ∧
      (cursorIterate c8Store 2 (entKeys c8Store Fam.index 1 1).length c0).1 =
        entKeys c8Store Fam.index 1 1 ∧
      (cursorIterate c8Store 2 (entKeys c8Store Fam.index 1 1).length c0).2.1 =
        CHIDB_CURSOR_ENONEXT ∧
      List.Pairwise (· < ·) (entKeys c8Store Fam.index 1 1)) :=
  ⟨by decide, by decide, C1_rewind_next_visits_all (by decide) (by decide) rfl⟩

/-! ### The seek machinery (claim C6) -/

theorem findCell_eq {nd : PNode} (hlen : 1 ≤ nd.cells.length) (key : Nat) :
    findCell nd key = (findCellPos nd.cells key,
      some (getCellD nd (min (findCellPos nd.cells key) (nd.cells.length - 1)))) := by
  unfold findCell
  dsimp only
  rw [if_neg (by omega)]

/-- Filtering a well-formed leaf's keys at k keeps exactly the cells from the
scan position on. -/
theorem leaf_filter {fam : Fam} {k : Nat} :
    ∀ {cells : List BTreeCell} {lo hi : Option Nat},
      leafCellsWfB fam cells lo hi = true →
      (cells.map BTreeCell.key).filter (fun x => decide (k ≤ x)) =
        (cells.drop (findCellPos cells k)).map BTreeCell.key := by
  intro cells
  induction cells with
  | nil => intro lo hi _; rfl
  | cons c rest ih =>
    intro lo hi hw
    rw [leafCellsWfB] at hw
    simp only [Bool.and_eq_true, beq_iff_eq] at hw
    obtain ⟨⟨⟨-, -⟩, -⟩, hrest⟩ := hw
    rw [List.map_cons, List.filter_cons, findCellPos]
    by_cases hc : k ≤ c.key
    · rw [if_pos (by simp only [decide_eq_true_eq]; omega), if_pos hc]
      rw [List.drop_zero, List.map_cons]
      congr 1
      rw [List.filter_eq_self]
      intro a ha
      simp only [List.mem_map] at ha
      obtain ⟨cc, hcc, rfl⟩ := ha
      have h2 := loOkB_some.mp (leafCells_bounds hrest cc hcc).1
      simp only [decide_eq_true_eq]
      omega
    · rw [if_neg (by simp only [decide_eq_true_eq]; omega), if_neg hc, List.drop_succ_cons]
      exact ih hrest

theorem cellsWfB_drop {fam : Fam} {w : Nat → Option Nat → Option Nat → Bool} :
    ∀ {cells : List BTreeCell} {lo hi : Option Nat}, cellsWfB fam w cells lo hi = true →
      ∀ i, i < cells.length →
        cellsWfB fam w (cells.drop (i + 1)) (some (cells.getD i junkCell).key) hi = true := by
  intro cells
  induction cells with
  | nil => intro lo hi _ i hi2; simp at hi2
  | cons c rest ih =>
    intro lo hi hw i hi2
    rw [cellsWfB] at hw
    simp only [Bool.and_eq_true] at hw
    obtain ⟨⟨⟨⟨-, -⟩, -⟩, -⟩, hrest⟩ := hw
    cases i with
    | zero =>
      rw [List.drop_succ_cons, List.drop_zero, List.getD_cons_zero]
      exact hrest
    | succ m =>
      rw [List.drop_succ_cons, List.getD_cons_succ]
      exact ih hrest m (by simpa using hi2)

/-- All entries strictly after slot i of a well-formed internal node are
above the slot's key. -/
theorem entsFrom_suffix_lower {s : PStore} {fam : Fam} {hh : Nat}
    {w : Nat → Option Nat → Option Nat → Bool}
    (hwsB : ∀ cp clo chi, w cp clo chi = true →
      ∀ x ∈ entKeys s fam hh cp, loOkB clo x = true ∧ hiOkB fam chi x = true)
    {nd : PNode} {lo hi : Option Nat}
    (hcw : cellsWfB fam w nd.cells lo hi = true)
    (hrw : ∀ x ∈ entKeys s fam hh nd.right_page,
      loOkB (some (nd.cells.getLastD junkCell).key) x = true)
    {i : Nat} (hi2 : i < nd.cells.length) :
    ∀ x ∈ entsFrom (entKeys s fam hh) fam nd (i + 1),
      (nd.cells.getD i junkCell).key < x := by
  intro x hx
  unfold entsFrom at hx
  rw [List.mem_append] at hx
  rcases hx with hx | hx
  · have hdrop := cellsWfB_drop hcw i hi2
    have := flat_bounds hwsB hdrop x hx
    exact loOkB_some.mp this.1
  · by_cases hc : i + 1 ≤ nd.cells.length
    · rw [if_pos hc] at hx
      have h1 := loOkB_some.mp (hrw x hx)
      have h2 : (nd.cells.getD i junkCell).key ≤ (nd.cells.getLastD junkCell).key := by
        rw [← getD_last_eq (by omega)]
        by_cases hie : i = nd.cells.length - 1
        · exact le_of_eq (by rw [hie])
        · exact le_of_lt (keys_mono_of_adj (fun m hm => (cellsWfB_elim hcw m hm).2.1) i
            (nd.cells.length - 1) (by omega) (by omega))
      omega
    · rw [if_neg hc] at hx
      simp at hx

theorem entsFrom_take_drop {e : Nat → List Nat} {fam : Fam} {nd : PNode} {j : Nat}
    (hj : j ≤ nd.cells.length) :
    entsFrom e fam nd 0 =
      ((nd.cells.take j).flatMap fun c =>
        e c.child_page ++ (if fam = Fam.index then [c.key] else [])) ++
      entsFrom e fam nd j := by
  unfold entsFrom
  rw [List.drop_zero, if_pos (Nat.zero_le _), if_pos hj]
  rw [show nd.cells.flatMap
        (fun c => e c.child_page ++ (if fam = Fam.index then [c.key] else []))
      = (nd.cells.take j).flatMap
          (fun c => e c.child_page ++ (if fam = Fam.index then [c.key] else []))
        ++ (nd.cells.drop j).flatMap
          (fun c => e c.child_page ++ (if fam = Fam.index then [c.key] else []))
    from by rw [← List.flatMap_append, List.take_append_drop]]
  rw [List.append_assoc]

/-- Filtering a well-formed internal node's entry list at k keeps: the
filtered entries of the child at the scan position, the slot's own key
(index trees, when in range), and everything after. -/
theorem filter_entsFrom_split {s : PStore} {fam : Fam} {hh : Nat} {k : Nat}
    {w : Nat → Option Nat → Option Nat → Bool}
    (hwsB : ∀ cp clo chi, w cp clo chi = true →
      ∀ x ∈ entKeys s fam hh cp, loOkB clo x = true ∧ hiOkB fam chi x = true)
    {nd : PNode} {lo hi : Option Nat}
    (hcw : cellsWfB fam w nd.cells lo hi = true)
    (hrw : ∀ x ∈ entKeys s fam hh nd.right_page,
      loOkB (some (nd.cells.getLastD junkCell).key) x = true)
    (hlen : 1 ≤ nd.cells.length) :
    List.filter (fun x => decide (k ≤ x)) (entsFrom (entKeys s fam hh) fam nd 0) =
      List.filter (fun x => decide (k ≤ x))
          (entKeys s fam hh (childAtSlot nd (findCellPos nd.cells k))) ++
        ((if fam = Fam.index ∧ findCellPos nd.cells k < nd.cells.length
            then [(getCellD nd (findCellPos nd.cells k)).key] else []) ++
          entsFrom (entKeys s fam hh) fam nd (findCellPos nd.cells k + 1)) := by
  have hle : findCellPos nd.cells k ≤ nd.cells.length := findCellPos_le_length _ _
  rw [entsFrom_take_drop hle, List.filter_append]
  have htake : List.filter (fun x => decide (k ≤ x))
      ((nd.cells.take (findCellPos nd.cells k)).flatMap fun c =>
        entKeys s fam hh c.child_page ++ (if fam = Fam.index then [c.key] else [])) = [] := by
    rw [List.filter_eq_nil_iff]
    intro a ha
    rw [List.mem_flatMap] at ha
    obtain ⟨cc, hcc, hac⟩ := ha
    obtain ⟨j, hjl, hje⟩ := List.getElem_of_mem hcc
    rw [List.length_take] at hjl
    have hjlt : j < findCellPos nd.cells k := by omega
    have hjlen : j < nd.cells.length := by omega
    have hgd : nd.cells.getD j junkCell = cc := by
      rw [getD_eq_getElem hjlen, ← hje, List.getElem_take]
    have hkey : cc.key < k := by
      rw [← hgd]
      exact findCellPos_lt_of_lt hjlt
    have hale : a ≤ cc.key := by
      rw [List.mem_append] at hac
      rcases hac with hac | hac
      · have hwc := (cellsWfB_elim hcw j hjlen).2.2.2
        rw [hgd] at hwc
        exact hiOkB_some_le ((hwsB _ _ _ hwc a hac).2)
      · by_cases hf : fam = Fam.index
        · rw [if_pos hf, List.mem_singleton] at hac
          omega
        · rw [if_neg hf] at hac
          simp at hac
    simp only [decide_eq_true_eq]
    omega
  by_cases hilen : findCellPos nd.cells k = nd.cells.length
  · rw [htake, List.nil_append, hilen, entsFrom_at_len]
    unfold childAtSlot
    rw [if_pos rfl]
    rw [if_neg (fun hcon => absurd hcon.2 (lt_irrefl _)), entsFrom_past (by omega)]
    simp
  · have hilt : findCellPos nd.cells k < nd.cells.length := lt_of_le_of_ne hle hilen
    rw [htake, List.nil_append, entsFrom_step hilt, List.filter_append, List.filter_append]
    have hchild : childAtSlot nd (findCellPos nd.cells k) =
        (nd.cells.getD (findCellPos nd.cells k) junkCell).child_page := by
      unfold childAtSlot
      simp only [getCellD]
      rw [if_neg hilen, childPageOfCell_eq (cellsWfB_elim hcw _ hilt).1]
    rw [hchild]
    congr 1
    have hge : k ≤ (nd.cells.getD (findCellPos nd.cells k) junkCell).key :=
      findCellPos_ge hilt
    have hsf : List.filter (fun x => decide (k ≤ x))
        (entsFrom (entKeys s fam hh) fam nd (findCellPos nd.cells k + 1)) =
        entsFrom (entKeys s fam hh) fam nd (findCellPos nd.cells k + 1) := by
      rw [List.filter_eq_self]
      intro a ha
      have := entsFrom_suffix_lower hwsB hcw hrw hilt a ha
      simp only [decide_eq_true_eq]
      omega
    rw [hsf]
    congr 1
    by_cases hf : fam = Fam.index
    · rw [if_pos hf, if_pos ⟨hf, hilt⟩, List.filter_cons,
        if_pos (by simp only [decide_eq_true_eq]; omega), List.filter_nil]
      simp only [getCellD]
    · rw [if_neg hf, if_neg (fun hcon => hf hcon.1)]
      rfl

theorem cellKeyMatches_some {cl : BTreeCell} {k : Nat} :
    cellKeyMatches (some cl) k = true ↔ cl.key = k := by
  simp [cellKeyMatches]

/-- The descent loop of seek_partial on a well-formed (sub)tree: it stops on
the subtree's leaf at the scan position (or, in an index tree, on an internal
exact match); the stopping cursor is a descent position whose remaining keys
are exactly the subtree keys ≥ k followed by the ancestors' dues (themselves
all ≥ k); and on a table tree a failed leaf scan means nothing ≥ k is left
anywhere (the separator tightness argument). -/
theorem seekLoop_spec {s : PStore} {fam : Fam} {root H : Nat}
    (hroot : wfB s fam H root none none = true) (k : Nat) :
    ∀ (h : Nat) {pg : Nat} {lo hi : Option Nat} {rest : List (Nat × Nat)} {fuel : Nat}
      (j0 : Nat) (prev : Option BTreeCell),
      wfB s fam h pg lo hi = true →
      PathTo s fam root H pg h lo hi rest →
      h < fuel →
      (∀ x ∈ upRem s fam rest h, k ≤ x) →
      (fam = Fam.table → upRem s fam rest h = [] ∨
        ∃ b, hi = some b ∧ k ≤ b ∧ b ∈ entKeys s fam h pg) →
      ∃ pg2 i2 rest2 nd2 h2 lo2 hi2,
        seekPartialLoop s fuel k ⟨(pg, j0) :: rest⟩ prev =
          (⟨(pg2, i2) :: rest2⟩, i2,
            some (getCellD nd2 (min i2 (nd2.cells.length - 1)))) ∧
        s.pages pg2 = some nd2 ∧ 1 ≤ nd2.cells.length ∧
        i2 = findCellPos nd2.cells k ∧
        PathTo s fam root H pg2 h2 lo2 hi2 rest2 ∧
        (∀ x ∈ upRem s fam rest2 h2, k ≤ x) ∧
        remAt s fam ⟨(pg2, i2) :: rest2⟩ h2 =
          List.filter (fun x => decide (k ≤ x)) (entKeys s fam h pg) ++
            upRem s fam rest h ∧
        ((h2 = 0 ∧ nd2.type = leafTypeOf fam ∧
            (fam = Fam.table → i2 = nd2.cells.length → upRem s fam rest2 0 = [])) ∨
          (0 < h2 ∧ fam = Fam.index ∧ nd2.type = PageType.indexInternal ∧
            i2 < nd2.cells.length ∧ (getCellD nd2 i2).key = k)) := by
  intro h
  induction h with
  | zero =>
    intro pg lo hi rest fuel j0 prev hw hpath hfuel hdues htight
    obtain ⟨nd, hnd, htype, hlen, hcw⟩ := wf0_elim hw
    obtain ⟨f, rfl⟩ : ∃ f, fuel = f + 1 := ⟨fuel - 1, by omega⟩
    refine ⟨pg, findCellPos nd.cells k, rest, nd, 0, lo, hi, ?_, hnd, hlen, rfl, hpath,
      hdues, ?_, Or.inl ⟨rfl, htype, ?_⟩⟩
    · rw [seekPartialLoop]
      dsimp only
      rw [hnd]
      dsimp only
      rw [findCell_eq hlen]
      dsimp only
      rw [htype, isLeaf_leafTypeOf, if_pos rfl]
    · rw [remAt]
      dsimp only
      rw [hnd]
      dsimp only
      rw [htype, isLeaf_leafTypeOf, if_pos rfl]
      rw [entKeys, hnd]
      dsimp only
      rw [leaf_filter hcw]
    · intro hftab hilen
      rcases htight hftab with hz | ⟨b, hbhi, hkb, hbmem⟩
      · exact hz
      · exfalso
        rw [entKeys, hnd] at hbmem
        dsimp only at hbmem
        rw [List.mem_map] at hbmem
        obtain ⟨cc, hcc, hbk⟩ := hbmem
        obtain ⟨j, hjl, hje⟩ := List.getElem_of_mem hcc
        have hlt : (nd.cells.getD j junkCell).key < k := by
          apply findCellPos_lt_of_lt
          omega
        rw [getD_eq_getElem hjl, hje] at hlt
        omega
  | succ hh ih =>
    intro pg lo hi rest fuel j0 prev hw hpath hfuel hdues htight
    obtain ⟨nd, hnd, htype, hlen, hcw, hrw⟩ := wfS_elim hw
    obtain ⟨f, rfl⟩ : ∃ f, fuel = f + 1 := ⟨fuel - 1, by omega⟩
    have hwsB : ∀ cp clo chi,
        (fun cp clo chi =>
          wfB s fam hh cp clo chi &&
          (fam == Fam.index ||
            match chi with
            | some b => (entKeys s fam hh cp).contains b
            | none => true)) cp clo chi = true →
        ∀ x ∈ entKeys s fam hh cp, loOkB clo x = true ∧ hiOkB fam chi x = true := by
      intro cp clo chi hwc x hx
      simp only [Bool.and_eq_true] at hwc
      exact entKeys_bounds hh hwc.1 x hx
    have hrw2 : ∀ x ∈ entKeys s fam hh nd.right_page,
        loOkB (some (nd.cells.getLastD junkCell).key) x = true :=
      fun x hx => (entKeys_bounds hh hrw x hx).1
    have hle : findCellPos nd.cells k ≤ nd.cells.length := findCellPos_le_length _ _
    by_cases hstop : nd.type = PageType.indexInternal ∧
        (getCellD nd (min (findCellPos nd.cells k) (nd.cells.length - 1))).key = k
    · -- exact match at this internal node
      obtain ⟨hstop1, hstop2⟩ := hstop
      have hfam : fam = Fam.index := by
        cases hfam0 : fam with
        | table =>
          rw [hfam0] at htype
          rw [htype] at hstop1
          exact absurd hstop1 (by decide)
        | index => rfl
      subst hfam
      have hilt : findCellPos nd.cells k < nd.cells.length := by
        by_contra hcon
        have hieq : findCellPos nd.cells k = nd.cells.length := by omega
        have h2 : (nd.cells.getD (nd.cells.length - 1) junkCell).key < k :=
          findCellPos_lt_of_lt (by omega)
        have h3 : min (findCellPos nd.cells k) (nd.cells.length - 1) =
            nd.cells.length - 1 := by omega
        rw [h3] at hstop2
        simp only [getCellD] at hstop2
        omega
      have hmin : min (findCellPos nd.cells k) (nd.cells.length - 1) =
          findCellPos nd.cells k := by omega
      have hstop2' := hstop2
      rw [hmin] at hstop2'
      refine ⟨pg, findCellPos nd.cells k, rest, nd, hh + 1, lo, hi, ?_, hnd, hlen, rfl,
        hpath, hdues, ?_, Or.inr ⟨by omega, rfl, hstop1, hilt, hstop2'⟩⟩
      · rw [seekPartialLoop]
        dsimp only
        rw [hnd]
        dsimp only
        rw [findCell_eq hlen]
        dsimp only
        rw [htype, isLeaf_internalTypeOf]
        rw [if_neg (fun hcon => nomatch hcon : ¬ (false = true))]
        rw [if_pos ⟨rfl, cellKeyMatches_some.mpr hstop2⟩]
      · rw [remAt]
        dsimp only
        rw [hnd]
        dsimp only
        rw [htype, isLeaf_internalTypeOf]
        rw [if_neg (fun hcon => nomatch hcon : ¬ (false = true)), Nat.add_sub_cancel]
        rw [upRem_cons hnd, if_pos ⟨rfl, hilt⟩]
        rw [entKeys_succ hnd, filter_entsFrom_split hwsB hcw hrw2 hlen]
        have hcf : List.filter (fun x => decide (k ≤ x))
            (entKeys s Fam.index hh (childAtSlot nd (findCellPos nd.cells k))) = [] := by
          rw [List.filter_eq_nil_iff]
          intro a ha
          rw [show childAtSlot nd (findCellPos nd.cells k) =
              (nd.cells.getD (findCellPos nd.cells k) junkCell).child_page from by
            unfold childAtSlot
            simp only [getCellD]
            rw [if_neg (by omega), childPageOfCell_eq (cellsWfB_elim hcw _ hilt).1]] at ha
          have hwc := (cellsWfB_elim hcw _ hilt).2.2.2
          have hbd := (hwsB _ _ _ hwc a ha).2
          simp only [hiOkB, if_neg (by decide : ¬ Fam.index = Fam.table),
            decide_eq_true_eq] at hbd
          simp only [getCellD] at hstop2'
          simp only [decide_eq_true_eq]
          omega
        rw [hcf, if_pos ⟨rfl, hilt⟩]
        simp [List.append_assoc]
    · -- descend into the scan child
      have hchild := wf_child_of_slot hw hnd hle
      have hpath' := PathTo.cons (j := findCellPos nd.cells k) hpath hnd hle
      have hdues' : ∀ x ∈ upRem s fam ((pg, findCellPos nd.cells k) :: rest) hh, k ≤ x := by
        intro x hx
        rw [upRem_cons hnd, List.mem_append, List.mem_append] at hx
        rcases hx with hx | hx | hx
        · by_cases hc : fam = Fam.index ∧ findCellPos nd.cells k < nd.cells.length
          · rw [if_pos hc, List.mem_singleton] at hx
            have := findCellPos_ge hc.2
            simp only [getCellD] at hx
            omega
          · rw [if_neg hc] at hx
            simp at hx
        · by_cases hilt : findCellPos nd.cells k < nd.cells.length
          · have h1 := entsFrom_suffix_lower hwsB hcw hrw2 hilt x hx
            have h2 := findCellPos_ge hilt
            omega
          · rw [show findCellPos nd.cells k = nd.cells.length by omega,
              entsFrom_past (by omega)] at hx
            simp at hx
        · exact hdues x hx
      have htight' : fam = Fam.table →
          upRem s fam ((pg, findCellPos nd.cells k) :: rest) hh = [] ∨
          ∃ b, (if findCellPos nd.cells k = nd.cells.length then hi
              else some (getCellD nd (findCellPos nd.cells k)).key) = some b ∧
            k ≤ b ∧
            b ∈ entKeys s fam hh (childAtSlot nd (findCellPos nd.cells k)) := by
        intro hftab
        by_cases hieq : findCellPos nd.cells k = nd.cells.length
        · have hclosed : upRem s fam ((pg, findCellPos nd.cells k) :: rest) hh =
              upRem s fam rest (hh + 1) := by
            rw [upRem_cons hnd, if_neg (fun hcon => by omega),
              entsFrom_past (by omega)]
            simp
          rcases htight hftab with hz | ⟨b, hb1, hb2, hb3⟩
          · left
            rw [hclosed]
            exact hz
          · right
            refine ⟨b, by rw [if_pos hieq]; exact hb1, hb2, ?_⟩
            rw [show childAtSlot nd (findCellPos nd.cells k) = nd.right_page from by
              unfold childAtSlot; rw [if_pos hieq]]
            rw [entKeys_succ hnd] at hb3
            rw [entsFrom_take_drop (le_refl nd.cells.length), entsFrom_at_len,
              List.mem_append] at hb3
            rcases hb3 with hb3 | hb3
            · exfalso
              rw [List.mem_flatMap] at hb3
              obtain ⟨cc, hcc, hac⟩ := hb3
              rw [List.take_length] at hcc
              obtain ⟨j, hjl, hje⟩ := List.getElem_of_mem hcc
              have hkey : cc.key < k := by
                rw [← hje, ← getD_eq_getElem hjl]
                apply findCellPos_lt_of_lt
                omega
              have hble : b ≤ cc.key := by
                rw [List.mem_append] at hac
                rcases hac with hac | hac
                · obtain ⟨j2, hjl2, hje2⟩ := List.getElem_of_mem hcc
                  have hwc := (cellsWfB_elim hcw j2 hjl2).2.2.2
                  rw [getD_eq_getElem hjl2, hje2] at hwc
                  exact hiOkB_some_le ((hwsB _ _ _ hwc b hac).2)
                · rw [hftab] at hac
                  rw [if_neg (by decide)] at hac
                  simp at hac
              omega
            · exact hb3
        · right
          have hilt : findCellPos nd.cells k < nd.cells.length := lt_of_le_of_ne hle hieq
          refine ⟨(getCellD nd (findCellPos nd.cells k)).key, by rw [if_neg hieq], ?_, ?_⟩
          · have := findCellPos_ge hilt
            simp only [getCellD]
            omega
          · have hwc := (cellsWfB_elim hcw _ hilt).2.2.2
            simp only [Bool.and_eq_true, Bool.or_eq_true] at hwc
            rcases hwc.2 with hcon | hcont
            · rw [hftab] at hcon
              exact absurd hcon (by decide)
            · rw [show childAtSlot nd (findCellPos nd.cells k) =
                  (nd.cells.getD (findCellPos nd.cells k) junkCell).child_page from by
                unfold childAtSlot
                simp only [getCellD]
                rw [if_neg hieq, childPageOfCell_eq (cellsWfB_elim hcw _ hilt).1]]
              simp only [getCellD]
              exact List.mem_of_elem_eq_true hcont
      obtain ⟨pg2, i2, rest2, nd2, h2, lo2, hi2, hloop, hnd2, hlen2, hi2eq, hpath2,
        hdues2, hremEq, hdisj⟩ := ih 0
        (some (getCellD nd (min (findCellPos nd.cells k) (nd.cells.length - 1))))
        hchild hpath' (show hh < f by omega) hdues' htight'
      have hgo2 : (chidb_dbm_cursor_goDownCurrentCell s
            ⟨(pg, findCellPos nd.cells k) :: rest⟩).2 =
          ⟨(childAtSlot nd (findCellPos nd.cells k), 0) ::
            (pg, findCellPos nd.cells k) :: rest⟩ := by
        unfold chidb_dbm_cursor_goDownCurrentCell
        dsimp only
        rw [hnd]
        dsimp only
        split_ifs <;> rfl
      refine ⟨pg2, i2, rest2, nd2, h2, lo2, hi2, ?_, hnd2, hlen2, hi2eq, hpath2,
        hdues2, ?_, hdisj⟩
      · rw [seekPartialLoop]
        dsimp only
        rw [hnd]
        dsimp only
        rw [findCell_eq hlen]
        dsimp only
        rw [htype, isLeaf_internalTypeOf]
        rw [if_neg (fun hcon => nomatch hcon : ¬ (false = true))]
        rw [if_neg (fun hcon => hstop ⟨by rw [htype]; exact hcon.1,
          cellKeyMatches_some.mp hcon.2⟩)]
        rw [hgo2]
        exact hloop
      · rw [hremEq, upRem_cons hnd, entKeys_succ hnd,
          filter_entsFrom_split hwsB hcw hrw2 hlen]
        simp [List.append_assoc, getCellD]

/-- A position whose remaining keys are the tree's keys ≥ k is on the
smallest key ≥ k. -/
theorem filter_pos_least {s : PStore} {fam : Fam} {root H : Nat}
    (hroot : wfB s fam H root none none = true) {c2 : Cursor} {h2 k : Nat}
    (hp : PosAt s fam root H c2 h2)
    (hrem : remAt s fam c2 h2 =
      (entKeys s fam H root).filter (fun x => decide (k ≤ x))) :
    k ≤ keyAtC s c2 ∧ keyAtC s c2 ∈ entKeys s fam H root ∧
      ∀ x ∈ entKeys s fam H root, k ≤ x → keyAtC s c2 ≤ x := by
  have hh := remAt_head hroot hp
  rw [hrem] at hh
  have hmem : keyAtC s c2 ∈ (entKeys s fam H root).filter (fun x => decide (k ≤ x)) := by
    rw [hh]
    exact List.mem_cons_self _ _
  refine ⟨?_, List.mem_of_mem_filter hmem, ?_⟩
  · have := List.of_mem_filter hmem
    simpa using this
  · intro x hx hkx
    have hxf : x ∈ (entKeys s fam H root).filter (fun x => decide (k ≤ x)) :=
      List.mem_filter.mpr ⟨hx, by simpa⟩
    have hsorted := (entKeys_sorted H hroot).filter (fun x => decide (k ≤ x))
    rw [hh] at hxf hsorted
    rcases List.mem_cons.mp hxf with heq | hxtail
    · omega
    · exact le_of_lt ((List.pairwise_cons.mp hsorted).1 x hxtail)

/-- C6: confirmed.  On a well-formed table or index tree, seekge(k) returns
KeyNotFound exactly when no stored key is ≥ k; when one exists it returns OK,
positioned on the entry with the smallest key ≥ k (the remaining keys being
exactly those ≥ k). -/
theorem C6_seekge_smallest_ge {s : PStore} {fam : Fam} {root H fuel k : Nat}
    (hroot : wfB s fam H root none none = true) (hfuel : H < fuel)
    {c : Cursor} {i0 : Nat} (hlast : c.path.getLast? = some (root, i0)) :
    ((entKeys s fam H root).filter (fun x => decide (k ≤ x)) = [] →
      (chidb_dbm_cursor_seekge s fuel c k).1 = CHIDB_CURSOR_EKEYNOTFOUND) ∧
    ((entKeys s fam H root).filter (fun x => decide (k ≤ x)) ≠ [] →
      (chidb_dbm_cursor_seekge s fuel c k).1 = CHIDB_OK ∧
      ∃ h2, PosAt s fam root H (chidb_dbm_cursor_seekge s fuel c k).2 h2 ∧
        remAt s fam (chidb_dbm_cursor_seekge s fuel c k).2 h2 =
          (entKeys s fam H root).filter (fun x => decide (k ≤ x)) ∧
        (k ≤ keyAtC s (chidb_dbm_cursor_seekge s fuel c k).2 ∧
          keyAtC s (chidb_dbm_cursor_seekge s fuel c k).2 ∈ entKeys s fam H root ∧
          ∀ x ∈ entKeys s fam H root, k ≤ x →
            keyAtC s (chidb_dbm_cursor_seekge s fuel c k).2 ≤ x)) := by
  have hd0 : ∀ x ∈ upRem s fam ([] : List (Nat × Nat)) H, k ≤ x := by
    intro x hx
    rw [show upRem s fam ([] : List (Nat × Nat)) H = [] from rfl] at hx
    exact absurd hx (List.not_mem_nil x)
  obtain ⟨pg2, i2, rest2, nd2, h2, lo2, hi2, hloop, hnd2, hlen2, hi2eq, hpath2, hdues2,
    hremEq, hdisj⟩ :=
    seekLoop_spec hroot k H i0 none hroot PathTo.nil hfuel hd0 (fun _ => Or.inl rfl)
  rw [show upRem s fam ([] : List (Nat × Nat)) H = [] from rfl, List.append_nil] at hremEq
  have hsp : seek_partial s fuel k c = (⟨(pg2, i2) :: rest2⟩, i2,
      some (getCellD nd2 (min i2 (nd2.cells.length - 1)))) := by
    unfold seek_partial
    rw [hlast]
    dsimp only
    exact hloop
  have hile : i2 ≤ nd2.cells.length := by
    have := findCellPos_le_length nd2.cells k
    omega
  rcases hdisj with ⟨hh20, htype2, htab⟩ | ⟨hpos2, hfam2, htype2, hilt2, hkey2⟩
  · -- stopped on the leaf
    subst hh20
    by_cases hilen : i2 = nd2.cells.length
    · -- scan failed on this leaf: every leaf key is below k
      have hrem0 : remAt s fam ⟨(pg2, i2) :: rest2⟩ 0 = upRem s fam rest2 0 := by
        rw [remAt]
        dsimp only
        rw [hnd2]
        dsimp only
        rw [htype2, isLeaf_leafTypeOf, if_pos rfl]
        rw [hilen, List.drop_length]
        rfl
      cases hfam : fam with
      | table =>
        subst hfam
        have hz := htab rfl hilen
        have hfe : (entKeys s Fam.table H root).filter (fun x => decide (k ≤ x)) = [] := by
          rw [← hremEq, hrem0, hz]
        have htl : nd2.type = PageType.tableLeaf := by
          rw [htype2]
          rfl
        have hsg : chidb_dbm_cursor_seekge s fuel c k =
            (CHIDB_CURSOR_EKEYNOTFOUND, ⟨(pg2, i2) :: rest2⟩) := by
          unfold chidb_dbm_cursor_seekge
          rw [hsp]
          dsimp only
          rw [hnd2]
          dsimp only
          rw [if_pos hilen, htl]
          rw [if_pos rfl]
        exact ⟨fun _ => by rw [hsg], fun hcon => absurd hfe hcon⟩
      | index =>
        subst hfam
        have hPW : PosW s Fam.index root H ⟨(pg2, i2) :: rest2⟩ 0 :=
          ⟨pg2, i2, rest2, lo2, hi2, nd2, rfl, hpath2, hnd2, Or.inl ⟨rfl, hile⟩⟩
        have hafter0 : afterC s Fam.index ⟨(pg2, i2) :: rest2⟩ 0 =
            upRem s Fam.index rest2 0 := by
          rw [afterC]
          dsimp only
          rw [hnd2]
          dsimp only
          rw [htype2, isLeaf_leafTypeOf, if_pos rfl]
          rw [show nd2.cells.drop (i2 + 1) = [] from List.drop_eq_nil_of_le (by omega)]
          rfl
        have hnst := next_step hroot hfuel hPW
        have hil : nd2.type = PageType.indexLeaf := by
          rw [htype2]
          rfl
        have hsg0 : chidb_dbm_cursor_seekge s fuel c k =
            (if (chidb_dbm_cursor_next s fuel ⟨(pg2, i2) :: rest2⟩).1 =
                CHIDB_CURSOR_ENONEXT then
              (CHIDB_CURSOR_EKEYNOTFOUND, (chidb_dbm_cursor_next s fuel
                ⟨(pg2, i2) :: rest2⟩).2)
             else (CHIDB_OK, (chidb_dbm_cursor_next s fuel ⟨(pg2, i2) :: rest2⟩).2)) := by
          unfold chidb_dbm_cursor_seekge
          rw [hsp]
          dsimp only
          rw [hnd2]
          dsimp only
          rw [if_pos hilen, hil]
          rw [if_neg (by decide : ¬ PageType.indexLeaf = PageType.tableLeaf)]
          rw [if_pos (Or.inr rfl)]
        constructor
        · intro hfe
          have hz : upRem s Fam.index rest2 0 = [] := by
            rw [← hrem0, hremEq]
            exact hfe
          have hnx := hnst.1 (by rw [hafter0]; exact hz)
          rw [hsg0, hnx]
          dsimp only
          rw [if_pos rfl]
        · intro hfe
          have hz : afterC s Fam.index ⟨(pg2, i2) :: rest2⟩ 0 ≠ [] := by
            rw [hafter0, ← hrem0, hremEq]
            exact hfe
          obtain ⟨c3, h3, hnx, hp3, hrem3⟩ := hnst.2 hz
          have hsg : chidb_dbm_cursor_seekge s fuel c k = (CHIDB_OK, c3) := by
            rw [hsg0, hnx]
            dsimp only
            rw [if_neg (by decide : ¬ (CHIDB_OK : Int) = CHIDB_CURSOR_ENONEXT)]
          have hremF : remAt s Fam.index c3 h3 =
              (entKeys s Fam.index H root).filter (fun x => decide (k ≤ x)) := by
            rw [hrem3, hafter0, ← hrem0, hremEq]
          rw [hsg]
          exact ⟨rfl, h3, hp3, hremF, filter_pos_least hroot hp3 hremF⟩
    · -- hit on this leaf: position on the scan cell
      have hilt2 : i2 < nd2.cells.length := lt_of_le_of_ne hile hilen
      have hp2 : PosAt s fam root H ⟨(pg2, i2) :: rest2⟩ 0 :=
        ⟨pg2, i2, rest2, lo2, hi2, nd2, rfl, hpath2, hnd2, hilt2, Or.inl rfl⟩
      have hfne : (entKeys s fam H root).filter (fun x => decide (k ≤ x)) ≠ [] := by
        rw [← hremEq, remAt_head hroot hp2]
        exact List.cons_ne_nil _ _
      have hkge : k ≤ (getCellD nd2 i2).key := by
        have := findCellPos_ge (by rw [← hi2eq]; exact hilt2)
        rw [← hi2eq] at this
        simp only [getCellD]
        omega
      have hmin2 : min i2 (nd2.cells.length - 1) = i2 := by omega
      cases hfam : fam with
      | table =>
        subst hfam
        have htl : nd2.type = PageType.tableLeaf := by
          rw [htype2]
          rfl
        have hsg : chidb_dbm_cursor_seekge s fuel c k =
            (CHIDB_OK, ⟨(pg2, i2) :: rest2⟩) := by
          unfold chidb_dbm_cursor_seekge
          rw [hsp]
          dsimp only
          rw [hnd2]
          dsimp only
          rw [if_neg hilen, htl]
          rw [if_pos rfl]
        refine ⟨fun hfe => absurd hfe hfne, fun _ => ?_⟩
        rw [hsg]
        exact ⟨rfl, 0, hp2, hremEq, filter_pos_least hroot hp2 hremEq⟩
      | index =>
        subst hfam
        have hil : nd2.type = PageType.indexLeaf := by
          rw [htype2]
          rfl
        have hsg : chidb_dbm_cursor_seekge s fuel c k =
            (CHIDB_OK, ⟨(pg2, i2) :: rest2⟩) := by
          unfold chidb_dbm_cursor_seekge
          rw [hsp]
          dsimp only
          rw [hnd2]
          dsimp only
          rw [if_neg hilen, hil]
          rw [if_neg (by decide : ¬ PageType.indexLeaf = PageType.tableLeaf)]
          rw [if_neg (by decide : ¬ PageType.indexLeaf = PageType.indexInternal)]
          rw [if_pos rfl]
          rw [hmin2]
          rw [if_neg (by omega : ¬ k > (getCellD nd2 i2).key)]
        refine ⟨fun hfe => absurd hfe hfne, fun _ => ?_⟩
        rw [hsg]
        exact ⟨rfl, 0, hp2, hremEq, filter_pos_least hroot hp2 hremEq⟩
  · -- stopped on an INDEX_INTERNAL exact match
    subst hfam2
    have hp2 : PosAt s Fam.index root H ⟨(pg2, i2) :: rest2⟩ h2 :=
      ⟨pg2, i2, rest2, lo2, hi2, nd2, rfl, hpath2, hnd2, hilt2, Or.inr rfl⟩
    have hfne : (entKeys s Fam.index H root).filter (fun x => decide (k ≤ x)) ≠ [] := by
      rw [← hremEq, remAt_head hroot hp2]
      exact List.cons_ne_nil _ _
    have hsg : chidb_dbm_cursor_seekge s fuel c k =
        (CHIDB_OK, ⟨(pg2, i2) :: rest2⟩) := by
      unfold chidb_dbm_cursor_seekge
      rw [hsp]
      dsimp only
      rw [hnd2]
      dsimp only
      rw [if_neg (by omega : ¬ i2 = nd2.cells.length), htype2]
      rw [if_neg (by decide : ¬ PageType.indexInternal = PageType.tableLeaf)]
      rw [if_pos rfl]
    refine ⟨fun hfe => absurd hfe hfne, fun _ => ?_⟩
    rw [hsg]
    exact ⟨rfl, h2, hp2, hremEq, filter_pos_least hroot hp2 hremEq⟩

/-- C6 witness: on the five-key index tree, seekge by 25 with the hypotheses
discharged concretely. -/
theorem C6_seekge_smallest_ge_witness :
    wfB c8Store Fam.index 1 1 none none = true ∧ (1 : Nat) < 2 ∧
    (((entKeys c8Store Fam.index 1 1).filter (fun x => decide (25 ≤ x)) = [] →
      (chidb_dbm_cursor_seekge c8Store 2 ⟨[(1, 0)]⟩ 25).1 =
        CHIDB_CURSOR_EKEYNOTFOUND) ∧
    ((entKeys c8Store Fam.index 1 1).filter (fun x => decide (25 ≤ x)) ≠ [] →
      (chidb_dbm_cursor_seekge c8Store 2 ⟨[(1, 0)]⟩ 25).1 = CHIDB_OK ∧
      ∃ h2, PosAt c8Store Fam.index 1 1
          (chidb_dbm_cursor_seekge c8Store 2 ⟨[(1, 0)]⟩ 25).2 h2 ∧
        remAt c8Store Fam.index (chidb_dbm_cursor_seekge c8Store 2 ⟨[(1, 0)]⟩ 25).2 h2 =
          (entKeys c8Store Fam.index 1 1).filter (fun x => decide (25 ≤ x)) ∧
        (25 ≤ keyAtC c8Store (chidb_dbm_cursor_seekge c8Store 2 ⟨[(1, 0)]⟩ 25).2 ∧
          keyAtC c8Store (chidb_dbm_cursor_seekge c8Store 2 ⟨[(1, 0)]⟩ 25).2 ∈
            entKeys c8Store Fam.index 1 1 ∧
          ∀ x ∈ entKeys c8Store Fam.index 1 1, 25 ≤ x →
            keyAtC c8Store (chidb_dbm_cursor_seekge c8Store 2 ⟨[(1, 0)]⟩ 25).2 ≤ x))) :=
  ⟨by decide, by decide, C6_seekge_smallest_ge (by decide) (by decide) rfl⟩

/-! ### The rightmost spine and the prev machinery (claims C8 and C9) -/

/-- The path frames descendRightmost builds below a node of height h: the
rightmost spine, each frame parked at its n_cells, deepest first. -/
def dRight (s : PStore) : Nat → Nat → List (Nat × Nat)
  | 0, pg =>
    match s.pages pg with
    | none => [(pg, 0)]
    | some nd => [(pg, nd.cells.length)]
  | h + 1, pg =>
    match s.pages pg with
    | none => [(pg, 0)]
    | some nd => dRight s h nd.right_page ++ [(pg, nd.cells.length)]

theorem descendRightmost_go {s : PStore} {fam : Fam} :
    ∀ (h : Nat) {pg : Nat} {lo hi : Option Nat} {rest : List (Nat × Nat)} {fuel : Nat}
      {nd : PNode},
      wfB s fam h pg lo hi = true → s.pages pg = some nd → h < fuel →
      descendRightmost s fuel ⟨(pg, nd.cells.length) :: rest⟩ =
        (CHIDB_OK, ⟨dRight s h pg ++ rest⟩) := by
  intro h
  induction h with
  | zero =>
    intro pg lo hi rest fuel nd hw hnd hfuel
    obtain ⟨nd2, hnd2, htype, hlen, -⟩ := wf0_elim hw
    rw [hnd] at hnd2
    injection hnd2 with hnd2
    subst hnd2
    obtain ⟨f, rfl⟩ : ∃ f, fuel = f + 1 := ⟨fuel - 1, by omega⟩
    rw [descendRightmost]
    dsimp only
    rw [hnd]
    dsimp only
    rw [htype, isLeaf_leafTypeOf, if_pos rfl]
    rw [show dRight s 0 pg = [(pg, nd.cells.length)] from by rw [dRight, hnd]]
    rfl
  | succ hh ih =>
    intro pg lo hi rest fuel nd hw hnd hfuel
    obtain ⟨nd2, hnd2, htype, hlen, hcw, hrw⟩ := wfS_elim hw
    rw [hnd] at hnd2
    injection hnd2 with hnd2
    subst hnd2
    obtain ⟨f, rfl⟩ : ∃ f, fuel = f + 1 := ⟨fuel - 1, by omega⟩
    have hchild := wf_child_of_slot hw hnd (le_refl nd.cells.length)
    rw [if_pos rfl] at hchild
    have hch : childAtSlot nd nd.cells.length = nd.right_page := by
      unfold childAtSlot
      rw [if_pos rfl]
    rw [hch] at hchild
    have hsome : (s.pages nd.right_page).isSome = true := wf_page_isSome hchild
    obtain ⟨ndr, hndr⟩ : ∃ ndr, s.pages nd.right_page = some ndr := by
      cases hr : s.pages nd.right_page with
      | none => rw [hr] at hsome; exact absurd hsome (by simp)
      | some x => exact ⟨x, rfl⟩
    have hgo : chidb_dbm_cursor_goDownCurrentCell s ⟨(pg, nd.cells.length) :: rest⟩ =
        (CHIDB_OK, ⟨(nd.right_page, 0) :: (pg, nd.cells.length) :: rest⟩) := by
      unfold chidb_dbm_cursor_goDownCurrentCell
      dsimp only
      rw [hnd]
      dsimp only
      rw [hch, if_pos hsome]
    rw [descendRightmost]
    dsimp only
    rw [hnd]
    dsimp only
    rw [htype, isLeaf_internalTypeOf]
    rw [if_neg (fun hcon => nomatch hcon : ¬ (false = true))]
    rw [hgo]
    dsimp only
    rw [if_neg (by decide : ¬ ¬ (CHIDB_OK : Int) = CHIDB_OK)]
    rw [hndr]
    dsimp only
    rw [ih hchild hndr (by omega)]
    rw [show dRight s (hh + 1) pg = dRight s hh nd.right_page ++ [(pg, nd.cells.length)]
      from by rw [dRight, hnd], List.append_assoc]
    rfl

theorem descendRightmost_slot {s : PStore} {fam : Fam} {h p : Nat} {lo hi : Option Nat}
    {nd : PNode} {j : Nat} {rest : List (Nat × Nat)} {fuel : Nat}
    (hw : wfB s fam (h + 1) p lo hi = true) (hnd : s.pages p = some nd)
    (hj : j ≤ nd.cells.length) (hfuel : h + 1 < fuel) :
    descendRightmost s fuel ⟨(p, j) :: rest⟩ =
      (CHIDB_OK, ⟨dRight s h (childAtSlot nd j) ++ (p, j) :: rest⟩) := by
  obtain ⟨f, rfl⟩ : ∃ f, fuel = f + 1 := ⟨fuel - 1, by omega⟩
  obtain ⟨nd2, hnd2, htype, hlen, -, -⟩ := wfS_elim hw
  rw [hnd] at hnd2
  injection hnd2 with hnd2
  subst hnd2
  have hchild := wf_child_of_slot hw hnd hj
  have hsome : (s.pages (childAtSlot nd j)).isSome = true := wf_page_isSome hchild
  obtain ⟨ndc, hndc⟩ : ∃ ndc, s.pages (childAtSlot nd j) = some ndc := by
    cases hr : s.pages (childAtSlot nd j) with
    | none => rw [hr] at hsome; exact absurd hsome (by simp)
    | some x => exact ⟨x, rfl⟩
  have hgo : chidb_dbm_cursor_goDownCurrentCell s ⟨(p, j) :: rest⟩ =
      (CHIDB_OK, ⟨(childAtSlot nd j, 0) :: (p, j) :: rest⟩) := by
    unfold chidb_dbm_cursor_goDownCurrentCell
    dsimp only
    rw [hnd]
    dsimp only
    rw [if_pos hsome]
  rw [descendRightmost]
  dsimp only
  rw [hnd]
  dsimp only
  rw [htype, isLeaf_internalTypeOf]
  rw [if_neg (fun hcon => nomatch hcon : ¬ (false = true))]
  rw [hgo]
  dsimp only
  rw [if_neg (by decide : ¬ ¬ (CHIDB_OK : Int) = CHIDB_OK)]
  rw [hndc]
  dsimp only
  exact descendRightmost_go h hchild hndc (by omega)

/-- The rightmost spine of a well-formed subtree ends on a leaf parked at its
n_cells, extending the descent path. -/
theorem dRight_spec {s : PStore} {fam : Fam} {root H : Nat} :
    ∀ (h : Nat) {pg : Nat} {lo hi : Option Nat} {rest : List (Nat × Nat)},
      wfB s fam h pg lo hi = true →
      PathTo s fam root H pg h lo hi rest →
      ∃ pgR ndR tl lo2 hi2,
        dRight s h pg = (pgR, ndR.cells.length) :: tl ∧
        s.pages pgR = some ndR ∧ ndR.type = leafTypeOf fam ∧ 1 ≤ ndR.cells.length ∧
        PathTo s fam root H pgR 0 lo2 hi2 (tl ++ rest) := by
  intro h
  induction h with
  | zero =>
    intro pg lo hi rest hw hpath
    obtain ⟨nd, hnd, htype, hlen, -⟩ := wf0_elim hw
    exact ⟨pg, nd, [], lo, hi, by rw [dRight, hnd], hnd, htype, hlen, hpath⟩
  | succ hh ih =>
    intro pg lo hi rest hw hpath
    obtain ⟨nd, hnd, htype, hlen, hcw, hrw⟩ := wfS_elim hw
    have hchild := wf_child_of_slot hw hnd (le_refl nd.cells.length)
    rw [if_pos rfl] at hchild
    have hch : childAtSlot nd nd.cells.length = nd.right_page := by
      unfold childAtSlot
      rw [if_pos rfl]
    rw [hch] at hchild
    have hpath2 : PathTo s fam root H nd.right_page hh
        (if nd.cells.length = 0 then lo else some (getCellD nd (nd.cells.length - 1)).key)
        hi ((pg, nd.cells.length) :: rest) := by
      have := PathTo.cons (j := nd.cells.length) hpath hnd (le_refl _)
      rw [if_pos rfl, hch] at this
      exact this
    obtain ⟨pgR, ndR, tl, lo2, hi2, hdr, hndR, htR, hlenR, hpathR⟩ := ih hchild hpath2
    refine ⟨pgR, ndR, tl ++ [(pg, nd.cells.length)], lo2, hi2, ?_, hndR, htR, hlenR, ?_⟩
    · rw [show dRight s (hh + 1) pg = dRight s hh nd.right_page ++ [(pg, nd.cells.length)]
        from by rw [dRight, hnd], hdr, List.cons_append]
    · rw [List.append_assoc, List.singleton_append]
      exact hpathR

theorem PathTo_height_total {s : PStore} {fam : Fam} {root H : Nat} :
    ∀ {pg h : Nat} {lo hi : Option Nat} {anc : List (Nat × Nat)},
      PathTo s fam root H pg h lo hi anc → h + anc.length = H := by
  intro pg h lo hi anc hp
  induction hp with
  | nil => simp
  | cons hpar hnd hj ih =>
    rw [List.length_cons]
    omega

/-- Every frame of the leftmost spine sits at cell index 0, and the spine is
a nonempty list headed by some page at 0. -/
theorem dLeft_head_zeros (s : PStore) :
    ∀ (h pg : Nat), ∃ pgL tl, dLeft s h pg = (pgL, 0) :: tl ∧ ∀ fr ∈ tl, fr.2 = 0 := by
  intro h
  induction h with
  | zero => intro pg; exact ⟨pg, [], rfl, by simp⟩
  | succ hh ih =>
    intro pg
    cases hnd : s.pages pg with
    | none => exact ⟨pg, [], by rw [dLeft, hnd], by simp⟩
    | some nd =>
      obtain ⟨pgL, tl, hdl, hz⟩ := ih (childAtSlot nd 0)
      refine ⟨pgL, tl ++ [(pg, 0)], ?_, ?_⟩
      · rw [dLeft, hnd]
        dsimp only
        rw [hdl, List.cons_append]
      · intro fr hfr
        rw [List.mem_append] at hfr
        rcases hfr with hfr | hfr
        · exact hz fr hfr
        · rw [List.mem_singleton] at hfr
          rw [hfr]

/-- ascendToPos pops exactly the leading zero frames. -/
theorem ascendToPos_zeros :
    ∀ (tl : List (Nat × Nat)), (∀ fr ∈ tl, fr.2 = 0) →
      ∀ (p j : Nat) (anc : List (Nat × Nat)), j ≠ 0 →
        ascendToPos (tl ++ (p, j) :: anc) = some ⟨(p, j) :: anc⟩ := by
  intro tl
  induction tl with
  | nil =>
    intro _ p j anc hj
    rw [List.nil_append, ascendToPos]
    rw [if_neg hj]
  | cons fr tl2 ih =>
    intro hz p j anc hj
    obtain ⟨f1, f2⟩ := fr
    have h2 : f2 = 0 := hz (f1, f2) (List.mem_cons_self _ _)
    rw [List.cons_append, ascendToPos, if_pos h2]
    exact ih (fun g hg => hz g (List.mem_cons_of_mem _ hg)) p j anc hj

/-- When some ancestor frame is off zero, ascendToPos finds the deepest such
frame, a legitimate descent frame with its index in range. -/
theorem ascendToPos_path {s : PStore} {fam : Fam} {root H : Nat} :
    ∀ {pg h : Nat} {lo hi : Option Nat} {rest : List (Nat × Nat)},
      PathTo s fam root H pg h lo hi rest →
      rest.all (fun pc => pc.2 == 0) = false →
      ∃ p2 i2 rest2 h2 lo2 hi2 nd2,
        ascendToPos rest = some ⟨(p2, i2) :: rest2⟩ ∧
        PathTo s fam root H p2 (h2 + 1) lo2 hi2 rest2 ∧
        s.pages p2 = some nd2 ∧ 1 ≤ i2 ∧ i2 ≤ nd2.cells.length := by
  intro pg h lo hi rest hpath
  induction hpath with
  | nil => intro hcon; exact absurd hcon (by simp)
  | @cons p h' lo' hi' anc nd j hpar hnd hj ih =>
    intro hall
    by_cases hjz : j = 0
    · subst hjz
      rw [ascendToPos, if_pos rfl]
      apply ih
      rw [List.all_cons] at hall
      simpa using hall
    · rw [ascendToPos, if_neg hjz]
      exact ⟨p, j, anc, h', lo', hi', nd, rfl, hpar, hnd, by omega, hj⟩

/-- What ascendToOpen pops: the ancestors split as a closed prefix (frames
parked at their n_cells) before the frame it returns. -/
theorem ascend_decomp {s : PStore} {fam : Fam} {root H : Nat} :
    ∀ {pg h : Nat} {lo hi : Option Nat} {rest : List (Nat × Nat)},
      PathTo s fam root H pg h lo hi rest →
      ∀ {p j : Nat} {anc : List (Nat × Nat)},
        ascendToOpen s rest = some ⟨(p, j) :: anc⟩ →
        ∃ pref, rest = pref ++ (p, j) :: anc ∧
          ∀ fr ∈ pref, ∃ ndf, s.pages fr.1 = some ndf ∧ fr.2 = ndf.cells.length := by
  intro pg h lo hi rest hpath
  induction hpath with
  | nil => intro p j anc hcon; exact absurd hcon (by rw [ascendToOpen]; simp)
  | @cons p0 h' lo' hi' anc0 nd j0 hpar hnd hj ih =>
    intro p j anc hasc
    rw [ascendToOpen] at hasc
    rw [hnd] at hasc
    dsimp only at hasc
    by_cases hjl : j0 < nd.cells.length
    · rw [if_pos hjl] at hasc
      injection hasc with hasc
      have hasc2 : (p0, j0) :: anc0 = (p, j) :: anc := congrArg Cursor.path hasc
      injection hasc2 with h1 h2
      refine ⟨[], ?_, by simp⟩
      rw [List.nil_append, h1, h2]
    · rw [if_neg hjl] at hasc
      obtain ⟨pref, hpref, hclosed⟩ := ih hasc
      refine ⟨(p0, j0) :: pref, by rw [List.cons_append, hpref], ?_⟩
      intro fr hfr
      rcases List.mem_cons.mp hfr with rfl | hfr2
      · exact ⟨nd, hnd, by omega⟩
      · exact hclosed fr hfr2

/-- A closed chain below an open frame is exactly the rightmost spine of the
child entered at that frame. -/
theorem closed_reconstruct {s : PStore} {fam : Fam} {root H : Nat} :
    ∀ (pref : List (Nat × Nat)) {pg h : Nat} {lo hi : Option Nat} {p j : Nat}
      {anc : List (Nat × Nat)},
      PathTo s fam root H pg h lo hi (pref ++ (p, j) :: anc) →
      (∀ fr ∈ pref, ∃ ndf, s.pages fr.1 = some ndf ∧ fr.2 = ndf.cells.length) →
      ∃ lo2 hi2 ndp, PathTo s fam root H p (h + pref.length + 1) lo2 hi2 anc ∧
        s.pages p = some ndp ∧ j ≤ ndp.cells.length ∧
        dRight s (h + pref.length) (childAtSlot ndp j) = dRight s h pg ++ pref := by
  intro pref
  induction pref with
  | nil =>
    intro pg h lo hi p j anc hpath _
    rw [List.nil_append] at hpath
    cases hpath with
    | @cons _ _ _ _ _ nd1 _ hpar hnd hj =>
      exact ⟨_, _, _, hpar, hnd, hj, by simp⟩
  | cons fr pref2 ih =>
    intro pg h lo hi p j anc hpath hclosed
    obtain ⟨q1, j1⟩ := fr
    rw [List.cons_append] at hpath
    cases hpath with
    | @cons _ _ _ _ _ nd1 _ hpar hnd hj =>
      obtain ⟨ndf, hndf, hfr2⟩ := hclosed (q1, j1) (List.mem_cons_self _ _)
      rw [hnd] at hndf
      injection hndf with he
      have hj1 : j1 = nd1.cells.length := by rw [he]; exact hfr2
      obtain ⟨lo2, hi2, ndp, hp2, hndp, hj2, hd⟩ :=
        ih hpar (fun g hg => hclosed g (List.mem_cons_of_mem _ hg))
      refine ⟨lo2, hi2, ndp, ?_, hndp, hj2, ?_⟩
      · rw [show h + ((q1, j1) :: pref2).length + 1 = (h + 1) + pref2.length + 1 from by
          rw [List.length_cons]; omega]
        exact hp2
      · rw [show h + ((q1, j1) :: pref2).length = (h + 1) + pref2.length from by
          rw [List.length_cons]; omega]
        rw [hd]
        rw [show dRight s (h + 1) q1 = dRight s h nd1.right_page ++ [(q1, nd1.cells.length)]
          from by rw [dRight, hnd], show childAtSlot nd1 j1 = nd1.right_page from by
          unfold childAtSlot; rw [if_pos hj1]]
        rw [List.append_assoc, List.singleton_append, ← hj1]

/-- On a table tree, prev is a step inverse of next: a successful next from a
legitimate position is undone exactly by prev (ncell_t is a uint16 in the C,
whence the node-size bound for the final wraparound reindex). -/
theorem table_nextPrev {s : PStore} {root H : Nat}
    (hroot : wfB s Fam.table H root none none = true) {fuel : Nat} (hfuel : H < fuel)
    (hsmall : ∀ pg nd, s.pages pg = some nd → nd.cells.length < 65536)
    {c c2 : Cursor} {h : Nat} (hp : PosAt s Fam.table root H c h)
    (hnx : chidb_dbm_cursor_next s fuel c = (CHIDB_OK, c2)) :
    chidb_dbm_cursor_prev s fuel c2 = (CHIDB_OK, c) := by
  obtain ⟨pg, i, rest, lo, hi, nd, hpe, hpath, hnd, hilt, hkind⟩ := hp
  have h0 : h = 0 := by
    rcases hkind with h0 | hf
    · exact h0
    · exact absurd hf (by decide)
  subst h0
  have hw : wfB s Fam.table 0 pg lo hi = true := wf_of_path hroot hpath
  obtain ⟨nd2, hnd2, htype, hlen, -⟩ := wf0_elim hw
  rw [hnd] at hnd2
  injection hnd2 with hnd2
  subst hnd2
  have hnotidx : ¬ nd.type = PageType.indexInternal := by
    rw [htype]
    decide
  by_cases hA : i + 1 < nd.cells.length
  · have hnx2 : chidb_dbm_cursor_next s fuel c = (CHIDB_OK, ⟨(pg, i + 1) :: rest⟩) := by
      rw [chidb_dbm_cursor_next, hpe]
      dsimp only
      rw [hnd]
      dsimp only
      rw [if_pos hA, if_neg hnotidx]
    rw [hnx2] at hnx
    have hc2 : c2 = ⟨(pg, i + 1) :: rest⟩ := (congrArg Prod.snd hnx).symm
    subst hc2
    rw [chidb_dbm_cursor_prev]
    dsimp only
    rw [if_pos (by omega : (1 : Nat) ≤ i + 1), Nat.add_sub_cancel]
    rw [← hpe]
  · by_cases hup : upRem s Fam.table rest 0 = []
    · have hall := (ascend_spec hroot hpath).1 hup
      have hnx2 : chidb_dbm_cursor_next s fuel c = (CHIDB_CURSOR_ENONEXT, c) := by
        rw [chidb_dbm_cursor_next, hpe]
        dsimp only
        rw [hnd]
        dsimp only
        rw [if_neg hA]
        rw [htype, isLeaf_leafTypeOf, if_pos rfl]
        by_cases hrest : rest = []
        · rw [if_pos hrest]
        · rw [if_neg hrest, hall, if_pos rfl]
      rw [hnx2] at hnx
      have hcon : CHIDB_CURSOR_ENONEXT = (CHIDB_OK : Int) := congrArg Prod.fst hnx
      exact absurd hcon (by decide)
    · obtain ⟨hall, hrestne, p3, j3, anc3, h3, lo3, hi3, ndp3, hasc, hpath3, hndp3, hj3,
        hupEq⟩ := (ascend_spec hroot hpath).2 hup
      have hwp3 : wfB s Fam.table (h3 + 1) p3 lo3 hi3 = true := wf_of_path hroot hpath3
      have hH3 : h3 + 1 ≤ H := PathTo_height_le hpath3
      obtain ⟨nd3b, hnd3b, htype3, hlen3, -, -⟩ := wfS_elim hwp3
      rw [hndp3] at hnd3b
      injection hnd3b with hnd3b
      subst hnd3b
      have hnidx : ¬ ndp3.type = PageType.indexInternal := by
        rw [htype3]
        decide
      have hdesc : descendLeft s fuel ⟨(p3, j3 + 1) :: anc3⟩ =
          (CHIDB_OK, ⟨dLeft s h3 (childAtSlot ndp3 (j3 + 1)) ++ (p3, j3 + 1) :: anc3⟩) :=
        descendLeft_slot hwp3 hndp3 (show j3 + 1 ≤ ndp3.cells.length by omega)
          (show h3 + 1 < fuel by omega)
      have hnx0 : chidb_dbm_cursor_next s fuel c =
          (if ndp3.type = PageType.indexInternal then (CHIDB_OK, ⟨(p3, j3) :: anc3⟩)
           else descendLeft s fuel ⟨(p3, j3 + 1) :: anc3⟩) := by
        rw [chidb_dbm_cursor_next, hpe]
        dsimp only
        rw [hnd]
        dsimp only
        rw [if_neg hA]
        rw [htype, isLeaf_leafTypeOf, if_pos rfl]
        rw [if_neg hrestne, hall]
        rw [if_neg (fun hcon => nomatch hcon : ¬ (false = true))]
        rw [hasc]
        dsimp only
        rw [hndp3]
      have hnx2 : chidb_dbm_cursor_next s fuel c =
          (CHIDB_OK, ⟨dLeft s h3 (childAtSlot ndp3 (j3 + 1)) ++ (p3, j3 + 1) :: anc3⟩) := by
        rw [hnx0, if_neg hnidx, hdesc]
      rw [hnx2] at hnx
      have hc2 : c2 = ⟨dLeft s h3 (childAtSlot ndp3 (j3 + 1)) ++ (p3, j3 + 1) :: anc3⟩ :=
        (congrArg Prod.snd hnx).symm
      subst hc2
      obtain ⟨pgL, tlL, hdl, hdlz⟩ := dLeft_head_zeros s h3 (childAtSlot ndp3 (j3 + 1))
      obtain ⟨pref, hrdecomp, hclosed⟩ := ascend_decomp hpath hasc
      rw [hrdecomp] at hpath
      obtain ⟨lo4, hi4, ndp4, hp4, hndp4, hj4, hdr⟩ := closed_reconstruct pref hpath hclosed
      rw [Nat.zero_add] at hdr
      rw [hndp3] at hndp4
      injection hndp4 with he4
      have hh3 : h3 = pref.length := by
        have t1 := PathTo_height_total hp4
        have t2 := PathTo_height_total hpath3
        omega
      have hdr2 : dRight s h3 (childAtSlot ndp3 j3) = (pg, nd.cells.length) :: pref := by
        rw [he4, hh3, hdr]
        rw [show dRight s 0 pg = [(pg, nd.cells.length)] from by rw [dRight, hnd]]
        rfl
      rw [chidb_dbm_cursor_prev]
      dsimp only
      rw [hdl, List.cons_append]
      dsimp only
      rw [if_neg (by omega : ¬ (1 : Nat) ≤ 0)]
      rw [if_neg (show ¬ tlL ++ (p3, j3 + 1) :: anc3 = [] from by simp)]
      rw [show (tlL ++ (p3, j3 + 1) :: anc3).all (fun pc => pc.2 == 0) = false from
        List.all_eq_false.mpr ⟨(p3, j3 + 1), by simp, by simp⟩]
      rw [if_neg (fun hcon => nomatch hcon : ¬ (false = true))]
      rw [ascendToPos_zeros tlL hdlz p3 (j3 + 1) anc3 (by omega)]
      dsimp only
      rw [Nat.add_sub_cancel]
      have hdrm : descendRightmost s fuel ⟨(p3, j3) :: anc3⟩ =
          (CHIDB_OK, ⟨dRight s h3 (childAtSlot ndp3 j3) ++ (p3, j3) :: anc3⟩) :=
        descendRightmost_slot hwp3 hndp3 (by omega) (show h3 + 1 < fuel by omega)
      rw [hdrm]
      dsimp only
      rw [if_neg (by decide : ¬ ¬ (CHIDB_OK : Int) = CHIDB_OK)]
      rw [hdr2, List.cons_append]
      dsimp only
      rw [hnd]
      dsimp only
      have hmod : (nd.cells.length + 65535) % 65536 = i := by
        have hs := hsmall pg nd hnd
        omega
      rw [hmod, ← hrdecomp, ← hpe]

/-- n calls to next, stopping on the first non-OK status. -/
def iterNext (s : PStore) (fuel : Nat) : Nat → Cursor → Int × Cursor
  | 0, c => (CHIDB_OK, c)
  | n + 1, c =>
    let r := chidb_dbm_cursor_next s fuel c
    if r.1 = CHIDB_OK then iterNext s fuel n r.2 else r

/-- n calls to prev after the n next calls: undo the last step after undoing
the earlier ones. -/
def iterPrev (s : PStore) (fuel : Nat) : Nat → Cursor → Int × Cursor
  | 0, c => (CHIDB_OK, c)
  | n + 1, c =>
    let r := iterPrev s fuel n c
    if r.1 = CHIDB_OK then chidb_dbm_cursor_prev s fuel r.2 else r

theorem iterNextPrev {s : PStore} {root H fuel : Nat}
    (hroot : wfB s Fam.table H root none none = true) (hfuel : H < fuel)
    (hsmall : ∀ pg nd, s.pages pg = some nd → nd.cells.length < 65536) :
    ∀ (n : Nat) {c : Cursor} {h : Nat}, PosAt s Fam.table root H c h →
      ∀ {cn : Cursor}, iterNext s fuel n c = (CHIDB_OK, cn) →
        iterPrev s fuel n cn = (CHIDB_OK, c) := by
  intro n
  induction n with
  | zero =>
    intro c h hp cn hin
    have hc : cn = c := (congrArg Prod.snd hin).symm
    subst hc
    rfl
  | succ n ih =>
    intro c h hp cn hin
    rw [iterNext] at hin
    by_cases hok : (chidb_dbm_cursor_next s fuel c).1 = CHIDB_OK
    · rw [if_pos hok] at hin
      have haft : afterC s Fam.table c h ≠ [] := by
        intro hz
        have hen := (next_step hroot hfuel (posW_of_posAt hp)).1 hz
        rw [hen] at hok
        have hok2 : CHIDB_CURSOR_ENONEXT = (CHIDB_OK : Int) := hok
        exact absurd hok2 (by decide)
      obtain ⟨c2, h2, hnx2, hp2, -⟩ := (next_step hroot hfuel (posW_of_posAt hp)).2 haft
      have hc2 : (chidb_dbm_cursor_next s fuel c).2 = c2 := by rw [hnx2]
      rw [hc2] at hin
      have hipn := ih hp2 hin
      rw [iterPrev]
      rw [hipn]
      dsimp only
      rw [if_pos rfl]
      exact table_nextPrev hroot hfuel hsmall hp hnx2
    · rw [if_neg hok] at hin
      rw [hin] at hok
      exact absurd rfl hok

/-- C8: corrected (the amended law).  On a well-formed TABLE tree, after
rewind, any n successful next steps are undone by n prev calls, returning the
cursor to exactly the position rewind produced (the first leaf entry).  The
original claim fails on index trees (see the counterexample): prev never
descends back into a left subtree from an INDEX_INTERNAL position. -/
theorem C8_table_prev_inverts_next {s : PStore} {root H fuel : Nat}
    (hroot : wfB s Fam.table H root none none = true) (hfuel : H < fuel)
    (hsmall : ∀ pg nd, s.pages pg = some nd → nd.cells.length < 65536)
    {c : Cursor} {i0 : Nat} (hlast : c.path.getLast? = some (root, i0)) (n : Nat) :
    ∃ c0, chidb_dbm_cursor_rewind s fuel c = (CHIDB_OK, c0) ∧
      ∀ cn, iterNext s fuel n c0 = (CHIDB_OK, cn) →
        iterPrev s fuel n cn = (CHIDB_OK, c0) := by
  obtain ⟨c0, hrw0, hpos0, -⟩ := rewind_spec hroot hfuel hlast
  exact ⟨c0, hrw0, fun cn hin => iterNextPrev hroot hfuel hsmall n hpos0 hin⟩

/-- A small table tree: root page 1 (separator 20, right child 3), leaf 2
holding 10 and 20, leaf 3 holding 30. -/
def c8tStore : PStore :=
  { page_size := 1024
    n_pages := 3
    pages := fun p =>
      if p = 1 then
        some { type := .tableInternal, free_offset := 116, cells_offset := 992,
               right_page := 3, cells := [.tableInternal 2 20] }
      else if p = 2 then
        some { type := .tableLeaf, free_offset := 10, cells_offset := 1000,
               right_page := 0, cells := [.tableLeaf 10 1 [7], .tableLeaf 20 1 [8]] }
      else if p = 3 then
        some { type := .tableLeaf, free_offset := 10, cells_offset := 1012,
               right_page := 0, cells := [.tableLeaf 30 1 [9]] }
      else none }

/-- C8 witness: on the three-leaf-key table tree, two next steps (which cross
from leaf 2 into leaf 3) are undone by two prev calls. -/
theorem C8_table_prev_inverts_next_witness :
    wfB c8tStore Fam.table 1 1 none none = true ∧ (1 : Nat) < 2 ∧
    (∃ c0, chidb_dbm_cursor_rewind c8tStore 2 ⟨[(1, 0)]⟩ = (CHIDB_OK, c0) ∧
      ∀ cn, iterNext c8tStore 2 2 c0 = (CHIDB_OK, cn) →
        iterPrev c8tStore 2 2 cn = (CHIDB_OK, c0)) :=
  ⟨by decide, by decide,
    @C8_table_prev_inverts_next c8tStore 1 1 2 (by decide) (by decide)
      (by
        intro pg nd hx
        simp only [c8tStore] at hx
        split_ifs at hx <;>
          first
            | (injection hx with hx; rw [← hx]; decide)
            | exact absurd hx (by simp))
      ⟨[(1, 0)]⟩ 0 rfl 2⟩

/-- The last frame of any descent position is on the root page. -/
theorem PathTo_getLast {s : PStore} {fam : Fam} {root H : Nat} :
    ∀ {pg h : Nat} {lo hi : Option Nat} {rest : List (Nat × Nat)},
      PathTo s fam root H pg h lo hi rest →
      ∀ i : Nat, ∃ j, ((pg, i) :: rest).getLast? = some (root, j) := by
  intro pg h lo hi rest hpath
  induction hpath with
  | nil => intro i; exact ⟨i, rfl⟩
  | @cons p h' lo' hi' anc nd j hpar hnd hj ih =>
    intro i
    rw [List.getLast?_cons_cons]
    exact ih j

theorem posW_getLast {s : PStore} {fam : Fam} {root H : Nat} {c : Cursor} {h : Nat}
    (hp : PosW s fam root H c h) : ∃ j, c.path.getLast? = some (root, j) := by
  obtain ⟨pg, i, rest, lo, hi, nd, hpe, hpath, hnd, hkind⟩ := hp
  rw [hpe]
  exact PathTo_getLast hpath i

/-- The C9 invariant on a cursor's head frame: the active node is a leaf or
an INDEX_INTERNAL node, and in particular never a TABLE_INTERNAL node. -/
def headOk (s : PStore) (c : Cursor) : Prop :=
  ∃ pg i rest nd, c.path = (pg, i) :: rest ∧ s.pages pg = some nd ∧
    (nd.type.isLeaf = true ∨ nd.type = PageType.indexInternal) ∧
    ¬ nd.type = PageType.tableInternal

theorem posW_headOk {s : PStore} {fam : Fam} {root H : Nat}
    (hroot : wfB s fam H root none none = true) {c : Cursor} {h : Nat}
    (hp : PosW s fam root H c h) : headOk s c := by
  obtain ⟨pg, i, rest, lo, hi, nd, hpe, hpath, hnd, hkind⟩ := hp
  have hw : wfB s fam h pg lo hi = true := wf_of_path hroot hpath
  cases h with
  | zero =>
    obtain ⟨nd2, hnd2, htype, -, -⟩ := wf0_elim hw
    rw [hnd] at hnd2
    injection hnd2 with hnd2
    subst hnd2
    refine ⟨pg, i, rest, nd, hpe, hnd, Or.inl ?_, ?_⟩
    · rw [htype, isLeaf_leafTypeOf]
    · rw [htype]
      cases fam <;> decide
  | succ hh =>
    obtain ⟨nd2, hnd2, htype, -, -, -⟩ := wfS_elim hw
    rw [hnd] at hnd2
    injection hnd2 with hnd2
    subst hnd2
    rcases hkind with ⟨h0, -⟩ | ⟨-, hf, -⟩
    · exact absurd h0 (by omega)
    · refine ⟨pg, i, rest, nd, hpe, hnd, Or.inr ?_, ?_⟩
      · rw [htype, hf]
        rfl
      · rw [htype, hf]
        decide

/-- The C9 conclusion for one operation's result cursor: it is still a
legitimate descent position, and its head frame is a leaf or INDEX_INTERNAL
node, never TABLE_INTERNAL. -/
def posOk (s : PStore) (fam : Fam) (root H : Nat) (c2 : Cursor) : Prop :=
  (∃ h2, PosW s fam root H c2 h2) ∧ headOk s c2

theorem posOk_of_exists {s : PStore} {fam : Fam} {root H : Nat}
    (hroot : wfB s fam H root none none = true) {c2 : Cursor}
    (hw : ∃ h2, PosW s fam root H c2 h2) : posOk s fam root H c2 := by
  refine ⟨hw, ?_⟩
  obtain ⟨h2, hw2⟩ := hw
  exact posW_headOk hroot hw2

theorem next_posW {s : PStore} {fam : Fam} {root H : Nat}
    (hroot : wfB s fam H root none none = true) {fuel : Nat} (hfuel : H < fuel)
    {c : Cursor} {h : Nat} (hp : PosW s fam root H c h) :
    ∃ h2, PosW s fam root H (chidb_dbm_cursor_next s fuel c).2 h2 := by
  by_cases haft : afterC s fam c h = []
  · rw [(next_step hroot hfuel hp).1 haft]
    exact ⟨h, hp⟩
  · obtain ⟨c2, h2, hnx2, hp2, -⟩ := (next_step hroot hfuel hp).2 haft
    rw [hnx2]
    exact ⟨h2, posW_of_posAt hp2⟩

theorem prev_posW {s : PStore} {fam : Fam} {root H : Nat}
    (hroot : wfB s fam H root none none = true) {fuel : Nat} (hfuel : H < fuel)
    {c : Cursor} {h : Nat} (hp : PosW s fam root H c h) :
    ∃ h2, PosW s fam root H (chidb_dbm_cursor_prev s fuel c).2 h2 := by
  obtain ⟨pg, i, rest, lo, hi, nd, hpe, hpath, hnd, hkind⟩ := hp
  rw [chidb_dbm_cursor_prev, hpe]
  dsimp only
  by_cases h1 : 1 ≤ i
  · rw [if_pos h1]
    refine ⟨h, pg, i - 1, rest, lo, hi, nd, rfl, hpath, hnd, ?_⟩
    rcases hkind with ⟨h0, hle⟩ | ⟨hpos, hf, hlt⟩
    · exact Or.inl ⟨h0, by omega⟩
    · exact Or.inr ⟨hpos, hf, by omega⟩
  · rw [if_neg h1]
    by_cases h2 : rest = []
    · rw [if_pos h2]
      exact ⟨h, pg, i, rest, lo, hi, nd, hpe, hpath, hnd, hkind⟩
    · rw [if_neg h2]
      by_cases h3 : rest.all (fun pc => pc.2 == 0) = true
      · rw [if_pos h3]
        exact ⟨h, pg, i, rest, lo, hi, nd, hpe, hpath, hnd, hkind⟩
      · have h3f : rest.all (fun pc => pc.2 == 0) = false := by
          cases hx : rest.all (fun pc => pc.2 == 0)
          · rfl
          · exact absurd hx h3
        rw [h3f]
        rw [if_neg (fun hcon => nomatch hcon : ¬ (false = true))]
        obtain ⟨p2, i2, rest2, h2', lo2, hi2, nd2, hap, hpath2, hnd2, hi21, hi2le⟩ :=
          ascendToPos_path hpath h3f
        rw [hap]
        dsimp only
        have hw2 : wfB s fam (h2' + 1) p2 lo2 hi2 = true := wf_of_path hroot hpath2
        have hH2 : h2' + 1 ≤ H := PathTo_height_le hpath2
        have hdrm : descendRightmost s fuel ⟨(p2, i2 - 1) :: rest2⟩ =
            (CHIDB_OK,
              ⟨dRight s h2' (childAtSlot nd2 (i2 - 1)) ++ (p2, i2 - 1) :: rest2⟩) :=
          descendRightmost_slot hw2 hnd2 (show i2 - 1 ≤ nd2.cells.length by omega)
            (show h2' + 1 < fuel by omega)
        rw [hdrm]
        dsimp only
        rw [if_neg (by decide : ¬ ¬ (CHIDB_OK : Int) = CHIDB_OK)]
        have hchild := wf_child_of_slot hw2 hnd2 (show i2 - 1 ≤ nd2.cells.length by omega)
        have hpathc := PathTo.cons (j := i2 - 1) hpath2 hnd2
          (show i2 - 1 ≤ nd2.cells.length by omega)
        obtain ⟨pgR, ndR, tl, lo3, hi3, hdr, hndR, htR, hlenR, hpathR⟩ :=
          dRight_spec h2' hchild hpathc
        rw [hdr, List.cons_append]
        dsimp only
        rw [hndR]
        dsimp only
        exact ⟨0, pgR, (ndR.cells.length + 65535) % 65536, tl ++ (p2, i2 - 1) :: rest2,
          lo3, hi3, ndR, rfl, hpathR, hndR, Or.inl ⟨rfl, by omega⟩⟩

/-- Running seek_partial from any position: the result cursor's shape, its
node and the weak position invariant. -/
theorem seek_partial_run {s : PStore} {fam : Fam} {root H : Nat}
    (hroot : wfB s fam H root none none = true) {fuel : Nat} (hfuel : H < fuel)
    {c : Cursor} {i0 : Nat} (hlast : c.path.getLast? = some (root, i0)) (key : Nat) :
    ∃ pg2 i2 rest2 nd2 h2,
      seek_partial s fuel key c =
        (⟨(pg2, i2) :: rest2⟩, i2, some (getCellD nd2 (min i2 (nd2.cells.length - 1)))) ∧
      s.pages pg2 = some nd2 ∧ PosW s fam root H ⟨(pg2, i2) :: rest2⟩ h2 := by
  obtain ⟨pg2, i2, rest2, nd2, h2, lo2, hi2, hloop, hnd2, hlen2, hfind, hpath2, -, -,
      hdisj⟩ :=
    seekLoop_spec hroot key H i0 none hroot PathTo.nil hfuel
      (by
        rw [show upRem s fam ([] : List (Nat × Nat)) H = [] from rfl]
        intro x hx
        exact absurd hx (List.not_mem_nil x))
      (fun _ => Or.inl rfl)
  refine ⟨pg2, i2, rest2, nd2, h2, ?_, hnd2, ?_⟩
  · rw [ seek_partial, hlast]
    exact hloop
  · refine ⟨pg2, i2, rest2, lo2, hi2, nd2, rfl, hpath2, hnd2, ?_⟩
    rcases hdisj with ⟨h0, -, -⟩ | ⟨hpos, hf, -, hlt, -⟩
    · refine Or.inl ⟨h0, ?_⟩
      rw [hfind]
      exact findCellPos_le_length nd2.cells key
    · exact Or.inr ⟨hpos, hf, hlt⟩

theorem seek_posW {s : PStore} {fam : Fam} {root H : Nat}
    (hroot : wfB s fam H root none none = true) {fuel : Nat} (hfuel : H < fuel)
    {c : Cursor} {h : Nat} (hp : PosW s fam root H c h) (key : Nat) :
    ∃ h2, PosW s fam root H (chidb_dbm_cursor_seek s fuel c key).2 h2 := by
  obtain ⟨i0, hlast⟩ := posW_getLast hp
  obtain ⟨pg2, i2, rest2, nd2, h2, hsp, hnd2, hpw⟩ := seek_partial_run hroot hfuel hlast key
  rw [chidb_dbm_cursor_seek, hsp]
  dsimp only
  rw [hnd2]
  dsimp only
  split_ifs <;> exact ⟨h2, hpw⟩

theorem seekge_posW {s : PStore} {fam : Fam} {root H : Nat}
    (hroot : wfB s fam H root none none = true) {fuel : Nat} (hfuel : H < fuel)
    {c : Cursor} {h : Nat} (hp : PosW s fam root H c h) (key : Nat) :
    ∃ h2, PosW s fam root H (chidb_dbm_cursor_seekge s fuel c key).2 h2 := by
  obtain ⟨i0, hlast⟩ := posW_getLast hp
  obtain ⟨pg2, i2, rest2, nd2, h2, hsp, hnd2, hpw⟩ := seek_partial_run hroot hfuel hlast key
  have hnx := next_posW hroot hfuel hpw
  rw [chidb_dbm_cursor_seekge, hsp]
  dsimp only
  rw [hnd2]
  dsimp only
  split_ifs <;> first | exact ⟨h2, hpw⟩ | exact hnx

theorem seekgt_posW {s : PStore} {fam : Fam} {root H : Nat}
    (hroot : wfB s fam H root none none = true) {fuel : Nat} (hfuel : H < fuel)
    {c : Cursor} {h : Nat} (hp : PosW s fam root H c h) (key : Nat) :
    ∃ h2, PosW s fam root H (chidb_dbm_cursor_seekgt s fuel c key).2 h2 := by
  obtain ⟨i0, hlast⟩ := posW_getLast hp
  obtain ⟨pg2, i2, rest2, nd2, h2, hsp, hnd2, hpw⟩ := seek_partial_run hroot hfuel hlast key
  have hnx := next_posW hroot hfuel hpw
  rw [chidb_dbm_cursor_seekgt, hsp]
  dsimp only
  rw [hnd2]
  dsimp only
  split_ifs <;> first | exact ⟨h2, hpw⟩ | exact hnx

/-- C9: confirmed.  On any well-formed table or index tree, each of the six
cursor operations (rewind, next, prev, seek, seekge, seekgt), run from any
legitimate cursor position, leaves the cursor on a legitimate descent
position whose active node is a leaf, or an INDEX_INTERNAL node (a stop that
only arises on index trees); in particular the cursor never ends up pointing
at a TABLE_INTERNAL cell. -/
theorem C9_ops_leaf_or_index_internal {s : PStore} {fam : Fam} {root H fuel : Nat}
    (hroot : wfB s fam H root none none = true) (hfuel : H < fuel)
    {c : Cursor} {h : Nat} (hp : PosW s fam root H c h) (key : Nat) :
    posOk s fam root H (chidb_dbm_cursor_rewind s fuel c).2 ∧
    posOk s fam root H (chidb_dbm_cursor_next s fuel c).2 ∧
    posOk s fam root H (chidb_dbm_cursor_prev s fuel c).2 ∧
    posOk s fam root H (chidb_dbm_cursor_seek s fuel c key).2 ∧
    posOk s fam root H (chidb_dbm_cursor_seekge s fuel c key).2 ∧
    posOk s fam root H (chidb_dbm_cursor_seekgt s fuel c key).2 := by
  have hrw : ∃ h2, PosW s fam root H (chidb_dbm_cursor_rewind s fuel c).2 h2 := by
    obtain ⟨i0, hlast⟩ := posW_getLast hp
    obtain ⟨c0, hr0, hpos0, -⟩ := rewind_spec hroot hfuel hlast
    rw [hr0]
    exact ⟨0, posW_of_posAt hpos0⟩
  exact ⟨posOk_of_exists hroot hrw,
    posOk_of_exists hroot (next_posW hroot hfuel hp),
    posOk_of_exists hroot (prev_posW hroot hfuel hp),
    posOk_of_exists hroot (seek_posW hroot hfuel hp key),
    posOk_of_exists hroot (seekge_posW hroot hfuel hp key),
    posOk_of_exists hroot (seekgt_posW hroot hfuel hp key)⟩

/-- C9 witness: on the five-key index tree, from the root position at cell 0
all six cursor operations (with key 25) land on a legitimate leaf or
INDEX_INTERNAL position. -/
theorem C9_ops_leaf_or_index_internal_witness :
    wfB c8Store Fam.index 1 1 none none = true ∧ (1 : Nat) < 2 ∧
    PosW c8Store Fam.index 1 1 ⟨[(1, 0)]⟩ 1 ∧
    (posOk c8Store Fam.index 1 1 (chidb_dbm_cursor_rewind c8Store 2 ⟨[(1, 0)]⟩).2 ∧
     posOk c8Store Fam.index 1 1 (chidb_dbm_cursor_next c8Store 2 ⟨[(1, 0)]⟩).2 ∧
     posOk c8Store Fam.index 1 1 (chidb_dbm_cursor_prev c8Store 2 ⟨[(1, 0)]⟩).2 ∧
     posOk c8Store Fam.index 1 1 (chidb_dbm_cursor_seek c8Store 2 ⟨[(1, 0)]⟩ 25).2 ∧
     posOk c8Store Fam.index 1 1 (chidb_dbm_cursor_seekge c8Store 2 ⟨[(1, 0)]⟩ 25).2 ∧
     posOk c8Store Fam.index 1 1 (chidb_dbm_cursor_seekgt c8Store 2 ⟨[(1, 0)]⟩ 25).2) :=
  ⟨by decide, by decide,
    ⟨1, 0, [], none, none, c8Root, rfl, PathTo.nil, rfl,
      Or.inr ⟨by decide, rfl, by decide⟩⟩,
    C9_ops_leaf_or_index_internal (by decide) (by decide)
      ⟨1, 0, [], none, none, c8Root, rfl, PathTo.nil, rfl,
        Or.inr ⟨by decide, rfl, by decide⟩⟩ 25⟩

end Chidb
